import Mathlib

/-!
# Camera / overlay / text compositor firmware: a shallow embedding

Lean model of `src/main.c` and `src/tflm_hello_world/main_functions.cpp`.

* Memory regions are total maps from byte offset to byte value (`Buf`); the
  offset is relative to the start of the C buffer, so a write outside the
  allocation shows up as a changed byte at an offset beyond the buffer size.
* `int` values are `Int`, `uint16_t`/`uint32_t` values are `Nat` reduced
  modulo `2^16`/`2^32` where the C code narrows.
* `float` values are modelled by `F32`: sign, integer significand and binary
  exponent, with round-to-nearest-even to 24 significant bits.
* The target is a little-endian Cortex-M33: multi-byte stores through a cast
  pointer put the least significant byte first.
-/

namespace Stm32Fw

/-! ## Constants of `main.c` and `constants.h` -/

def CAMERA_W : Nat := 160
def CAMERA_H : Nat := 120
def DISPLAY_W : Nat := 240
def DISPLAY_H : Nat := 135
def FRAME_X_OFFSET : Nat := (DISPLAY_W - CAMERA_W) / 2
def FRAME_Y_OFFSET : Nat := (DISPLAY_H - CAMERA_H) / 2
def STANDBY_TEXT_MAX_LEN : Nat := 24
def FONT_W : Nat := 8
def FONT_H : Nat := 16
def FONT_SCALE_LARGE_NUM : Int := 3
def FONT_SCALE_LARGE_DEN : Int := 2
def FONT_FIRST_CHAR : Nat := 0x20
def FONT_LAST_CHAR : Nat := 0x7E
def DISPLAY_TEXT_MAX_LEN : Nat := 32
def COLOR_BLACK : Nat := 0x00000000
def COLOR_GREEN : Nat := 0x0000FF00
def TFLM_SINE_OVERLAY_MAX_POINTS : Nat := 161

/-! ## Machine integers -/

/-- Two's-complement reduction of an `int` result to 32 bits. -/
def wrap32 (x : Int) : Int := (x + 2147483648) % 4294967296 - 2147483648

/-- The conversion `(uint16_t)x` of an `int`. -/
def u16 (x : Int) : Nat := (x % 65536).toNat

/-! ## Byte buffers -/

/-- A memory region: byte offset to byte value. -/
abbrev Buf := Nat → Nat

/-- One byte store `buf[i] = v`. -/
def store8 (buf : Buf) (i v : Nat) : Buf :=
  fun j => if j = i then v % 256 else buf j

/-- The libc call `memset(buf + off, val, n)`. -/
def memset (buf : Buf) (off val n : Nat) : Buf :=
  fun j => if off ≤ j ∧ j < off + n then val % 256 else buf j

/-- The libc call `memcpy(dst + doff, src + soff, n)`. -/
def memcpy (dst : Buf) (doff : Nat) (src : Buf) (soff n : Nat) : Buf :=
  fun j => if doff ≤ j ∧ j < doff + n then src (soff + (j - doff)) else dst j

/-- A 16-bit store through `(uint16_t *)(buf + off)`, little-endian. -/
def store16le (buf : Buf) (off v : Nat) : Buf :=
  store8 (store8 buf off (v % 256)) (off + 1) (v / 256 % 256)

/-- A 32-bit store through `(uint32_t *)(buf + off)`, little-endian. -/
def store32le (buf : Buf) (off v : Nat) : Buf :=
  store8 (store8 (store8 (store8 buf off (v % 256)) (off + 1) (v / 256 % 256))
    (off + 2) (v / 65536 % 256)) (off + 3) (v / 16777216 % 256)

/-! ## Single-precision floating point -/

/-- A binary32 value: `fin neg m e` is `(-1)^neg * m * 2^e`. -/
inductive F32 where
  | fin (neg : Bool) (m : Nat) (e : Int) : F32
  | inf (neg : Bool) : F32
  | nan : F32
deriving DecidableEq, Repr

/-- Helper of `bitlen`, by recursion on a fuel argument. -/
def bitlenAux : Nat → Nat → Nat
  | 0, _ => 0
  | f + 1, n => if n = 0 then 0 else bitlenAux f (n / 2) + 1

/-- Number of binary digits of `n` (0 for 0). -/
def bitlen (n : Nat) : Nat := bitlenAux n n

/-- The binary exponent `floor (log2 (N / D))` of a positive rational. -/
def f32_exponent (N D : Nat) : Int :=
  let k0 : Int := (bitlen N : Int) - (bitlen D : Int)
  if D * 2 ^ k0.toNat ≤ N * 2 ^ (-k0).toNat then k0 else k0 - 1

/-- Round the rational `(-1)^neg * N / D` to the nearest binary32 value, ties
to even: 24 significant bits, least exponent `-149`, overflow to infinity. -/
def f32_round (neg : Bool) (N D : Nat) : F32 :=
  if D = 0 then F32.nan
  else if N = 0 then F32.fin neg 0 0
  else
    let u : Int := max (f32_exponent N D - 23) (-149)
    let num := N * 2 ^ (-u).toNat
    let den := D * 2 ^ u.toNat
    let q := num / den
    let r := num % den
    let m := if den < 2 * r ∨ (2 * r = den ∧ q % 2 = 1) then q + 1 else q
    if 2 ^ 128 ≤ m * 2 ^ u.toNat then F32.inf neg else F32.fin neg m u

/-- The conversion `(float)i` of an `int`. -/
def f32_of_int (i : Int) : F32 := f32_round (decide (i < 0)) i.natAbs 1

/-- The product `a * b` of two `float`s. -/
def f32_mul : F32 → F32 → F32
  | F32.nan, _ => F32.nan
  | _, F32.nan => F32.nan
  | F32.inf s, F32.inf t => F32.inf (xor s t)
  | F32.inf s, F32.fin t m _ => if m = 0 then F32.nan else F32.inf (xor s t)
  | F32.fin s m _, F32.inf t => if m = 0 then F32.nan else F32.inf (xor s t)
  | F32.fin s m e, F32.fin t n f =>
      f32_round (xor s t) (m * n * 2 ^ (e + f).toNat) (2 ^ (-(e + f)).toNat)

/-- The quotient `a / b` of two `float`s. -/
def f32_div : F32 → F32 → F32
  | F32.nan, _ => F32.nan
  | _, F32.nan => F32.nan
  | F32.inf _, F32.inf _ => F32.nan
  | F32.inf s, F32.fin t _ _ => F32.inf (xor s t)
  | F32.fin s _ _, F32.inf t => F32.fin (xor s t) 0 0
  | F32.fin s m e, F32.fin t n f =>
      if n = 0 then (if m = 0 then F32.nan else F32.inf (xor s t))
      else f32_round (xor s t) (m * 2 ^ (e - f).toNat) (n * 2 ^ (f - e).toNat)

/-- The conversion `(int)x` of a `float`: the fractional part is discarded
(truncation toward zero).  C leaves the result undefined when the value does
not fit; the model takes what the Cortex-M33 `VCVT` instruction yields there:
saturation at the `int` limits, and 0 for a NaN. -/
def f32_to_int : F32 → Int
  | F32.nan => 0
  | F32.inf neg => if neg then -2147483648 else 2147483647
  | F32.fin neg m e =>
      let t : Nat := m * 2 ^ e.toNat / 2 ^ (-e).toNat
      if neg then (if 2147483648 ≤ t then -2147483648 else -(t : Int))
      else (if 2147483647 ≤ t then 2147483647 else (t : Int))

/-! ## Overlay channel (`main_functions.cpp`) -/

/-- The file-scope overlay variables `s_y_values`, `s_num_points` and
`s_overlay_ready`, with the `setup_done` flag. -/
structure Overlay where
  setup_done : Bool
  s_y_values : Nat → F32
  s_num_points : Int
  s_overlay_ready : Int

/-- Returns `atomic_get(&s_overlay_ready) != 0`. -/
def tflm_sine_overlay_is_ready (ov : Overlay) : Int :=
  if ov.s_overlay_ready ≠ 0 then 1 else 0

/-- Hands out the sample array and the count. -/
def tflm_sine_overlay_get (ov : Overlay) : (Nat → F32) × Int :=
  (ov.s_y_values, ov.s_num_points)

/-! ## Compositor (`main.c`) -/

/-- The RGB565 value of a `0x00RRGGBB` colour. -/
def c565 (color : Nat) : Nat :=
  let r := (color >>> 16) &&& 0xFF
  let g := (color >>> 8) &&& 0xFF
  let b := color &&& 0xFF
  ((r >>> 3) <<< 11) ||| ((g >>> 2) <<< 5) ||| (b >>> 3)

/-- Set one pixel of the `DISPLAY_W x DISPLAY_H` RGB565 display buffer;
`dx`, `dy` are the `uint16_t` arguments. -/
def set_display_pixel_rgb565 (dst : Buf) (dx dy : Nat) (color : Nat) : Buf :=
  if dx ≥ DISPLAY_W ∨ dy ≥ DISPLAY_H then dst
  else
    let pixel_index := (dy * DISPLAY_W + dx) % 4294967296
    let byte_index := pixel_index * 2 % 4294967296
    store8 (store8 dst byte_index ((c565 color >>> 8) &&& 0xFF))
      (byte_index + 1) (c565 color &&& 0xFF)

/-- The `i`-th point of the interpolation loop of `draw_line_rgb565`. -/
def line_point (x0 y0 x1 y1 : Int) (i : Nat) : Int × Int :=
  let dx := x1 - x0
  let dy := y1 - y0
  let ax := if dx < 0 then -dx else dx
  let ay := if dy < 0 then -dy else dy
  let steps := if ax > ay then ax else ay
  let t := if steps = 0 then 0 else Int.tdiv ((i : Int) * 65536) steps
  (x0 + Int.tdiv (dx * t) 65536, y0 + Int.tdiv (dy * t) 65536)

/-- Draw a line segment into the display buffer.  The `int` arithmetic is
taken without wrap-around: the function is only called with both endpoints
inside the display, where every intermediate value is below `2^31`. -/
def draw_line_rgb565 (dst : Buf) (x0 y0 x1 y1 : Int) (color : Nat) : Buf :=
  let dx := x1 - x0
  let dy := y1 - y0
  let ax := if dx < 0 then -dx else dx
  let ay := if dy < 0 then -dy else dy
  let steps := if ax > ay then ax else ay
  if steps ≤ 0 then set_display_pixel_rgb565 dst (u16 x0) (u16 y0) color
  else
    (List.range (steps.toNat + 1)).foldl
      (fun d i =>
        let p := line_point x0 y0 x1 y1 i
        set_display_pixel_rgb565 d (u16 p.1) (u16 p.2) color)
      dst

/-- The column `px` that `draw_sine_overlay` computes for sample `i` of
`num_points`. -/
def overlay_px (i : Nat) (num_points : Int) : Int :=
  let px := wrap32 ((FRAME_X_OFFSET : Int) +
    f32_to_int (f32_div (f32_mul (f32_of_int i) (f32_of_int ((CAMERA_W : Int) - 1)))
      (f32_of_int (if num_points > 1 then num_points - 1 else 1))))
  if px ≥ (FRAME_X_OFFSET : Int) + (CAMERA_W : Int) then
    (FRAME_X_OFFSET : Int) + (CAMERA_W : Int) - 1
  else px

/-- The row `py` of a sample before the two clamping tests. -/
def overlay_py_raw (y : F32) : Int :=
  let center_y : Int := (FRAME_Y_OFFSET : Int) + (CAMERA_H : Int) / 2
  let amplitude : Int := (CAMERA_H : Int) / 2 - 4
  wrap32 (center_y - f32_to_int (f32_mul y (f32_of_int amplitude)))

/-- The row `py` of a sample after clamping. -/
def overlay_py (y : F32) : Int :=
  let py := overlay_py_raw y
  let py := if py < (FRAME_Y_OFFSET : Int) then (FRAME_Y_OFFSET : Int) else py
  if py ≥ (FRAME_Y_OFFSET : Int) + (CAMERA_H : Int) then
    (FRAME_Y_OFFSET : Int) + (CAMERA_H : Int) - 1
  else py

/-- Loop state of `draw_sine_overlay`: the buffer with `prev_px`, `prev_py`. -/
structure OverlayLoop where
  dst : Buf
  prev_px : Int
  prev_py : Int

/-- One iteration of the sample loop of `draw_sine_overlay`. -/
def overlay_step (y_values : Nat → F32) (num_points : Int) (s : OverlayLoop)
    (i : Nat) : OverlayLoop :=
  let px := overlay_px i num_points
  let py := overlay_py (y_values i)
  let d := set_display_pixel_rgb565 s.dst (u16 px) (u16 py) COLOR_GREEN
  let d := if s.prev_px ≥ 0 then
      draw_line_rgb565 d s.prev_px s.prev_py px py COLOR_GREEN
    else d
  { dst := d, prev_px := px, prev_py := py }

/-- Draw the sine overlay from the precomputed buffer. -/
def draw_sine_overlay (ov : Overlay) (dst : Buf) : Buf :=
  let amplitude : Int := (CAMERA_H : Int) / 2 - 4
  if amplitude ≤ 0 then dst
  else if tflm_sine_overlay_is_ready ov = 0 then dst
  else
    let (y_values, num_points) := tflm_sine_overlay_get ov
    if num_points ≤ 0 then dst
    else
      ((List.range num_points.toNat).foldl (overlay_step y_values num_points)
        { dst := dst, prev_px := -1, prev_py := -1 }).dst

/-- The row loop of `copy_frame_to_display`: one `memcpy` per camera row. -/
def copy_rows (src dst : Buf) : Buf :=
  (List.range CAMERA_H).foldl
    (fun d y =>
      memcpy d (((FRAME_Y_OFFSET + y) * DISPLAY_W + FRAME_X_OFFSET) * 2)
        src (y * CAMERA_W * 2) (CAMERA_W * 2))
    dst

/-- Copy the camera frame centred into the display buffer and draw the
overlay.  `borders_cleared` is the function's static flag; the result carries
its new value. -/
def copy_frame_to_display (borders_cleared : Int) (ov : Overlay) (src dst : Buf) :
    Int × Buf :=
  let cleared := if borders_cleared = 0 then memset dst 0 0 (DISPLAY_W * DISPLAY_H * 2)
    else dst
  (if borders_cleared = 0 then 1 else borders_cleared,
   draw_sine_overlay ov (copy_rows src cleared))

/-! ## Pixel helpers and text rendering (`main.c`) -/

/-- The display pixel formats of `enum display_pixel_format` that the firmware
distinguishes. -/
inductive display_pixel_format where
  | PIXEL_FORMAT_RGB_888
  | PIXEL_FORMAT_MONO01
  | PIXEL_FORMAT_MONO10
  | PIXEL_FORMAT_ARGB_8888
  | PIXEL_FORMAT_RGB_565
  | PIXEL_FORMAT_BGR_565
  | PIXEL_FORMAT_L_8
deriving DecidableEq, Repr

open display_pixel_format

/-- Bytes per pixel of a format. -/
def get_bpp : display_pixel_format → Nat
  | PIXEL_FORMAT_ARGB_8888 => 4
  | PIXEL_FORMAT_RGB_888 => 3
  | PIXEL_FORMAT_RGB_565 => 2
  | PIXEL_FORMAT_BGR_565 => 2
  | _ => 1

/-- Write one pixel in a given colour (`0x00RRGGBB`) into the buffer. -/
def set_pixel_color (buf : Buf) (offset : Nat) (fmt : display_pixel_format)
    (color : Nat) : Buf :=
  let r := (color >>> 16) &&& 0xFF
  let g := (color >>> 8) &&& 0xFF
  let b := color &&& 0xFF
  match fmt with
  | PIXEL_FORMAT_RGB_565 =>
      let c := ((r >>> 3) <<< 11) ||| ((g >>> 2) <<< 5) ||| (b >>> 3)
      store8 (store8 buf offset ((c >>> 8) &&& 0xFF)) (offset + 1) (c &&& 0xFF)
  | PIXEL_FORMAT_BGR_565 =>
      let c := ((r >>> 3) <<< 11) ||| ((g >>> 2) <<< 5) ||| (b >>> 3)
      store16le buf offset c
  | PIXEL_FORMAT_RGB_888 =>
      store8 (store8 (store8 buf offset r) (offset + 1) g) (offset + 2) b
  | PIXEL_FORMAT_ARGB_8888 =>
      store32le buf offset ((0xFF000000 ||| color) % 4294967296)
  | _ => store8 buf offset ((r + g + b) / 3)

/-- The 8x16 bitmap font for printable ASCII `0x20..0x7E`: 95 glyphs of 16
row bytes, most significant bit leftmost. -/
def font_ascii : List (List Nat) := [
  [0x00, 0x00, 0x00, 0x00, 0x00, 0x00, 0x00, 0x00, 0x00, 0x00, 0x00, 0x00, 0x00, 0x00, 0x00, 0x00],  -- 0x20
  [0x00, 0x00, 0x18, 0x3C, 0x3C, 0x3C, 0x18, 0x18, 0x18, 0x00, 0x18, 0x18, 0x00, 0x00, 0x00, 0x00],  -- 0x21
  [0x00, 0x66, 0x66, 0x66, 0x24, 0x00, 0x00, 0x00, 0x00, 0x00, 0x00, 0x00, 0x00, 0x00, 0x00, 0x00],  -- 0x22
  [0x00, 0x00, 0x00, 0x6C, 0x6C, 0xFE, 0x6C, 0x6C, 0x6C, 0xFE, 0x6C, 0x6C, 0x00, 0x00, 0x00, 0x00],  -- 0x23
  [0x18, 0x18, 0x7C, 0xC6, 0xC2, 0xC0, 0x7C, 0x06, 0x06, 0x86, 0xC6, 0x7C, 0x18, 0x18, 0x00, 0x00],  -- 0x24
  [0x00, 0x00, 0x00, 0x00, 0xC2, 0xC6, 0x0C, 0x18, 0x30, 0x60, 0xC6, 0x86, 0x00, 0x00, 0x00, 0x00],  -- 0x25
  [0x00, 0x00, 0x38, 0x6C, 0x6C, 0x38, 0x76, 0xDC, 0xCC, 0xCC, 0xCC, 0x76, 0x00, 0x00, 0x00, 0x00],  -- 0x26
  [0x00, 0x30, 0x30, 0x30, 0x60, 0x00, 0x00, 0x00, 0x00, 0x00, 0x00, 0x00, 0x00, 0x00, 0x00, 0x00],  -- 0x27
  [0x00, 0x00, 0x0C, 0x18, 0x30, 0x30, 0x30, 0x30, 0x30, 0x30, 0x18, 0x0C, 0x00, 0x00, 0x00, 0x00],  -- 0x28
  [0x00, 0x00, 0x30, 0x18, 0x0C, 0x0C, 0x0C, 0x0C, 0x0C, 0x0C, 0x18, 0x30, 0x00, 0x00, 0x00, 0x00],  -- 0x29
  [0x00, 0x00, 0x00, 0x00, 0x00, 0x66, 0x3C, 0xFF, 0x3C, 0x66, 0x00, 0x00, 0x00, 0x00, 0x00, 0x00],  -- 0x2A
  [0x00, 0x00, 0x00, 0x00, 0x00, 0x18, 0x18, 0x7E, 0x18, 0x18, 0x00, 0x00, 0x00, 0x00, 0x00, 0x00],  -- 0x2B
  [0x00, 0x00, 0x00, 0x00, 0x00, 0x00, 0x00, 0x00, 0x00, 0x18, 0x18, 0x18, 0x30, 0x00, 0x00, 0x00],  -- 0x2C
  [0x00, 0x00, 0x00, 0x00, 0x00, 0x00, 0x00, 0xFE, 0x00, 0x00, 0x00, 0x00, 0x00, 0x00, 0x00, 0x00],  -- 0x2D
  [0x00, 0x00, 0x00, 0x00, 0x00, 0x00, 0x00, 0x00, 0x00, 0x00, 0x18, 0x18, 0x00, 0x00, 0x00, 0x00],  -- 0x2E
  [0x00, 0x00, 0x00, 0x00, 0x02, 0x06, 0x0C, 0x18, 0x30, 0x60, 0xC0, 0x80, 0x00, 0x00, 0x00, 0x00],  -- 0x2F
  [0x00, 0x00, 0x3C, 0x66, 0x66, 0x76, 0x6E, 0x66, 0x66, 0x66, 0x3C, 0x00, 0x00, 0x00, 0x00, 0x00],  -- 0x30
  [0x00, 0x00, 0x18, 0x38, 0x78, 0x18, 0x18, 0x18, 0x18, 0x18, 0x7E, 0x00, 0x00, 0x00, 0x00, 0x00],  -- 0x31
  [0x00, 0x00, 0x3C, 0x66, 0x06, 0x0C, 0x18, 0x30, 0x60, 0x66, 0x7E, 0x00, 0x00, 0x00, 0x00, 0x00],  -- 0x32
  [0x00, 0x00, 0x3C, 0x66, 0x06, 0x1C, 0x06, 0x06, 0x06, 0x66, 0x3C, 0x00, 0x00, 0x00, 0x00, 0x00],  -- 0x33
  [0x00, 0x00, 0x0C, 0x1C, 0x3C, 0x6C, 0xCC, 0xFE, 0x0C, 0x0C, 0x1E, 0x00, 0x00, 0x00, 0x00, 0x00],  -- 0x34
  [0x00, 0x00, 0x7E, 0x60, 0x60, 0x7C, 0x06, 0x06, 0x06, 0x66, 0x3C, 0x00, 0x00, 0x00, 0x00, 0x00],  -- 0x35
  [0x00, 0x00, 0x1C, 0x30, 0x60, 0x7C, 0x66, 0x66, 0x66, 0x66, 0x3C, 0x00, 0x00, 0x00, 0x00, 0x00],  -- 0x36
  [0x00, 0x00, 0x7E, 0x66, 0x06, 0x0C, 0x18, 0x18, 0x18, 0x18, 0x18, 0x00, 0x00, 0x00, 0x00, 0x00],  -- 0x37
  [0x00, 0x00, 0x3C, 0x66, 0x66, 0x3C, 0x66, 0x66, 0x66, 0x66, 0x3C, 0x00, 0x00, 0x00, 0x00, 0x00],  -- 0x38
  [0x00, 0x00, 0x3C, 0x66, 0x66, 0x3E, 0x06, 0x06, 0x06, 0x0C, 0x38, 0x00, 0x00, 0x00, 0x00, 0x00],  -- 0x39
  [0x00, 0x00, 0x00, 0x00, 0x18, 0x18, 0x00, 0x00, 0x00, 0x18, 0x18, 0x00, 0x00, 0x00, 0x00, 0x00],  -- 0x3A
  [0x00, 0x00, 0x00, 0x00, 0x18, 0x18, 0x00, 0x00, 0x00, 0x18, 0x18, 0x30, 0x00, 0x00, 0x00, 0x00],  -- 0x3B
  [0x00, 0x00, 0x00, 0x06, 0x0C, 0x18, 0x30, 0x60, 0x30, 0x18, 0x0C, 0x06, 0x00, 0x00, 0x00, 0x00],  -- 0x3C
  [0x00, 0x00, 0x00, 0x00, 0x00, 0x7E, 0x00, 0x00, 0x7E, 0x00, 0x00, 0x00, 0x00, 0x00, 0x00, 0x00],  -- 0x3D
  [0x00, 0x00, 0x00, 0x60, 0x30, 0x18, 0x0C, 0x06, 0x0C, 0x18, 0x30, 0x60, 0x00, 0x00, 0x00, 0x00],  -- 0x3E
  [0x00, 0x00, 0x3C, 0x66, 0x66, 0x06, 0x0C, 0x18, 0x18, 0x00, 0x18, 0x18, 0x00, 0x00, 0x00, 0x00],  -- 0x3F
  [0x00, 0x00, 0x00, 0x7C, 0xC6, 0xC6, 0xDE, 0xDE, 0xDE, 0xDC, 0xC0, 0x7C, 0x00, 0x00, 0x00, 0x00],  -- 0x40
  [0x00, 0x00, 0x10, 0x38, 0x6C, 0xC6, 0xC6, 0xFE, 0xC6, 0xC6, 0xC6, 0xC6, 0x00, 0x00, 0x00, 0x00],  -- 0x41
  [0x00, 0x00, 0xFC, 0x66, 0x66, 0x66, 0x7C, 0x66, 0x66, 0x66, 0x66, 0xFC, 0x00, 0x00, 0x00, 0x00],  -- 0x42
  [0x00, 0x00, 0x3C, 0x66, 0xC2, 0xC0, 0xC0, 0xC0, 0xC0, 0xC2, 0x66, 0x3C, 0x00, 0x00, 0x00, 0x00],  -- 0x43
  [0x00, 0x00, 0xF8, 0x6C, 0x66, 0x66, 0x66, 0x66, 0x66, 0x66, 0x6C, 0xF8, 0x00, 0x00, 0x00, 0x00],  -- 0x44
  [0x00, 0x00, 0xFE, 0x66, 0x62, 0x68, 0x78, 0x68, 0x60, 0x62, 0x66, 0xFE, 0x00, 0x00, 0x00, 0x00],  -- 0x45
  [0x00, 0x00, 0xFE, 0x66, 0x62, 0x68, 0x78, 0x68, 0x60, 0x60, 0x60, 0xF0, 0x00, 0x00, 0x00, 0x00],  -- 0x46
  [0x00, 0x00, 0x3C, 0x66, 0xC2, 0xC0, 0xC0, 0xDE, 0xC6, 0xC6, 0x66, 0x3A, 0x00, 0x00, 0x00, 0x00],  -- 0x47
  [0x00, 0x00, 0xC6, 0xC6, 0xC6, 0xC6, 0xFE, 0xC6, 0xC6, 0xC6, 0xC6, 0xC6, 0x00, 0x00, 0x00, 0x00],  -- 0x48
  [0x00, 0x00, 0x3C, 0x18, 0x18, 0x18, 0x18, 0x18, 0x18, 0x18, 0x18, 0x3C, 0x00, 0x00, 0x00, 0x00],  -- 0x49
  [0x00, 0x00, 0x1E, 0x0C, 0x0C, 0x0C, 0x0C, 0x0C, 0xCC, 0xCC, 0xCC, 0x78, 0x00, 0x00, 0x00, 0x00],  -- 0x4A
  [0x00, 0x00, 0xE6, 0x66, 0x66, 0x6C, 0x78, 0x78, 0x6C, 0x66, 0x66, 0xE6, 0x00, 0x00, 0x00, 0x00],  -- 0x4B
  [0x00, 0x00, 0xF0, 0x60, 0x60, 0x60, 0x60, 0x60, 0x60, 0x62, 0x66, 0xFE, 0x00, 0x00, 0x00, 0x00],  -- 0x4C
  [0x00, 0x00, 0xC6, 0xEE, 0xFE, 0xFE, 0xD6, 0xC6, 0xC6, 0xC6, 0xC6, 0xC6, 0x00, 0x00, 0x00, 0x00],  -- 0x4D
  [0x00, 0x00, 0xC6, 0xE6, 0xF6, 0xFE, 0xDE, 0xCE, 0xC6, 0xC6, 0xC6, 0xC6, 0x00, 0x00, 0x00, 0x00],  -- 0x4E
  [0x00, 0x00, 0x7C, 0xC6, 0xC6, 0xC6, 0xC6, 0xC6, 0xC6, 0xC6, 0xC6, 0x7C, 0x00, 0x00, 0x00, 0x00],  -- 0x4F
  [0x00, 0x00, 0xFC, 0x66, 0x66, 0x66, 0x7C, 0x60, 0x60, 0x60, 0x60, 0xF0, 0x00, 0x00, 0x00, 0x00],  -- 0x50
  [0x00, 0x00, 0x7C, 0xC6, 0xC6, 0xC6, 0xC6, 0xC6, 0xC6, 0xD6, 0xDE, 0x7C, 0x0C, 0x0E, 0x00, 0x00],  -- 0x51
  [0x00, 0x00, 0xFC, 0x66, 0x66, 0x66, 0x7C, 0x6C, 0x66, 0x66, 0x66, 0xE6, 0x00, 0x00, 0x00, 0x00],  -- 0x52
  [0x00, 0x00, 0x7C, 0xC6, 0xC6, 0x60, 0x38, 0x0C, 0x06, 0xC6, 0xC6, 0x7C, 0x00, 0x00, 0x00, 0x00],  -- 0x53
  [0x00, 0x00, 0xFF, 0xDB, 0x99, 0x18, 0x18, 0x18, 0x18, 0x18, 0x18, 0x3C, 0x00, 0x00, 0x00, 0x00],  -- 0x54
  [0x00, 0x00, 0xC6, 0xC6, 0xC6, 0xC6, 0xC6, 0xC6, 0xC6, 0xC6, 0xC6, 0x7C, 0x00, 0x00, 0x00, 0x00],  -- 0x55
  [0x00, 0x00, 0xC6, 0xC6, 0xC6, 0xC6, 0xC6, 0xC6, 0xC6, 0x6C, 0x38, 0x10, 0x00, 0x00, 0x00, 0x00],  -- 0x56
  [0x00, 0x00, 0xC6, 0xC6, 0xC6, 0xC6, 0xD6, 0xD6, 0xD6, 0xFE, 0xEE, 0x6C, 0x00, 0x00, 0x00, 0x00],  -- 0x57
  [0x00, 0x00, 0xC6, 0xC6, 0x6C, 0x7C, 0x38, 0x38, 0x7C, 0x6C, 0xC6, 0xC6, 0x00, 0x00, 0x00, 0x00],  -- 0x58
  [0x00, 0x00, 0xCC, 0xCC, 0xCC, 0xCC, 0x78, 0x30, 0x30, 0x30, 0x30, 0x78, 0x00, 0x00, 0x00, 0x00],  -- 0x59
  [0x00, 0x00, 0xFE, 0xC6, 0x86, 0x0C, 0x18, 0x30, 0x60, 0xC2, 0xC6, 0xFE, 0x00, 0x00, 0x00, 0x00],  -- 0x5A
  [0x00, 0x00, 0x3C, 0x30, 0x30, 0x30, 0x30, 0x30, 0x30, 0x30, 0x30, 0x3C, 0x00, 0x00, 0x00, 0x00],  -- 0x5B
  [0x00, 0x00, 0x00, 0x80, 0xC0, 0xE0, 0x70, 0x38, 0x1C, 0x0E, 0x06, 0x02, 0x00, 0x00, 0x00, 0x00],  -- 0x5C
  [0x00, 0x00, 0x3C, 0x0C, 0x0C, 0x0C, 0x0C, 0x0C, 0x0C, 0x0C, 0x0C, 0x3C, 0x00, 0x00, 0x00, 0x00],  -- 0x5D
  [0x10, 0x38, 0x6C, 0xC6, 0x00, 0x00, 0x00, 0x00, 0x00, 0x00, 0x00, 0x00, 0x00, 0x00, 0x00, 0x00],  -- 0x5E
  [0x00, 0x00, 0x00, 0x00, 0x00, 0x00, 0x00, 0x00, 0x00, 0x00, 0x00, 0x00, 0xFF, 0x00, 0x00, 0x00],  -- 0x5F
  [0x30, 0x30, 0x18, 0x00, 0x00, 0x00, 0x00, 0x00, 0x00, 0x00, 0x00, 0x00, 0x00, 0x00, 0x00, 0x00],  -- 0x60
  [0x00, 0x00, 0x00, 0x00, 0x00, 0x78, 0x0C, 0x7C, 0xCC, 0xCC, 0xCC, 0x76, 0x00, 0x00, 0x00, 0x00],  -- 0x61
  [0x00, 0x00, 0xE0, 0x60, 0x60, 0x78, 0x6C, 0x66, 0x66, 0x66, 0x66, 0x7C, 0x00, 0x00, 0x00, 0x00],  -- 0x62
  [0x00, 0x00, 0x00, 0x00, 0x00, 0x7C, 0xC6, 0xC0, 0xC0, 0xC0, 0xC6, 0x7C, 0x00, 0x00, 0x00, 0x00],  -- 0x63
  [0x00, 0x00, 0x1C, 0x0C, 0x0C, 0x3C, 0x6C, 0xCC, 0xCC, 0xCC, 0xCC, 0x76, 0x00, 0x00, 0x00, 0x00],  -- 0x64
  [0x00, 0x00, 0x00, 0x00, 0x00, 0x7C, 0xC6, 0xFE, 0xC0, 0xC0, 0xC6, 0x7C, 0x00, 0x00, 0x00, 0x00],  -- 0x65
  [0x00, 0x00, 0x1C, 0x36, 0x32, 0x30, 0x78, 0x30, 0x30, 0x30, 0x30, 0x78, 0x00, 0x00, 0x00, 0x00],  -- 0x66
  [0x00, 0x00, 0x00, 0x00, 0x00, 0x76, 0xCC, 0xCC, 0xCC, 0xCC, 0xCC, 0x7C, 0x0C, 0xCC, 0x78, 0x00],  -- 0x67
  [0x00, 0x00, 0xE0, 0x60, 0x60, 0x6C, 0x76, 0x66, 0x66, 0x66, 0x66, 0xE6, 0x00, 0x00, 0x00, 0x00],  -- 0x68
  [0x00, 0x00, 0x18, 0x18, 0x00, 0x38, 0x18, 0x18, 0x18, 0x18, 0x18, 0x3C, 0x00, 0x00, 0x00, 0x00],  -- 0x69
  [0x00, 0x00, 0x06, 0x06, 0x00, 0x0E, 0x06, 0x06, 0x06, 0x06, 0x06, 0x06, 0x66, 0x66, 0x3C, 0x00],  -- 0x6A
  [0x00, 0x00, 0xE0, 0x60, 0x60, 0x66, 0x6C, 0x78, 0x78, 0x6C, 0x66, 0xE6, 0x00, 0x00, 0x00, 0x00],  -- 0x6B
  [0x00, 0x00, 0x38, 0x18, 0x18, 0x18, 0x18, 0x18, 0x18, 0x18, 0x18, 0x3C, 0x00, 0x00, 0x00, 0x00],  -- 0x6C
  [0x00, 0x00, 0x00, 0x00, 0x00, 0xEC, 0xFE, 0xD6, 0xD6, 0xD6, 0xD6, 0xC6, 0x00, 0x00, 0x00, 0x00],  -- 0x6D
  [0x00, 0x00, 0x00, 0x00, 0x00, 0xDC, 0x66, 0x66, 0x66, 0x66, 0x66, 0x66, 0x00, 0x00, 0x00, 0x00],  -- 0x6E
  [0x00, 0x00, 0x00, 0x00, 0x00, 0x7C, 0xC6, 0xC6, 0xC6, 0xC6, 0xC6, 0x7C, 0x00, 0x00, 0x00, 0x00],  -- 0x6F
  [0x00, 0x00, 0x00, 0x00, 0x00, 0xDC, 0x66, 0x66, 0x66, 0x66, 0x66, 0x7C, 0x60, 0x60, 0xF0, 0x00],  -- 0x70
  [0x00, 0x00, 0x00, 0x00, 0x00, 0x76, 0xCC, 0xCC, 0xCC, 0xCC, 0xCC, 0x7C, 0x0C, 0x0C, 0x1E, 0x00],  -- 0x71
  [0x00, 0x00, 0x00, 0x00, 0x00, 0xDC, 0x76, 0x66, 0x60, 0x60, 0x60, 0xF0, 0x00, 0x00, 0x00, 0x00],  -- 0x72
  [0x00, 0x00, 0x00, 0x00, 0x00, 0x7C, 0xC6, 0x60, 0x38, 0x0C, 0xC6, 0x7C, 0x00, 0x00, 0x00, 0x00],  -- 0x73
  [0x00, 0x00, 0x10, 0x30, 0x30, 0xFC, 0x30, 0x30, 0x30, 0x30, 0x36, 0x1C, 0x00, 0x00, 0x00, 0x00],  -- 0x74
  [0x00, 0x00, 0x00, 0x00, 0x00, 0xCC, 0xCC, 0xCC, 0xCC, 0xCC, 0xCC, 0x76, 0x00, 0x00, 0x00, 0x00],  -- 0x75
  [0x00, 0x00, 0x00, 0x00, 0x00, 0xC6, 0xC6, 0xC6, 0xC6, 0xC6, 0x6C, 0x38, 0x00, 0x00, 0x00, 0x00],  -- 0x76
  [0x00, 0x00, 0x00, 0x00, 0x00, 0xC6, 0xC6, 0xD6, 0xD6, 0xD6, 0xFE, 0x6C, 0x00, 0x00, 0x00, 0x00],  -- 0x77
  [0x00, 0x00, 0x00, 0x00, 0x00, 0xC6, 0x6C, 0x38, 0x38, 0x38, 0x6C, 0xC6, 0x00, 0x00, 0x00, 0x00],  -- 0x78
  [0x00, 0x00, 0x00, 0x00, 0x00, 0xC6, 0xC6, 0xC6, 0xC6, 0xC6, 0xC6, 0x7E, 0x06, 0x0C, 0xF8, 0x00],  -- 0x79
  [0x00, 0x00, 0x00, 0x00, 0x00, 0xFE, 0xCC, 0x18, 0x30, 0x60, 0xC6, 0xFE, 0x00, 0x00, 0x00, 0x00],  -- 0x7A
  [0x00, 0x00, 0x0E, 0x18, 0x18, 0x18, 0x70, 0x18, 0x18, 0x18, 0x18, 0x0E, 0x00, 0x00, 0x00, 0x00],  -- 0x7B
  [0x00, 0x00, 0x18, 0x18, 0x18, 0x18, 0x00, 0x18, 0x18, 0x18, 0x18, 0x18, 0x00, 0x00, 0x00, 0x00],  -- 0x7C
  [0x00, 0x00, 0x70, 0x18, 0x18, 0x18, 0x0E, 0x18, 0x18, 0x18, 0x18, 0x70, 0x00, 0x00, 0x00, 0x00],  -- 0x7D
  [0x00, 0x00, 0x76, 0xDC, 0x00, 0x00, 0x00, 0x00, 0x00, 0x00, 0x00, 0x00, 0x00, 0x00, 0x00, 0x00]  -- 0x7E
]

/-- The glyph bitmap of a printable ASCII character, `none` (the C `NULL`)
for every other character; `ch` is the byte value of the `char`. -/
def glyph_for_char (ch : Nat) : Option (List Nat) :=
  if ch ≥ FONT_FIRST_CHAR ∧ ch ≤ FONT_LAST_CHAR then
    some (font_ascii.getD (ch - FONT_FIRST_CHAR) [])
  else none

/-- The fields of `struct display_buffer_descriptor` that `display_text` sets. -/
structure display_buffer_descriptor where
  buf_size : Nat
  width : Nat
  height : Nat
  pitch : Nat
deriving DecidableEq, Repr

/-- The arguments of the `display_write` call that ends `display_text`. -/
structure TextWrite where
  x : Nat
  y : Nat
  desc : display_buffer_descriptor
  buf : Buf

/-- The `len` of `display_text`: `strlen(str)` clamped to
`DISPLAY_TEXT_MAX_LEN`. -/
def text_len (str : List Nat) : Nat :=
  if str.length > DISPLAY_TEXT_MAX_LEN then DISPLAY_TEXT_MAX_LEN else str.length

/-- The clamped `scale_num` of `display_text`. -/
def clamp_scale_num (scale_num : Int) : Int :=
  let n := if scale_num < 1 then 1 else scale_num
  if n > FONT_SCALE_LARGE_NUM then FONT_SCALE_LARGE_NUM else n

/-- The clamped `scale_den` of `display_text`. -/
def clamp_scale_den (scale_den : Int) : Int :=
  let d := if scale_den < 1 then 1 else scale_den
  if d > FONT_SCALE_LARGE_DEN then FONT_SCALE_LARGE_DEN else d

/-- The `uint16_t glyph_w` of `display_text`, from the clamped scale. -/
def glyph_w (sn sd : Int) : Nat :=
  let w := u16 (Int.tdiv ((FONT_W : Int) * sn) sd)
  if w < 1 then 1 else w

/-- The `uint16_t glyph_h` of `display_text`, from the clamped scale. -/
def glyph_h (sn sd : Int) : Nat :=
  let h := u16 (Int.tdiv ((FONT_H : Int) * sn) sd)
  if h < 1 then 1 else h

/-- The background fill of `display_text`. -/
def fill_background (text_buf : Buf) (fmt : display_pixel_format) (bpp total_px bg_color : Nat) :
    Buf :=
  if bg_color = COLOR_BLACK then memset text_buf 0 0x00 (total_px * bpp % 4294967296)
  else
    (List.range total_px).foldl
      (fun b px => set_pixel_color b (px * bpp % 4294967296) fmt bg_color) text_buf

/-- The 1:1 branch of the character loop body: direct copy of the glyph of
character number `c`. -/
def draw_glyph_direct (text_buf : Buf) (fmt : display_pixel_format) (bpp text_w c : Nat)
    (glyph : List Nat) (fg_color : Nat) : Buf :=
  (List.range FONT_H).foldl
    (fun b row =>
      let bits := glyph.getD row 0
      (List.range FONT_W).foldl
        (fun b col =>
          if bits &&& (0x80 >>> col) ≠ 0 then
            let px := (row * text_w + c * FONT_W + col) % 4294967296
            set_pixel_color b (px * bpp % 4294967296) fmt fg_color
          else b)
        b)
    text_buf

/-- The scaled branch of the character loop body: nearest-neighbour sampling
from 8x16 to `gw x gh`. -/
def draw_glyph_scaled (text_buf : Buf) (fmt : display_pixel_format) (bpp text_w c gw gh : Nat)
    (glyph : List Nat) (fg_color : Nat) : Buf :=
  (List.range gh).foldl
    (fun b dy =>
      let src_row := dy * FONT_H / gh
      let bits := glyph.getD src_row 0
      (List.range gw).foldl
        (fun b dx =>
          let src_col := dx * FONT_W / gw
          if bits &&& (0x80 >>> src_col) ≠ 0 then
            let px := (dy * text_w + (c * gw + dx)) % 4294967296
            set_pixel_color b (px * bpp % 4294967296) fmt fg_color
          else b)
        b)
    text_buf

/-- Render a string with configurable colours and scale.  `fmt` is
`caps->current_pixel_format`, `str` the bytes of the C string before its
terminator; the result is the `display_write` call the function ends with. -/
def display_text (fmt : display_pixel_format) (str : List Nat) (x_pos y_pos : Nat)
    (fg_color bg_color : Nat) (text_buf : Buf) (bpp : Nat) (scale_num scale_den : Int) :
    TextWrite :=
  let len := text_len str
  let sn := clamp_scale_num scale_num
  let sd := clamp_scale_den scale_den
  let gw := glyph_w sn sd
  let gh := glyph_h sn sd
  let text_w := len * gw % 65536
  let text_h := gh
  let total_px := text_w * text_h % 4294967296
  let filled := fill_background text_buf fmt bpp total_px bg_color
  let drawn := (List.range len).foldl
    (fun b c =>
      match glyph_for_char (str.getD c 0) with
      | none => b
      | some glyph =>
          if sn = 1 ∧ sd = 1 then draw_glyph_direct b fmt bpp text_w c glyph fg_color
          else draw_glyph_scaled b fmt bpp text_w c gw gh glyph fg_color)
    filled
  { x := x_pos, y := y_pos,
    desc := { buf_size := total_px * bpp % 4294967296, width := text_w,
              height := text_h, pitch := text_w },
    buf := drawn }

/-! ## Overlay producer (`main_functions.cpp`) -/

/-- The constant `kXrange = 2.f * 3.14159265359f`: the binary32 value nearest
to pi is `13176795 * 2^-22`, and doubling it is exact. -/
def kXrange : F32 := F32.fin false 13176795 (-21)

/-- The argument `x` of the `i`-th prediction:
`(float)i / (float)(n - 1) * kXrange` with `n = TFLM_SINE_OVERLAY_MAX_POINTS`. -/
def overlay_x (i : Nat) : F32 :=
  f32_mul (f32_div (f32_of_int i) (f32_of_int ((TFLM_SINE_OVERLAY_MAX_POINTS : Int) - 1)))
    kXrange

/-- The static initial values of the overlay variables: all zero. -/
def overlay_init : Overlay :=
  { setup_done := false
    s_y_values := fun _ => F32.fin false 0 0
    s_num_points := 0
    s_overlay_ready := 0 }

/-- Program points of `tflm_sine_fill_overlay_buffer`. -/
inductive FillPc where
  | entry : FillPc
  | check : FillPc
  | loop (i : Nat) : FillPc
  | store_count : FillPc
  | publish : FillPc
  | done : FillPc
deriving DecidableEq, Repr

/-- The producer thread inside `tflm_sine_fill_overlay_buffer`: its program
point and the overlay variables. -/
structure Producer where
  pc : FillPc
  ov : Overlay

/-- One step of `tflm_sine_fill_overlay_buffer`.  `setup_ok` tells whether the
call of `tflm_sine_setup` gets through the schema check and the tensor
allocation (the TensorFlow Lite runtime is outside the repository), `predict`
is `tflm_sine_predict` on the interpreter that was set up.

* `entry`: the call `tflm_sine_setup()`;
* `check`: the test `if (!setup_done) return;`;
* `loop i`: the loop test and the store `s_y_values[i] = tflm_sine_predict(x)`;
* `store_count`: `s_num_points = n`;
* `publish`: `atomic_set(&s_overlay_ready, 1)`;
* `done`: the function has returned. -/
def fill_step (setup_ok : Bool) (predict : F32 → F32) (p : Producer) : Producer :=
  match p.pc with
  | FillPc.entry =>
      { pc := FillPc.check, ov := { p.ov with setup_done := p.ov.setup_done || setup_ok } }
  | FillPc.check =>
      if p.ov.setup_done then { p with pc := FillPc.loop 0 } else { p with pc := FillPc.done }
  | FillPc.loop i =>
      if i < TFLM_SINE_OVERLAY_MAX_POINTS then
        { pc := FillPc.loop (i + 1),
          ov := { p.ov with
            s_y_values := fun j => if j = i then predict (overlay_x i) else p.ov.s_y_values j } }
      else { p with pc := FillPc.store_count }
  | FillPc.store_count =>
      { pc := FillPc.publish,
        ov := { p.ov with s_num_points := (TFLM_SINE_OVERLAY_MAX_POINTS : Int) } }
  | FillPc.publish =>
      { pc := FillPc.done, ov := { p.ov with s_overlay_ready := 1 } }
  | FillPc.done => p

/-- The state of the producer after `k` steps. -/
def fill_steps (setup_ok : Bool) (predict : F32 → F32) : Nat → Producer → Producer
  | 0, p => p
  | k + 1, p => fill_steps setup_ok predict k (fill_step setup_ok predict p)

/-- A whole call of `tflm_sine_fill_overlay_buffer` on the overlay variables:
the setup call, the test, 161 stores with the final loop test, the count and
the flag are 166 steps. -/
def tflm_sine_fill_overlay_buffer (setup_ok : Bool) (predict : F32 → F32) (ov : Overlay) :
    Overlay :=
  (fill_steps setup_ok predict 166 { pc := FillPc.entry, ov := ov }).ov

/-! ## Capture loop (`camera_thread` in `main.c`) -/

/-- The video source as the capture loop sees it: the buffers handed to it,
those still waiting to be filled and those completed and waiting to be
dequeued.  Buffers are named by their index in `vbufs`. -/
structure Source where
  queued : List Nat
  filled : List Nat
deriving DecidableEq, Repr

/-- The call `video_enqueue(video_dev, b)`: the source takes the buffer. -/
def video_enqueue (s : Source) (b : Nat) : Source :=
  { s with queued := s.queued ++ [b] }

/-- The call `video_dequeue(video_dev, &b, timeout)` once the wait is over:
the oldest completed buffer, or `none` (a negative return value) when the
source has none. -/
def video_dequeue (s : Source) : Option (Nat × Source) :=
  match s.filled with
  | [] => none
  | b :: rest => some (b, { s with filled := rest })

/-- The hardware completes `k` of the queued buffers (all of them when fewer
are queued). -/
def source_complete (s : Source) (k : Nat) : Source :=
  { queued := s.queued.drop k, filled := s.filled ++ s.queued.take k }

/-- State of the capture pipeline: the source and the buffers the application
has dequeued and not yet handed back. -/
structure Cam where
  src : Source
  held : List Nat
deriving DecidableEq, Repr

/-- What the capture loop does, and what the source does to it. -/
inductive Event where
  | stream_start (ret : Int) : Event
  | stream_stop : Event
  | dequeue (timeout_ms : Nat) (buf : Option Nat) : Event
  | enqueue (buf : Nat) : Event
  | msleep (ms : Nat) : Event
  | copy_frame (buf : Nat) : Event
  | display_write : Event
  | source_completes (k : Nat) : Event
deriving DecidableEq, Repr

/-- A trace: each event with the state right after it. -/
abbrev Trace := List (Event × Cam)

/-- The source completes `k` buffers while the application does nothing. -/
def cam_complete (c : Cam) (k : Nat) : Cam :=
  { c with src := source_complete c.src k }

/-- The application calls `video_dequeue`: on success it holds the buffer. -/
def cam_dequeue (c : Cam) : Option (Nat × Cam) :=
  match video_dequeue c.src with
  | none => none
  | some (b, s) => some (b, { src := s, held := b :: c.held })

/-- The application calls `video_enqueue` on a buffer and no longer holds it. -/
def cam_enqueue (c : Cam) (b : Nat) : Cam :=
  { src := video_enqueue c.src b, held := c.held.erase b }

/-- The drain loop `while (video_dequeue(video_dev, &tmp, K_NO_WAIT) == 0)
video_enqueue(video_dev, tmp);`, by recursion on a bound for the number of
iterations. -/
def drain : Nat → Cam → Cam × Trace
  | 0, c => (c, [])
  | fuel + 1, c =>
    match cam_dequeue c with
    | none => (c, [(Event.dequeue 0 none, c)])
    | some (tmp, c1) =>
        ((drain fuel (cam_enqueue c1 tmp)).1,
          (Event.dequeue 0 (some tmp), c1) :: (Event.enqueue tmp, cam_enqueue c1 tmp) ::
            (drain fuel (cam_enqueue c1 tmp)).2)

/-- What the environment does during one iteration of the capture loop: the
return value of `video_stream_start`, the number of buffers the source
completes before the 100 ms dequeue returns, and the number it completes after
that and before the stream is stopped. -/
structure Cycle where
  start_ret : Int
  completed : Nat
  late : Nat
deriving DecidableEq, Repr

/-- One iteration of the `while (1)` loop of `camera_thread`. -/
def camera_iteration (cy : Cycle) (c0 : Cam) : Cam × Trace :=
  if cy.start_ret < 0 then
    let c1 := cam_complete c0 cy.late
    let r := drain (c1.src.filled.length + 1) c1
    (r.1,
      [(Event.stream_start cy.start_ret, c0), (Event.source_completes cy.late, c1),
        (Event.stream_stop, c1)] ++ r.2 ++ [(Event.msleep 100, r.1)])
  else
    let c1 := cam_complete c0 cy.completed
    match cam_dequeue c1 with
    | none =>
        let c2 := cam_complete c1 cy.late
        let r := drain (c2.src.filled.length + 1) c2
        (r.1,
          [(Event.stream_start cy.start_ret, c0), (Event.source_completes cy.completed, c1),
            (Event.dequeue 100 none, c1), (Event.source_completes cy.late, c2),
            (Event.stream_stop, c2)] ++ r.2 ++ [(Event.msleep 1, r.1)])
    | some (vbuf, c2) =>
        let c3 := cam_complete c2 cy.late
        let c4 := cam_enqueue c3 vbuf
        let r := drain (c4.src.filled.length + 1) c4
        (r.1,
          [(Event.stream_start cy.start_ret, c0), (Event.source_completes cy.completed, c1),
            (Event.dequeue 100 (some vbuf), c2), (Event.source_completes cy.late, c3),
            (Event.stream_stop, c3), (Event.copy_frame vbuf, c3), (Event.display_write, c3),
            (Event.enqueue vbuf, c4)] ++ r.2)

/-- The loop `for (i ...) video_enqueue(video_dev, vbufs[i])` that hands every
allocated buffer to the source before the capture loop. -/
def enqueue_all (vbufs : List Nat) : Cam :=
  vbufs.foldl cam_enqueue { src := { queued := [], filled := [] }, held := vbufs }

/-- The capture loop over the iterations described by `cycles`, from state
`c`: the final state and the trace of each iteration. -/
def camera_loop : List Cycle → Cam → Cam × List Trace
  | [], c => (c, [])
  | cy :: rest, c =>
      ((camera_loop rest (camera_iteration cy c).1).1,
        (camera_iteration cy c).2 :: (camera_loop rest (camera_iteration cy c).1).2)

/-! ## Standby text (`display_thread` in `main.c`) -/

def COLOR_WHITE : Nat := 0x00FFFFFF
def COLOR_BLUE : Nat := 0x000000FF
def COLOR_YELLOW : Nat := 0x00FFFF00
def COLOR_ORANGE : Nat := 0x00FFA500

/-- Return x position to center text of given pixel width on display. -/
def text_center_x (screen_w text_w : Nat) : Nat :=
  if screen_w > text_w then (screen_w - text_w) / 2 else 0

/-- The string a `char` array holds after the test
`if (len > STANDBY_TEXT_MAX_LEN) { s[STANDBY_TEXT_MAX_LEN] = 0; len = STANDBY_TEXT_MAX_LEN; }`
of `display_thread`. -/
def standby_truncate (str : List Nat) : List Nat :=
  if str.length > STANDBY_TEXT_MAX_LEN then str.take STANDBY_TEXT_MAX_LEN else str

/-- The bytes of the literal `prompt_str` of `display_thread`,
`BUTTON 2: Start`. -/
def prompt_str : List Nat :=
  [0x42, 0x55, 0x54, 0x54, 0x4F, 0x4E, 0x20, 0x32, 0x3A, 0x20, 0x53, 0x74, 0x61, 0x72, 0x74]

/-- The local `uint16_t glyph_w` of `display_thread`. -/
def standby_glyph_w : Nat :=
  u16 (Int.tdiv ((FONT_W : Int) * FONT_SCALE_LARGE_NUM) FONT_SCALE_LARGE_DEN)

/-- The local `uint16_t glyph_h` of `display_thread`. -/
def standby_glyph_h : Nat :=
  u16 (Int.tdiv ((FONT_H : Int) * FONT_SCALE_LARGE_NUM) FONT_SCALE_LARGE_DEN)

/-- The local `uint32_t text_buf_size` of `display_thread`: the size passed to
`k_malloc`. -/
def text_buf_size (bpp : Nat) : Nat :=
  STANDBY_TEXT_MAX_LEN * standby_glyph_w * standby_glyph_h * bpp % 4294967296

/-- The text rendering of `display_thread`: the `display_write` calls its three
`display_text` calls end with, in order.  `fmt` is
`capabilities.current_pixel_format`, `screen_w` is `capabilities.x_resolution`,
`version_str` and `build_str` are the strings that `snprintk` and
`format_build_time` leave in the two arrays, `text_buf` is the result of
`k_malloc` (`none` for `NULL`, where nothing is drawn); every call renders
into the same working buffer. -/
def display_thread_text (fmt : display_pixel_format) (screen_w : Nat)
    (version_str build_str : List Nat) (text_buf : Option Buf) : List TextWrite :=
  let bpp := get_bpp fmt
  let scale_num := FONT_SCALE_LARGE_NUM
  let scale_den := FONT_SCALE_LARGE_DEN
  let glyph_w := standby_glyph_w
  let glyph_h := standby_glyph_h
  match text_buf with
  | none => []
  | some text_buf =>
      let version_str := standby_truncate version_str
      let vlen := version_str.length
      let version_w := vlen * glyph_w % 65536
      let w1 := display_text fmt version_str (text_center_x screen_w version_w) 0
        COLOR_ORANGE COLOR_BLACK text_buf bpp scale_num scale_den
      let build_str := standby_truncate build_str
      let blen := build_str.length
      let build_w := blen * FONT_W % 65536
      let w2 := display_text fmt build_str (text_center_x screen_w build_w)
        ((glyph_h + 8) % 65536) COLOR_WHITE COLOR_BLACK w1.buf bpp 1 1
      let prompt_w := prompt_str.length * glyph_w % 65536
      let w3 := display_text fmt prompt_str (text_center_x screen_w prompt_w)
        (((glyph_h <<< 1) + 16) % 65536) COLOR_YELLOW COLOR_BLUE w2.buf bpp scale_num scale_den
      [w1, w2, w3]

/-! ## Predicates and inputs used in the statements -/

/-- A float holding exactly the natural number `v`. -/
def F32.isNat (x : F32) (v : Nat) : Prop :=
  ∃ s : Nat, x = F32.fin false (v * 2 ^ s) (-(s : Int))

/-- A point of the centred camera sub-rectangle, in display coordinates. -/
def InFrame (x y : Int) : Prop := 40 ≤ x ∧ x ≤ 199 ∧ 7 ≤ y ∧ y ≤ 126

/-- A byte offset of the display buffer that belongs to a pixel of the centred
camera sub-rectangle (row `j / 480`, byte column `j % 480`). -/
def frameByte (j : Nat) : Prop := 7 ≤ j / 480 ∧ j / 480 < 127 ∧ 80 ≤ j % 480 ∧ j % 480 < 400

instance (j : Nat) : Decidable (frameByte j) := by unfold frameByte; infer_instance

/-- Successive `copy_frame_to_display` calls on one destination buffer, as the
capture loop makes them: one `(overlay state, camera frame)` pair per call. -/
def compose_frames (st : Int × Buf) (frames : List (Overlay × Buf)) : Int × Buf :=
  frames.foldl (fun s f => copy_frame_to_display s.1 f.1 f.2 s.2) st

/-- Overlay state used to instantiate the compositor theorems: a published
curve of 161 samples alternating between `1.0` and `-1.0`. -/
def sample_overlay : Overlay :=
  { setup_done := true
    s_y_values := fun i => F32.fin (decide (i % 2 = 1)) 1 0
    s_num_points := 161
    s_overlay_ready := 1 }

/-- Rounding of a `float` to the nearest integer, halves away from zero (the C
`lroundf`), with the limits of `f32_to_int`: the `round` of the specification
text. -/
def f32_round_to_int : F32 → Int
  | F32.nan => 0
  | F32.inf neg => if neg then -2147483648 else 2147483647
  | F32.fin neg m e =>
      let t : Nat := (2 * (m * 2 ^ e.toNat) + 2 ^ (-e).toNat) / (2 * 2 ^ (-e).toNat)
      if neg then (if 2147483648 ≤ t then -2147483648 else -(t : Int))
      else (if 2147483647 ≤ t then 2147483647 else (t : Int))

/-- The row the specification text gives for a sample before clamping:
`center_y - round(value * amplitude)`. -/
def spec_overlay_py_raw (y : F32) : Int :=
  let center_y : Int := (FRAME_Y_OFFSET : Int) + (CAMERA_H : Int) / 2
  let amplitude : Int := (CAMERA_H : Int) / 2 - 4
  wrap32 (center_y - f32_round_to_int (f32_mul y (f32_of_int amplitude)))

/-- What holds of the producer at each program point, for a call entered with
the flag clear. -/
def FillInv (setup_ok : Bool) (predict : F32 → F32) (ov0 : Overlay) (p : Producer) : Prop :=
  match p.pc with
  | FillPc.entry => p.ov = ov0
  | FillPc.check =>
      p.ov.s_overlay_ready = 0 ∧ p.ov.setup_done = (ov0.setup_done || setup_ok)
  | FillPc.loop i =>
      p.ov.s_overlay_ready = 0 ∧ (ov0.setup_done || setup_ok) = true ∧
      i ≤ TFLM_SINE_OVERLAY_MAX_POINTS ∧
      ∀ j < i, p.ov.s_y_values j = predict (overlay_x j)
  | FillPc.store_count =>
      p.ov.s_overlay_ready = 0 ∧ (ov0.setup_done || setup_ok) = true ∧
      ∀ j < TFLM_SINE_OVERLAY_MAX_POINTS, p.ov.s_y_values j = predict (overlay_x j)
  | FillPc.publish =>
      p.ov.s_overlay_ready = 0 ∧ (ov0.setup_done || setup_ok) = true ∧
      p.ov.s_num_points = (TFLM_SINE_OVERLAY_MAX_POINTS : Int) ∧
      ∀ j < TFLM_SINE_OVERLAY_MAX_POINTS, p.ov.s_y_values j = predict (overlay_x j)
  | FillPc.done =>
      (p.ov.s_overlay_ready = 0 ∧ (ov0.setup_done || setup_ok) = false) ∨
      (p.ov.s_overlay_ready = 1 ∧ (ov0.setup_done || setup_ok) = true ∧
        p.ov.s_num_points = (TFLM_SINE_OVERLAY_MAX_POINTS : Int) ∧
        ∀ j < TFLM_SINE_OVERLAY_MAX_POINTS, p.ov.s_y_values j = predict (overlay_x j))

/-- An upper bound on the number of steps the producer still takes from a
program point. -/
def fill_rank : FillPc → Nat
  | FillPc.entry => 166
  | FillPc.check => 165
  | FillPc.loop i => 3 + (TFLM_SINE_OVERLAY_MAX_POINTS - i)
  | FillPc.store_count => 2
  | FillPc.publish => 1
  | FillPc.done => 0

/-- The events of a trace. -/
def events (tr : Trace) : List Event := tr.map Prod.fst

/-- The buffers dequeued in a list of events, in order. -/
def dequeued : List Event → List Nat
  | [] => []
  | Event.dequeue _ (some b) :: rest => b :: dequeued rest
  | _ :: rest => dequeued rest

/-- The buffers enqueued in a list of events, in order. -/
def enqueued : List Event → List Nat
  | [] => []
  | Event.enqueue b :: rest => b :: enqueued rest
  | _ :: rest => enqueued rest

/-- The frames handed to `copy_frame_to_display` in a list of events. -/
def delivered : List Event → List Nat
  | [] => []
  | Event.copy_frame b :: rest => b :: delivered rest
  | _ :: rest => delivered rest

/-- The number of `display_write` calls in a list of events. -/
def display_writes (evs : List Event) : Nat := evs.count Event.display_write

/-- The events of a non-blocking drain: pairs of a successful `K_NO_WAIT`
dequeue and the enqueue of the same buffer, ended by the failing dequeue. -/
def drain_events : List Nat → List Event
  | [] => [Event.dequeue 0 none]
  | b :: rest => Event.dequeue 0 (some b) :: Event.enqueue b :: drain_events rest

/-- All buffers of the pool in a state: held by the source or by the
application. -/
def pool (c : Cam) : List Nat := c.src.queued ++ c.src.filled ++ c.held

/-- Every enqueue of a trace hands over a buffer that the application holds
and the source does not; `c` is the state before the trace. -/
def enqueue_fresh : Cam → Trace → Prop
  | _, [] => True
  | c, (e, c') :: rest =>
      (∀ b, e = Event.enqueue b → b ∈ c.held ∧ b ∉ c.src.queued ∧ b ∉ c.src.filled) ∧
      enqueue_fresh c' rest

/-- The events of a cycle that fails on the bounded dequeue: start, the
timed-out dequeue, stop, a non-blocking drain of the buffers `l`, and the 1 ms
backoff (with what the source did in between). -/
def timeout_cycle_events (evs : List Event) : Prop :=
  ∃ (r : Int) (k : Nat) (l : List Nat),
    evs = [Event.stream_start r, Event.source_completes 0, Event.dequeue 100 none,
      Event.source_completes k, Event.stream_stop] ++ drain_events l ++ [Event.msleep 1]

/-- The `k`-th byte that `set_pixel_color` writes for a colour in a format. -/
def enc (fmt : display_pixel_format) (color k : Nat) : Nat :=
  set_pixel_color (fun _ => 0) 0 fmt color k

/-- Pixel number `P` of a buffer holds exactly the bytes `set_pixel_color`
writes for the colour. -/
def pixel_is (fmt : display_pixel_format) (buf : Buf) (P color : Nat) : Prop :=
  ∀ k < get_bpp fmt, buf (P * get_bpp fmt + k) = enc fmt color k

/-- Pixel number `P` of a buffer shows the colour: its colour bytes are those
`set_pixel_color` writes.  In `ARGB_8888` these are the three bytes of blue,
green and red; the fourth byte is the alpha channel, which is not part of a
`0x00RRGGBB` colour. -/
def pixel_shows (fmt : display_pixel_format) (buf : Buf) (P color : Nat) : Prop :=
  ∀ k < get_bpp fmt, (fmt = display_pixel_format.PIXEL_FORMAT_ARGB_8888 → k < 3) →
    buf (P * get_bpp fmt + k) = enc fmt color k

/-- The font bit of character `ch` at `row`, `col` of its 8x16 glyph. -/
def font_bit (ch row col : Nat) : Prop :=
  (font_ascii.getD (ch - FONT_FIRST_CHAR) []).getD row 0 &&& (0x80 >>> col) ≠ 0

instance (ch row col : Nat) : Decidable (font_bit ch row col) := by
  unfold font_bit; infer_instance

/-- A buffer transformer that paints the pixels in `S` with a colour and
leaves every other pixel as it was. -/
def Paints (fmt : display_pixel_format) (color : Nat) (T : Buf → Buf) (S : Nat → Prop) :
    Prop :=
  ∀ (b : Buf) (P k : Nat), k < get_bpp fmt →
    (S P → T b (P * get_bpp fmt + k) = enc fmt color k) ∧
    (¬ S P → T b (P * get_bpp fmt + k) = b (P * get_bpp fmt + k))

/-- The `k`-th byte of a pixel that the background fill of `display_text`
leaves: zero on the `memset` path taken for black, the byte `set_pixel_color`
writes otherwise. -/
def background_byte (fmt : display_pixel_format) (bg_color k : Nat) : Nat :=
  if bg_color = COLOR_BLACK then 0 else enc fmt bg_color k

/-! ## Specification-level definitions: overlay column with the constants as parameters -/

/-- The red channel `RR` of a colour `0x00RRGGBB`. -/
def channel_r (color : Nat) : Nat := color / 65536 % 256

/-- The green channel `GG` of a colour `0x00RRGGBB`. -/
def channel_g (color : Nat) : Nat := color / 256 % 256

/-- The blue channel `BB` of a colour `0x00RRGGBB`. -/
def channel_b (color : Nat) : Nat := color % 256

/-- The 16-bit value read big-endian from two bytes of a buffer. -/
def load16be (buf : Buf) (off : Nat) : Nat := buf off * 256 + buf (off + 1)

/-- The 32-bit word read from four bytes of a buffer (little-endian, the byte
order of the target). -/
def load32le (buf : Buf) (off : Nat) : Nat :=
  buf off + 256 * buf (off + 1) + 65536 * buf (off + 2) + 16777216 * buf (off + 3)

/-! ## Specification-level definitions: line drawing -/

/-- The `steps` of `draw_line_rgb565`: the larger of the two absolute deltas. -/
def line_steps (x0 y0 x1 y1 : Int) : Int := max (|x1 - x0|) (|y1 - y0|)

/-- The pixel `p` is a pixel nearest to the exact point
`(x0 + (x1 - x0) * i / steps, y0 + (y1 - y0) * i / steps)` of the segment: each
coordinate is at most half a pixel away.  The distances are compared after
multiplication by `2 * steps`. -/
def nearest_pixel (x0 y0 x1 y1 : Int) (i : Nat) (p : Int × Int) : Prop :=
  |2 * ((p.1 - x0) * line_steps x0 y0 x1 y1 - (x1 - x0) * (i : Int))| ≤ line_steps x0 y0 x1 y1 ∧
  |2 * ((p.2 - y0) * line_steps x0 y0 x1 y1 - (y1 - y0) * (i : Int))| ≤ line_steps x0 y0 x1 y1

instance (x0 y0 x1 y1 : Int) (i : Nat) (p : Int × Int) :
    Decidable (nearest_pixel x0 y0 x1 y1 i p) := by
  unfold nearest_pixel; infer_instance

/-- A point inside the `DISPLAY_W x DISPLAY_H` display. -/
def InDisplay (x y : Int) : Prop := 0 ≤ x ∧ x < (DISPLAY_W : Int) ∧ 0 ≤ y ∧ y < (DISPLAY_H : Int)

instance (x y : Int) : Decidable (InDisplay x y) := by
  unfold InDisplay; infer_instance

/-! ## Lemmas on the floating-point model -/

theorem bitlenAux_lt (f n : Nat) (h : n ≤ f) : n < 2 ^ bitlenAux f n := by
  induction f generalizing n with
  | zero =>
    have : n = 0 := by omega
    subst this; simp [bitlenAux]
  | succ f ih =>
    unfold bitlenAux
    by_cases hn : n = 0
    · simp [hn]
    · simp only [hn, if_false]
      have h2 := ih (n / 2) (by omega)
      rw [pow_succ]
      omega

theorem bitlenAux_le (f n b : Nat) (h : n < 2 ^ b) : bitlenAux f n ≤ b := by
  induction f generalizing n b with
  | zero => simp [bitlenAux]
  | succ f ih =>
    unfold bitlenAux
    by_cases hn : n = 0
    · simp [hn]
    · simp only [hn, if_false]
      cases b with
      | zero => simp at h; omega
      | succ b =>
        have := ih (n / 2) b (by rw [pow_succ] at h; omega)
        omega

theorem lt_two_pow_bitlen (n : Nat) : n < 2 ^ bitlen n :=
  bitlenAux_lt n n (le_refl n)

theorem bitlen_le_of_lt (n b : Nat) (h : n < 2 ^ b) : bitlen n ≤ b :=
  bitlenAux_le n n b h

/-- The exponent found for `N / D` is at most `b` when `N < 2^b * D`. -/
theorem f32_exponent_le (N D b : Nat) (h : N < 2 ^ b * D) :
    f32_exponent N D ≤ (b : Int) := by
  have h1 : bitlen N ≤ b + bitlen D := by
    apply bitlen_le_of_lt
    have := lt_two_pow_bitlen D
    calc N < 2 ^ b * D := h
      _ ≤ 2 ^ b * 2 ^ bitlen D := Nat.mul_le_mul_left _ (le_of_lt this)
      _ = 2 ^ (b + bitlen D) := by rw [pow_add]
  unfold f32_exponent
  simp only
  split <;> omega

theorem bitlenAux_zero (f : Nat) : bitlenAux f 0 = 0 := by
  cases f <;> simp [bitlenAux]

theorem two_pow_bitlenAux_le (f n : Nat) (h : n ≤ f) (hn : n ≠ 0) :
    2 ^ bitlenAux f n ≤ 2 * n := by
  induction f generalizing n with
  | zero => omega
  | succ f ih =>
    unfold bitlenAux
    simp only [hn, if_false]
    by_cases h2 : n / 2 = 0
    · rw [h2, bitlenAux_zero]; omega
    · have := ih (n / 2) (by omega) h2
      rw [pow_succ]
      omega

theorem two_pow_bitlen_le (n : Nat) (hn : n ≠ 0) : 2 ^ bitlen n ≤ 2 * n :=
  two_pow_bitlenAux_le n n (le_refl n) hn

/-- The exponent `k` found for `N / D` satisfies `N / D < 2^(k+1)`. -/
theorem f32_exponent_upper (N D : Nat) (hD : D ≠ 0) :
    N * 2 ^ (-(f32_exponent N D + 1)).toNat < D * 2 ^ (f32_exponent N D + 1).toNat := by
  unfold f32_exponent
  simp only
  split
  · -- the first guess is the exponent
    have hN := lt_two_pow_bitlen N
    have hD2 := two_pow_bitlen_le D hD
    have hbD : 1 ≤ bitlen D := by
      by_contra hc
      have h0 : bitlen D = 0 := by omega
      have hlt := lt_two_pow_bitlen D
      rw [h0] at hlt
      omega
    by_cases hs : (bitlen D : Int) ≤ (bitlen N : Int) + 1
    · have e1 : (-((bitlen N : Int) - (bitlen D : Int) + 1)).toNat = 0 := by omega
      have e2 : ((bitlen N : Int) - (bitlen D : Int) + 1).toNat = bitlen N + 1 - bitlen D := by
        omega
      rw [e1, e2, pow_zero, Nat.mul_one]
      have h3 : 2 ^ bitlen N * 2 ≤ 2 * (D * 2 ^ (bitlen N + 1 - bitlen D)) := by
        calc 2 ^ bitlen N * 2 = 2 ^ (bitlen D + (bitlen N + 1 - bitlen D)) := by
              rw [← pow_succ]; congr 1; omega
          _ = 2 ^ bitlen D * 2 ^ (bitlen N + 1 - bitlen D) := by rw [pow_add]
          _ ≤ 2 * D * 2 ^ (bitlen N + 1 - bitlen D) := Nat.mul_le_mul_right _ hD2
          _ = 2 * (D * 2 ^ (bitlen N + 1 - bitlen D)) := by ring
      omega
    · have e1 : (-((bitlen N : Int) - (bitlen D : Int) + 1)).toNat
          = bitlen D - bitlen N - 1 := by omega
      have e2 : ((bitlen N : Int) - (bitlen D : Int) + 1).toNat = 0 := by omega
      rw [e1, e2, pow_zero, Nat.mul_one]
      have h3 : 2 * (N * 2 ^ (bitlen D - bitlen N - 1)) < 2 * D := by
        calc 2 * (N * 2 ^ (bitlen D - bitlen N - 1))
            < 2 * (2 ^ bitlen N * 2 ^ (bitlen D - bitlen N - 1)) := by
              apply Nat.mul_lt_mul_of_pos_left _ (by norm_num)
              exact Nat.mul_lt_mul_of_pos_right hN (by positivity)
          _ = 2 ^ (bitlen N + (bitlen D - bitlen N - 1) + 1) := by
              rw [pow_succ, pow_add]; ring
          _ = 2 ^ bitlen D := by congr 1; omega
          _ ≤ 2 * D := hD2
      omega
  · rename_i hc
    have e : (bitlen N : Int) - (bitlen D : Int) - 1 + 1 = (bitlen N : Int) - (bitlen D : Int) := by
      omega
    rw [e]
    omega

/-- The scaled significand stays below `2^24`. -/
theorem f32_scaled_lt (N D s : Nat) (hD : D ≠ 0)
    (hu : max (f32_exponent N D - 23) (-149) = -(s : Int)) :
    N * 2 ^ s < D * 2 ^ 24 := by
  have hup := f32_exponent_upper N D hD
  generalize f32_exponent N D = k at hu hup
  have hk : k + 1 + (s : Int) ≤ 24 := by omega
  generalize ha : (-(k + 1)).toNat = a at hup
  generalize hb : (k + 1).toNat = b at hup
  have hab : b + s ≤ 24 + a := by omega
  have h1 : N * 2 ^ s * 2 ^ a < D * 2 ^ 24 * 2 ^ a := by
    calc N * 2 ^ s * 2 ^ a = N * 2 ^ a * 2 ^ s := by ring
      _ < D * 2 ^ b * 2 ^ s := Nat.mul_lt_mul_of_pos_right hup (by positivity)
      _ = D * 2 ^ (b + s) := by rw [pow_add]; ring
      _ ≤ D * 2 ^ (24 + a) := Nat.mul_le_mul_left _ (Nat.pow_le_pow_right (by norm_num) hab)
      _ = D * 2 ^ 24 * 2 ^ a := by rw [pow_add]; ring
  exact Nat.lt_of_mul_lt_mul_right h1

/-- Unfolding of `f32_round` when the unit exponent is `-s`. -/
theorem f32_round_neg_exp (neg : Bool) (N D s : Nat) (hD : D ≠ 0) (hN : N ≠ 0)
    (hu : max (f32_exponent N D - 23) (-149) = -(s : Int)) :
    f32_round neg N D =
      if 2 ^ 128 ≤ (if D < 2 * (N * 2 ^ s % D) ∨
            (2 * (N * 2 ^ s % D) = D ∧ N * 2 ^ s / D % 2 = 1)
          then N * 2 ^ s / D + 1 else N * 2 ^ s / D)
      then F32.inf neg
      else F32.fin neg (if D < 2 * (N * 2 ^ s % D) ∨
            (2 * (N * 2 ^ s % D) = D ∧ N * 2 ^ s / D % 2 = 1)
          then N * 2 ^ s / D + 1 else N * 2 ^ s / D) (-(s : Int)) := by
  unfold f32_round
  simp only [hD, hN, if_false, hu]
  have h1 : (-(s : Int)).toNat = 0 := by omega
  have h2 : (- -(s : Int)).toNat = s := by omega
  simp only [h1, h2, pow_zero, mul_one]

/-- The unit exponent of a quotient below `2^15` is between `-149` and `-8`. -/
theorem f32_unit_exp_small (N D : Nat) (h : N < 2 ^ 15 * D) :
    ∃ s : Nat, max (f32_exponent N D - 23) (-149) = -(s : Int) ∧ 8 ≤ s ∧ s ≤ 149 := by
  have hk := f32_exponent_le N D 15 h
  refine ⟨(-(max (f32_exponent N D - 23) (-149))).toNat, ?_, ?_, ?_⟩ <;> omega

/-- Rounding a small natural number is exact. -/
theorem f32_round_isNat (v c : Nat) (hc : 0 < c) (hv : v < 2 ^ 15) :
    (f32_round false (v * c) c).isNat v := by
  by_cases h0 : v = 0
  · subst h0
    refine ⟨0, ?_⟩
    unfold f32_round
    simp [Nat.pos_iff_ne_zero.mp hc]
  · have hN : v * c ≠ 0 := Nat.mul_ne_zero h0 (Nat.pos_iff_ne_zero.mp hc)
    have hlt : v * c < 2 ^ 15 * c := Nat.mul_lt_mul_of_pos_right hv hc
    obtain ⟨s, hs, _, hs2⟩ := f32_unit_exp_small (v * c) c hlt
    refine ⟨s, ?_⟩
    rw [f32_round_neg_exp false (v * c) c s (Nat.pos_iff_ne_zero.mp hc) hN hs]
    have hq : v * c * 2 ^ s = v * 2 ^ s * c := by ring
    have hmod : v * c * 2 ^ s % c = 0 := by rw [hq]; exact Nat.mul_mod_left _ _
    have hdiv : v * c * 2 ^ s / c = v * 2 ^ s := by
      rw [hq]; exact Nat.mul_div_cancel _ hc
    have hne : ¬ (c < 2 * 0 ∨ (2 * 0 = c ∧ v * 2 ^ s % 2 = 1)) := by omega
    simp only [hmod, hdiv, hne, if_false]
    have hb : v * 2 ^ s < 2 ^ 128 := by
      have h24 := f32_scaled_lt (v * c) c s (Nat.pos_iff_ne_zero.mp hc) hs
      have h24b : v * 2 ^ s * c < 2 ^ 24 * c := by
        calc v * 2 ^ s * c = v * c * 2 ^ s := by ring
          _ < c * 2 ^ 24 := h24
          _ = 2 ^ 24 * c := by ring
      have := Nat.lt_of_mul_lt_mul_right h24b
      calc v * 2 ^ s < 2 ^ 24 := this
        _ ≤ 2 ^ 128 := by norm_num
    rw [if_neg (Nat.not_le.mpr hb)]

/-- Arithmetic core of `f32_to_int_round_div`: the scaled quotient `q` of
`v * P` by `w`, and `q + 1` when the remainder is at least half of `w`, lie in
the block `[Q * P, (Q + 1) * P)` of the integer quotient `Q`. -/
theorem round_div_arith (v w P q r Q R : Nat) (h4 : w < 2 * P)
    (hdm : w * q + r = v * P) (hrw : r < w) (hdm0 : w * Q + R = v) (hR0w : R < w) :
    Q * P ≤ q ∧ q < (Q + 1) * P ∧ (w ≤ 2 * r → q + 1 < (Q + 1) * P) := by
  have hexp : w * q + r = (w * Q + R) * P := by rw [hdm, hdm0]
  refine ⟨?_, ?_, ?_⟩
  · by_contra hcon
    have h1 : q + 1 ≤ Q * P := by omega
    have h2 : w * (q + 1) ≤ w * (Q * P) := Nat.mul_le_mul_left _ h1
    nlinarith
  · by_contra hcon
    have h1 : (Q + 1) * P ≤ q := by omega
    have h2 : w * ((Q + 1) * P) ≤ w * q := Nat.mul_le_mul_left _ h1
    have h3 : (R + 1) * P ≤ w * P := Nat.mul_le_mul_right _ (by omega)
    nlinarith
  · intro hup
    by_contra hcon
    have h1 : (Q + 1) * P ≤ q + 1 := by omega
    have h2 : w * ((Q + 1) * P) ≤ w * (q + 1) := Nat.mul_le_mul_left _ h1
    have h3 : (R + 1) * P ≤ w * P := Nat.mul_le_mul_right _ (by omega)
    nlinarith

/-- Rounding the quotient of two small naturals and truncating it gives the
integer quotient. -/
theorem f32_to_int_round_div (v w c : Nat) (hc : 0 < c) (hw : 0 < w)
    (hw9 : w < 2 ^ 9) (hv : v < 2 ^ 15 * w) :
    f32_to_int (f32_round false (v * c) (w * c)) = ((v / w : Nat) : Int) := by
  have hD : w * c ≠ 0 := Nat.mul_ne_zero (by omega) (by omega)
  by_cases h0 : v = 0
  · subst h0
    unfold f32_round
    simp [hD, f32_to_int]
  · have hN : v * c ≠ 0 := Nat.mul_ne_zero h0 (by omega)
    have hlt : v * c < 2 ^ 15 * (w * c) := by
      calc v * c < 2 ^ 15 * w * c := Nat.mul_lt_mul_of_pos_right hv hc
        _ = 2 ^ 15 * (w * c) := by ring
    obtain ⟨s, hs, hs8, _⟩ := f32_unit_exp_small (v * c) (w * c) hlt
    rw [f32_round_neg_exp false (v * c) (w * c) s hD hN hs]
    have hq : v * c * 2 ^ s / (w * c) = v * 2 ^ s / w := by
      rw [show v * c * 2 ^ s = v * 2 ^ s * c by ring]
      exact Nat.mul_div_mul_right _ _ hc
    have hr : v * c * 2 ^ s % (w * c) = (v * 2 ^ s % w) * c := by
      rw [show v * c * 2 ^ s = v * 2 ^ s * c by ring]
      exact Nat.mul_mod_mul_right _ _ _
    rw [hq, hr]
    have hdm : w * (v * 2 ^ s / w) + v * 2 ^ s % w = v * 2 ^ s := Nat.div_add_mod _ _
    have hrw : v * 2 ^ s % w < w := Nat.mod_lt _ hw
    have hdm0 : w * (v / w) + v % w = v := Nat.div_add_mod _ _
    have hR0w : v % w < w := Nat.mod_lt _ hw
    have h4 : w < 2 * 2 ^ s := by
      have : 2 ^ 9 ≤ 2 ^ (s + 1) := Nat.pow_le_pow_right (by norm_num) (by omega)
      rw [pow_succ] at this
      omega
    obtain ⟨hlow, hhi, hhi2⟩ := round_div_arith v w (2 ^ s) _ _ _ _ h4 hdm hrw hdm0 hR0w
    have hQ : v / w < 2 ^ 15 := by
      apply Nat.div_lt_of_lt_mul
      rw [Nat.mul_comm]; exact hv
    generalize v * 2 ^ s / w = q at *
    generalize v * 2 ^ s % w = r at *
    generalize v / w = Q at *
    have h24 : q < 2 ^ 24 := by
      have h := f32_scaled_lt (v * c) (w * c) s hD hs
      rw [← hq]
      exact Nat.div_lt_of_lt_mul h
    have e1 : (-(s : Int)).toNat = 0 := by omega
    have e2 : (- -(s : Int)).toNat = s := by omega
    split
    · rename_i hup
      have hup3 : w ≤ 2 * r := by
        have hup2 : w * c ≤ (2 * r) * c := by
          rcases hup with h | ⟨h, _⟩ <;> [skip; skip] <;> rw [Nat.mul_assoc] <;> omega
        exact Nat.le_of_mul_le_mul_right hup2 hc
      have hm : ¬ (2 ^ 128 ≤ q + 1) := by
        have : (2:Nat) ^ 24 + 1 ≤ 2 ^ 128 := by norm_num
        omega
      rw [if_neg hm]
      have hdiv : (q + 1) / 2 ^ s = Q :=
        Nat.div_eq_of_lt_le (by omega) (hhi2 hup3)
      simp only [f32_to_int, e1, e2, pow_zero, Nat.mul_one, hdiv]
      have : ¬ (2147483647 ≤ Q) := by norm_num at hQ; omega
      simp [this]
    · have hm : ¬ (2 ^ 128 ≤ q) := by
        have : (2:Nat) ^ 24 + 1 ≤ 2 ^ 128 := by norm_num
        omega
      rw [if_neg hm]
      have hdiv : q / 2 ^ s = Q :=
        Nat.div_eq_of_lt_le hlow hhi
      simp only [f32_to_int, e1, e2, pow_zero, Nat.mul_one, hdiv]
      have : ¬ (2147483647 ≤ Q) := by norm_num at hQ; omega
      simp [this]

theorem f32_of_int_isNat (i : Nat) (h : i < 2 ^ 15) : (f32_of_int (i : Int)).isNat i := by
  unfold f32_of_int
  have h1 : decide ((i : Int) < 0) = false := by simp
  have h2 : (i : Int).natAbs = i * 1 := by simp
  rw [h1, h2]
  exact f32_round_isNat i 1 (by norm_num) h

theorem f32_mul_isNat (a b : F32) (v w : Nat) (ha : a.isNat v) (hb : b.isNat w)
    (h : v * w < 2 ^ 15) : (f32_mul a b).isNat (v * w) := by
  obtain ⟨s, rfl⟩ := ha
  obtain ⟨t, rfl⟩ := hb
  unfold f32_mul
  have e1 : (-(s : Int) + -(t : Int)).toNat = 0 := by omega
  have e2 : (-(-(s : Int) + -(t : Int))).toNat = s + t := by omega
  simp only [e1, e2, pow_zero, Nat.mul_one, Bool.xor_false]
  have e3 : v * 2 ^ s * (w * 2 ^ t) = v * w * 2 ^ (s + t) := by rw [pow_add]; ring
  rw [e3]
  exact f32_round_isNat (v * w) (2 ^ (s + t)) (by positivity) h

theorem f32_to_int_div_isNat (a b : F32) (v w : Nat) (ha : a.isNat v) (hb : b.isNat w)
    (hw : 0 < w) (hw9 : w < 2 ^ 9) (hv : v < 2 ^ 15 * w) :
    f32_to_int (f32_div a b) = ((v / w : Nat) : Int) := by
  obtain ⟨s, rfl⟩ := ha
  obtain ⟨t, rfl⟩ := hb
  unfold f32_div
  have hn : w * 2 ^ t ≠ 0 := Nat.mul_ne_zero (by omega) (by positivity)
  simp only [hn, if_false, Bool.xor_false]
  by_cases hst : s ≤ t
  · have e1 : (-(s : Int) - -(t : Int)).toNat = t - s := by omega
    have e2 : (-(t : Int) - -(s : Int)).toNat = 0 := by omega
    rw [e1, e2, pow_zero, Nat.mul_one]
    have e3 : v * 2 ^ s * 2 ^ (t - s) = v * 2 ^ t := by
      rw [Nat.mul_assoc, ← pow_add]; congr 2; omega
    rw [e3]
    exact f32_to_int_round_div v w (2 ^ t) (by positivity) hw hw9 hv
  · have e1 : (-(s : Int) - -(t : Int)).toNat = 0 := by omega
    have e2 : (-(t : Int) - -(s : Int)).toNat = s - t := by omega
    rw [e1, e2, pow_zero, Nat.mul_one]
    have e3 : w * 2 ^ t * 2 ^ (s - t) = w * 2 ^ s := by
      rw [Nat.mul_assoc, ← pow_add]; congr 2; omega
    rw [e3]
    exact f32_to_int_round_div v w (2 ^ s) (by positivity) hw hw9 hv

theorem wrap32_eq (x : Int) (h1 : -2147483648 ≤ x) (h2 : x < 2147483648) : wrap32 x = x := by
  unfold wrap32
  omega

/-- The overlay column in closed form: sample `i` of `n` lies at
`FRAME_X_OFFSET + floor (159 * i / (n - 1))`. -/
theorem overlay_px_eq (i : Nat) (n : Int) (hi : (i : Int) < n) (hn : n ≤ 161) :
    overlay_px i n = 40 + ((159 * i / (if n > 1 then n - 1 else 1).toNat : Nat) : Int) := by
  have hi160 : i ≤ 160 := by omega
  obtain ⟨d, hd⟩ : ∃ d : Nat, (if n > 1 then n - 1 else 1) = (d : Int) :=
    ⟨(if n > 1 then n - 1 else 1).toNat, by split <;> omega⟩
  have hd1 : 1 ≤ d ∧ d ≤ 160 ∧ i ≤ d := by
    split at hd <;> omega
  have ha := f32_of_int_isNat i (by norm_num; omega)
  have hb := f32_of_int_isNat 159 (by norm_num)
  have hm := f32_mul_isNat _ _ i 159 ha hb (by norm_num; omega)
  have hc := f32_of_int_isNat d (by norm_num; omega)
  have ht := f32_to_int_div_isNat _ _ (i * 159) d hm hc (by omega) (by norm_num; omega)
    (by norm_num; omega)
  have hQ : i * 159 / d ≤ 159 := by
    apply Nat.div_le_of_le_mul
    nlinarith [hd1.2.2]
  unfold overlay_px
  simp only [CAMERA_W, FRAME_X_OFFSET, DISPLAY_W]
  rw [hd]
  have e159 : ((160 : Nat) : Int) - 1 = ((159 : Nat) : Int) := by norm_num
  rw [e159, ht]
  have e40 : (((240 - 160) / 2 : Nat) : Int) = 40 := by norm_num
  have hcomm : i * 159 = 159 * i := Nat.mul_comm _ _
  rw [hcomm] at hQ ⊢
  simp only [Int.toNat_ofNat]
  generalize 159 * i / d = Q at hQ ⊢
  rw [e40, wrap32_eq _ (by omega) (by omega)]
  split
  · omega
  · rfl

theorem overlay_px_range (i : Nat) (n : Int) (hi : (i : Int) < n) (hn : n ≤ 161) :
    40 ≤ overlay_px i n ∧ overlay_px i n ≤ 199 := by
  rw [overlay_px_eq i n hi hn]
  obtain ⟨d, hd⟩ : ∃ d : Nat, (if n > 1 then n - 1 else 1) = (d : Int) :=
    ⟨(if n > 1 then n - 1 else 1).toNat, by split <;> omega⟩
  have hd1 : 1 ≤ d ∧ i ≤ d := by
    split at hd <;> omega
  rw [hd]
  simp only [Int.toNat_ofNat]
  have hQ : 159 * i / d ≤ 159 := by
    apply Nat.div_le_of_le_mul
    nlinarith [hd1.2]
  generalize 159 * i / d = Q at hQ ⊢
  omega

theorem overlay_py_range (y : F32) : 7 ≤ overlay_py y ∧ overlay_py y ≤ 126 := by
  unfold overlay_py
  simp only [FRAME_Y_OFFSET, CAMERA_H, DISPLAY_H]
  norm_num
  split <;> split <;> omega

/-! ## Lemmas on line drawing and the overlay loop -/

theorem tdiv_scale_nonneg (d t : Int) (hd : 0 ≤ d) (h0 : 0 ≤ t) (h1 : t ≤ 65536) :
    0 ≤ Int.tdiv (d * t) 65536 ∧ Int.tdiv (d * t) 65536 ≤ d := by
  have hp : 0 ≤ d * t := Int.mul_nonneg hd h0
  have hq : d * t ≤ d * 65536 := Int.mul_le_mul_of_nonneg_left h1 hd
  rw [Int.tdiv_eq_ediv hp (by norm_num)]
  generalize d * t = p at hp hq
  omega

theorem tdiv_scale_between (d t : Int) (h0 : 0 ≤ t) (h1 : t ≤ 65536) :
    (0 ≤ d → 0 ≤ Int.tdiv (d * t) 65536 ∧ Int.tdiv (d * t) 65536 ≤ d) ∧
    (d ≤ 0 → d ≤ Int.tdiv (d * t) 65536 ∧ Int.tdiv (d * t) 65536 ≤ 0) := by
  refine ⟨fun hd => tdiv_scale_nonneg d t hd h0 h1, fun hd => ?_⟩
  have h := tdiv_scale_nonneg (-d) t (by omega) h0 h1
  rw [Int.neg_mul, Int.neg_tdiv] at h
  omega

theorem line_param_range (i : Nat) (steps : Int) (hs : 0 < steps) (hi : (i : Int) ≤ steps) :
    0 ≤ Int.tdiv ((i : Int) * 65536) steps ∧ Int.tdiv ((i : Int) * 65536) steps ≤ 65536 := by
  have hp : (0 : Int) ≤ (i : Int) * 65536 := by omega
  rw [Int.tdiv_eq_ediv hp (le_of_lt hs)]
  constructor
  · exact Int.ediv_nonneg hp (le_of_lt hs)
  · apply Int.ediv_le_of_le_mul hs
    nlinarith

/-- Every interpolated point lies in the bounding box of the two endpoints. -/
theorem line_point_between (x0 y0 x1 y1 : Int) (i : Nat)
    (hi : (i : Int) ≤ max (|x1 - x0|) (|y1 - y0|)) :
    (min x0 x1 ≤ (line_point x0 y0 x1 y1 i).1 ∧ (line_point x0 y0 x1 y1 i).1 ≤ max x0 x1) ∧
    (min y0 y1 ≤ (line_point x0 y0 x1 y1 i).2 ∧ (line_point x0 y0 x1 y1 i).2 ≤ max y0 y1) := by
  unfold line_point
  simp only
  have hax : (if x1 - x0 < 0 then -(x1 - x0) else x1 - x0) = |x1 - x0| := by
    split
    · rw [abs_of_neg (by assumption)]
    · rw [abs_of_nonneg (by omega)]
  have hay : (if y1 - y0 < 0 then -(y1 - y0) else y1 - y0) = |y1 - y0| := by
    split
    · rw [abs_of_neg (by assumption)]
    · rw [abs_of_nonneg (by omega)]
  have hst : (if |x1 - x0| > |y1 - y0| then |x1 - x0| else |y1 - y0|)
      = max (|x1 - x0|) (|y1 - y0|) := by
    split
    · rw [max_eq_left (by omega)]
    · rw [max_eq_right (by omega)]
  rw [hax, hay, hst]
  generalize max (|x1 - x0|) (|y1 - y0|) = steps at hi
  have ht : 0 ≤ (if steps = 0 then 0 else Int.tdiv ((i : Int) * 65536) steps) ∧
      (if steps = 0 then 0 else Int.tdiv ((i : Int) * 65536) steps) ≤ 65536 := by
    split
    · omega
    · exact line_param_range i steps (by omega) hi
  generalize (if steps = 0 then 0 else Int.tdiv ((i : Int) * 65536) steps) = t at ht
  have hx := tdiv_scale_between (x1 - x0) t ht.1 ht.2
  have hy := tdiv_scale_between (y1 - y0) t ht.1 ht.2
  generalize Int.tdiv ((x1 - x0) * t) 65536 = a at hx
  generalize Int.tdiv ((y1 - y0) * t) 65536 = b at hy
  omega

theorem line_point_inFrame (x0 y0 x1 y1 : Int) (i : Nat)
    (hi : (i : Int) ≤ max (|x1 - x0|) (|y1 - y0|))
    (h0 : InFrame x0 y0) (h1 : InFrame x1 y1) :
    InFrame (line_point x0 y0 x1 y1 i).1 (line_point x0 y0 x1 y1 i).2 := by
  have h := line_point_between x0 y0 x1 y1 i hi
  unfold InFrame at *
  omega

/-- A relation between two runs of a fold is kept when every step keeps it. -/
theorem foldl_rel {α β : Type} (R : β → β → Prop) (f : β → α → β) (l : List α)
    (h : ∀ b b' a, a ∈ l → R b b' → R (f b a) (f b' a)) (b b' : β) (hb : R b b') :
    R (l.foldl f b) (l.foldl f b') := by
  induction l generalizing b b' with
  | nil => exact hb
  | cons a l ih =>
    simp only [List.foldl_cons]
    apply ih
    · intro c c' x hx hc
      exact h c c' x (List.mem_cons_of_mem _ hx) hc
    · exact h b b' a (List.mem_cons_self _ _) hb

/-- A relation kept by every green pixel write inside the camera sub-rectangle
is kept by a line between two points of the sub-rectangle. -/
theorem draw_line_rel (R : Buf → Buf → Prop)
    (hR : ∀ d d' x y, InFrame x y → R d d' →
      R (set_display_pixel_rgb565 d (u16 x) (u16 y) COLOR_GREEN)
        (set_display_pixel_rgb565 d' (u16 x) (u16 y) COLOR_GREEN))
    (x0 y0 x1 y1 : Int) (h0 : InFrame x0 y0) (h1 : InFrame x1 y1)
    (d d' : Buf) (h : R d d') :
    R (draw_line_rgb565 d x0 y0 x1 y1 COLOR_GREEN)
      (draw_line_rgb565 d' x0 y0 x1 y1 COLOR_GREEN) := by
  unfold draw_line_rgb565
  simp only
  have hax : (if x1 - x0 < 0 then -(x1 - x0) else x1 - x0) = |x1 - x0| := by
    split
    · rw [abs_of_neg (by assumption)]
    · rw [abs_of_nonneg (by omega)]
  have hay : (if y1 - y0 < 0 then -(y1 - y0) else y1 - y0) = |y1 - y0| := by
    split
    · rw [abs_of_neg (by assumption)]
    · rw [abs_of_nonneg (by omega)]
  have hst : (if |x1 - x0| > |y1 - y0| then |x1 - x0| else |y1 - y0|)
      = max (|x1 - x0|) (|y1 - y0|) := by
    split
    · rw [max_eq_left (by omega)]
    · rw [max_eq_right (by omega)]
  rw [hax, hay, hst]
  split
  · exact hR d d' x0 y0 h0 h
  · apply foldl_rel R _ _ _ d d' h
    intro b b' i hi hb
    have hi2 : (i : Int) ≤ max (|x1 - x0|) (|y1 - y0|) := by
      have := List.mem_range.mp hi
      omega
    have hf := line_point_inFrame x0 y0 x1 y1 i hi2 h0 h1
    exact hR b b' _ _ hf hb

/-- One sample step keeps a relation that green pixel writes inside the camera
sub-rectangle keep, and leaves the remembered point inside the sub-rectangle. -/
theorem overlay_step_rel (R : Buf → Buf → Prop)
    (hR : ∀ d d' x y, InFrame x y → R d d' →
      R (set_display_pixel_rgb565 d (u16 x) (u16 y) COLOR_GREEN)
        (set_display_pixel_rgb565 d' (u16 x) (u16 y) COLOR_GREEN))
    (yv : Nat → F32) (n : Int) (hn : n ≤ 161) (i : Nat) (hi : (i : Int) < n)
    (s s' : OverlayLoop)
    (h : R s.dst s'.dst ∧ s.prev_px = s'.prev_px ∧ s.prev_py = s'.prev_py ∧
      (s.prev_px ≥ 0 → InFrame s.prev_px s.prev_py)) :
    R (overlay_step yv n s i).dst (overlay_step yv n s' i).dst ∧
      (overlay_step yv n s i).prev_px = (overlay_step yv n s' i).prev_px ∧
      (overlay_step yv n s i).prev_py = (overlay_step yv n s' i).prev_py ∧
      ((overlay_step yv n s i).prev_px ≥ 0 →
        InFrame (overlay_step yv n s i).prev_px (overlay_step yv n s i).prev_py) := by
  obtain ⟨hd, hpx, hpy, hprev⟩ := h
  have hx := overlay_px_range i n hi hn
  have hy := overlay_py_range (yv i)
  have hf : InFrame (overlay_px i n) (overlay_py (yv i)) := by
    unfold InFrame; omega
  unfold overlay_step
  simp only
  refine ⟨?_, trivial, trivial, fun _ => hf⟩
  rw [← hpx, ← hpy]
  have h1 := hR s.dst s'.dst _ _ hf hd
  split
  · rename_i hp
    exact draw_line_rel R hR _ _ _ _ (hprev hp) hf _ _ h1
  · exact h1

/-- The overlay keeps every relation that green pixel writes inside the camera
sub-rectangle keep, for a published count within the sample array. -/
theorem draw_sine_overlay_rel (R : Buf → Buf → Prop)
    (hR : ∀ d d' x y, InFrame x y → R d d' →
      R (set_display_pixel_rgb565 d (u16 x) (u16 y) COLOR_GREEN)
        (set_display_pixel_rgb565 d' (u16 x) (u16 y) COLOR_GREEN))
    (ov : Overlay) (hn : ov.s_num_points ≤ 161) (d d' : Buf) (h : R d d') :
    R (draw_sine_overlay ov d) (draw_sine_overlay ov d') := by
  unfold draw_sine_overlay
  simp only [tflm_sine_overlay_get]
  split
  · exact h
  · split
    · exact h
    · split
      · exact h
      · have key := foldl_rel
          (fun (s s' : OverlayLoop) => R s.dst s'.dst ∧ s.prev_px = s'.prev_px ∧
            s.prev_py = s'.prev_py ∧ (s.prev_px ≥ 0 → InFrame s.prev_px s.prev_py))
          (overlay_step ov.s_y_values ov.s_num_points)
          (List.range ov.s_num_points.toNat)
          (fun b b' a ha hb =>
            overlay_step_rel R hR ov.s_y_values ov.s_num_points hn a
              (by have := List.mem_range.mp ha; omega) b b' hb)
          { dst := d, prev_px := -1, prev_py := -1 }
          { dst := d', prev_px := -1, prev_py := -1 }
          (by refine ⟨h, ?_, ?_, ?_⟩ <;> simp)
        exact key.1

/-- Unary form of `draw_sine_overlay_rel`. -/
theorem draw_sine_overlay_pred (P : Buf → Prop)
    (hP : ∀ d x y, InFrame x y → P d →
      P (set_display_pixel_rgb565 d (u16 x) (u16 y) COLOR_GREEN))
    (ov : Overlay) (hn : ov.s_num_points ≤ 161) (d : Buf) (h : P d) :
    P (draw_sine_overlay ov d) :=
  draw_sine_overlay_rel (fun b _ => P b) (fun b _ x y hf hb => hP b x y hf hb) ov hn d d h

theorem u16_of_range (x : Int) (h0 : 0 ≤ x) (h1 : x < 65536) : ((u16 x : Nat) : Int) = x := by
  unfold u16
  omega

/-- A pixel write inside the camera sub-rectangle changes at most the two bytes
of that pixel, and sets them to the two bytes of the colour. -/
theorem set_display_pixel_inFrame (d : Buf) (x y : Int) (h : InFrame x y) (color j : Nat) :
    set_display_pixel_rgb565 d (u16 x) (u16 y) color j =
      if (j : Int) = 2 * (y * 240 + x) then ((c565 color >>> 8) &&& 0xFF) % 256
      else if (j : Int) = 2 * (y * 240 + x) + 1 then (c565 color &&& 0xFF) % 256
      else d j := by
  obtain ⟨hx0, hx1, hy0, hy1⟩ := h
  have ex := u16_of_range x (by omega) (by omega)
  have ey := u16_of_range y (by omega) (by omega)
  generalize u16 x = X at ex
  generalize u16 y = Y at ey
  unfold set_display_pixel_rgb565 store8
  simp only [DISPLAY_W, DISPLAY_H]
  have hc : ¬ (X ≥ 240 ∨ Y ≥ 135) := by omega
  simp only [hc, if_false]
  have e1 : (Y * 240 + X) % 4294967296 * 2 % 4294967296 = 2 * (Y * 240 + X) := by omega
  simp only [e1]
  subst ex ey
  have k0 : ((j : Int) = 2 * ((Y : Int) * 240 + X)) ↔ j = 2 * (Y * 240 + X) := by omega
  have k1 : ((j : Int) = 2 * ((Y : Int) * 240 + X) + 1) ↔ j = 2 * (Y * 240 + X) + 1 := by
    omega
  simp only [k0, k1]
  split_ifs <;> first | rfl | omega

/-! ## Lemmas on `copy_frame_to_display` -/

theorem memcpy_apply (dst : Buf) (doff : Nat) (src : Buf) (soff n j : Nat) :
    memcpy dst doff src soff n j =
      if doff ≤ j ∧ j < doff + n then src (soff + (j - doff)) else dst j := rfl

theorem copy_rows_upto (src dst : Buf) (n : Nat) (j : Nat) :
    (List.range n).foldl
      (fun d y =>
        memcpy d (((FRAME_Y_OFFSET + y) * DISPLAY_W + FRAME_X_OFFSET) * 2)
          src (y * CAMERA_W * 2) (CAMERA_W * 2)) dst j =
      if 7 ≤ j / 480 ∧ j / 480 < 7 + n ∧ 80 ≤ j % 480 ∧ j % 480 < 400 then
        src ((j / 480 - 7) * 320 + (j % 480 - 80))
      else dst j := by
  induction n with
  | zero =>
    have : ¬ (7 ≤ j / 480 ∧ j / 480 < 7 + 0 ∧ 80 ≤ j % 480 ∧ j % 480 < 400) := by omega
    simp only [List.range_zero, List.foldl_nil, this, if_false]
  | succ n ih =>
    rw [List.range_succ, List.foldl_append]
    simp only [List.foldl_cons, List.foldl_nil]
    rw [memcpy_apply, ih]
    simp only [FRAME_Y_OFFSET, FRAME_X_OFFSET, DISPLAY_W, DISPLAY_H, CAMERA_W, CAMERA_H]
    norm_num
    by_cases hrow : (j / 480 = 7 + n ∧ 80 ≤ j % 480 ∧ j % 480 < 400)
    · have h1 : ((7 + n) * 240 + 40) * 2 ≤ j ∧ j < ((7 + n) * 240 + 40) * 2 + 320 := by omega
      have h2 : 7 ≤ j / 480 ∧ j / 480 < 7 + (n + 1) ∧ 80 ≤ j % 480 ∧ j % 480 < 400 := by omega
      rw [if_pos h1, if_pos h2]
      congr 1
      omega
    · have h1 : ¬ (((7 + n) * 240 + 40) * 2 ≤ j ∧ j < ((7 + n) * 240 + 40) * 2 + 320) := by
        omega
      rw [if_neg h1]
      by_cases h3 : 7 ≤ j / 480 ∧ j / 480 < 7 + n ∧ 80 ≤ j % 480 ∧ j % 480 < 400
      · have h4 : 7 ≤ j / 480 ∧ j / 480 < 7 + (n + 1) ∧ 80 ≤ j % 480 ∧ j % 480 < 400 := by
          omega
        rw [if_pos h3, if_pos h4]
      · have h4 : ¬ (7 ≤ j / 480 ∧ j / 480 < 7 + (n + 1) ∧ 80 ≤ j % 480 ∧ j % 480 < 400) := by
          omega
        rw [if_neg h3, if_neg h4]

/-- The row loop in closed form: the bytes of the camera sub-rectangle come
from the source frame, every other byte is left as it was. -/
theorem copy_rows_apply (src dst : Buf) (j : Nat) :
    copy_rows src dst j =
      if frameByte j then src ((j / 480 - 7) * 320 + (j % 480 - 80)) else dst j := by
  unfold copy_rows
  rw [show CAMERA_H = 120 from rfl, copy_rows_upto src dst 120 j]
  unfold frameByte
  rfl

theorem frameByte_pixel (x y : Int) (h : InFrame x y) (j : Nat) :
    ((j : Int) = 2 * (y * 240 + x) → frameByte j) ∧
    ((j : Int) = 2 * (y * 240 + x) + 1 → frameByte j) := by
  unfold InFrame at h
  unfold frameByte
  constructor <;> intro hj <;> omega

/-- Green pixel writes inside the camera sub-rectangle leave every byte
outside the sub-rectangle alone. -/
theorem set_pixel_keeps_outside (base d : Buf) (x y : Int) (hf : InFrame x y)
    (h : ∀ j, ¬ frameByte j → d j = base j) :
    ∀ j, ¬ frameByte j →
      set_display_pixel_rgb565 d (u16 x) (u16 y) COLOR_GREEN j = base j := by
  intro j hj
  rw [set_display_pixel_inFrame d x y hf]
  have hp := frameByte_pixel x y hf j
  have h1 : ¬ ((j : Int) = 2 * (y * 240 + x)) := fun e => hj (hp.1 e)
  have h2 : ¬ ((j : Int) = 2 * (y * 240 + x) + 1) := fun e => hj (hp.2 e)
  rw [if_neg h1, if_neg h2]
  exact h j hj

/-- The overlay never touches a byte outside the camera sub-rectangle. -/
theorem draw_sine_overlay_outside (ov : Overlay) (hn : ov.s_num_points ≤ 161) (d : Buf)
    (j : Nat) (hj : ¬ frameByte j) : draw_sine_overlay ov d j = d j :=
  draw_sine_overlay_pred (fun b => ∀ j, ¬ frameByte j → b j = d j)
    (fun b x y hf hb => set_pixel_keeps_outside d b x y hf hb) ov hn d
    (fun _ _ => rfl) j hj

/-- Outside the camera sub-rectangle a call only does the one-time clear. -/
theorem copy_frame_outside (bc : Int) (ov : Overlay) (hn : ov.s_num_points ≤ 161)
    (src dst : Buf) (j : Nat) (hj : ¬ frameByte j) :
    (copy_frame_to_display bc ov src dst).2 j =
      if bc = 0 then (if j < 64800 then 0 else dst j) else dst j := by
  unfold copy_frame_to_display
  simp only
  rw [draw_sine_overlay_outside ov hn _ j hj, copy_rows_apply, if_neg hj]
  split
  · unfold memset
    simp only [DISPLAY_W, DISPLAY_H]
    norm_num
  · rfl

theorem copy_frame_flag (bc : Int) (ov : Overlay) (src dst : Buf) :
    (copy_frame_to_display bc ov src dst).1 ≠ 0 := by
  unfold copy_frame_to_display
  simp only
  split
  · norm_num
  · assumption

theorem compose_frames_border (frames : List (Overlay × Buf))
    (hc : ∀ f ∈ frames, f.1.s_num_points ≤ 161) (st : Int × Buf)
    (h1 : st.1 ≠ 0) (h2 : ∀ j, j < 64800 → ¬ frameByte j → st.2 j = 0) :
    ∀ j, j < 64800 → ¬ frameByte j → (compose_frames st frames).2 j = 0 := by
  induction frames generalizing st with
  | nil => exact h2
  | cons f rest ih =>
    unfold compose_frames
    rw [List.foldl_cons]
    apply ih (fun g hg => hc g (List.mem_cons_of_mem _ hg))
    · exact copy_frame_flag _ _ _ _
    · intro j hj hfj
      rw [copy_frame_outside st.1 f.1 (hc f (List.mem_cons_self _ _)) f.2 st.2 j hfj,
        if_neg h1]
      exact h2 j hj hfj

/-! ## Claims on the compositor -/

theorem green_bytes : (c565 COLOR_GREEN >>> 8 &&& 0xFF) % 256 = 0x07 ∧
    (c565 COLOR_GREEN &&& 0xFF) % 256 = 0xE0 ∧
    c565 COLOR_GREEN >>> 8 &&& 0xFF = 0x07 ∧ c565 COLOR_GREEN &&& 0xFF = 0xE0 := by
  decide

/-- Green pixel writes keep "every pixel is the base pixel or green". -/
theorem set_pixel_keeps_base_or_green (base d : Buf) (x y : Int) (hf : InFrame x y)
    (h : ∀ p : Nat, (d (2 * p) = base (2 * p) ∧ d (2 * p + 1) = base (2 * p + 1)) ∨
      (d (2 * p) = 0x07 ∧ d (2 * p + 1) = 0xE0)) :
    ∀ p : Nat,
      (set_display_pixel_rgb565 d (u16 x) (u16 y) COLOR_GREEN (2 * p) = base (2 * p) ∧
        set_display_pixel_rgb565 d (u16 x) (u16 y) COLOR_GREEN (2 * p + 1) = base (2 * p + 1)) ∨
      (set_display_pixel_rgb565 d (u16 x) (u16 y) COLOR_GREEN (2 * p) = 0x07 ∧
        set_display_pixel_rgb565 d (u16 x) (u16 y) COLOR_GREEN (2 * p + 1) = 0xE0) := by
  intro p
  rw [set_display_pixel_inFrame d x y hf, set_display_pixel_inFrame d x y hf]
  obtain ⟨g1, g2, _, _⟩ := green_bytes
  rw [g1, g2]
  unfold InFrame at hf
  by_cases hp : (p : Int) = y * 240 + x
  · right
    have a1 : ((2 * p : Nat) : Int) = 2 * (y * 240 + x) := by omega
    have a2 : ¬ (((2 * p + 1 : Nat) : Int) = 2 * (y * 240 + x)) := by omega
    have a3 : ((2 * p + 1 : Nat) : Int) = 2 * (y * 240 + x) + 1 := by omega
    rw [if_pos a1, if_neg a2, if_pos a3]
    exact ⟨rfl, rfl⟩
  · have a1 : ¬ (((2 * p : Nat) : Int) = 2 * (y * 240 + x)) := by omega
    have a2 : ¬ (((2 * p : Nat) : Int) = 2 * (y * 240 + x) + 1) := by omega
    have a3 : ¬ (((2 * p + 1 : Nat) : Int) = 2 * (y * 240 + x)) := by omega
    have a4 : ¬ (((2 * p + 1 : Nat) : Int) = 2 * (y * 240 + x) + 1) := by omega
    rw [if_neg a1, if_neg a2, if_neg a3, if_neg a4]
    exact h p

/-- Green pixel writes keep "the two buffers agree on the sub-rectangle". -/
theorem set_pixel_keeps_agree (d d' : Buf) (x y : Int) (hf : InFrame x y)
    (h : ∀ j, frameByte j → d j = d' j) :
    ∀ j, frameByte j →
      set_display_pixel_rgb565 d (u16 x) (u16 y) COLOR_GREEN j =
        set_display_pixel_rgb565 d' (u16 x) (u16 y) COLOR_GREEN j := by
  intro j hj
  rw [set_display_pixel_inFrame d x y hf, set_display_pixel_inFrame d' x y hf, h j hj]

theorem frame_pixel_bytes (x y : Nat) (hx : x < 160) (hy : y < 120) :
    frameByte (2 * ((7 + y) * 240 + (40 + x))) ∧
    frameByte (2 * ((7 + y) * 240 + (40 + x)) + 1) ∧
    (2 * ((7 + y) * 240 + (40 + x)) / 480 - 7) * 320 +
      (2 * ((7 + y) * 240 + (40 + x)) % 480 - 80) = 2 * (y * 160 + x) ∧
    ((2 * ((7 + y) * 240 + (40 + x)) + 1) / 480 - 7) * 320 +
      ((2 * ((7 + y) * 240 + (40 + x)) + 1) % 480 - 80) = 2 * (y * 160 + x) + 1 := by
  unfold frameByte
  omega

/-- C1: `copy_frame_to_display` places the 160x120 camera frame at offset
(40, 7) of the 240x135 destination.  For every source frame, every previous
content of the destination, every value of the one-time flag, every overlay
state whose count fits the sample array, and every `x < 160`, `y < 120`, the
two bytes of destination pixel `(40 + x, 7 + y)` after the call are the two
bytes of source pixel `(x, y)` or the two bytes of the overlay colour; they are
the source bytes when the overlay is not ready; and they do not depend on what
the destination held before, so no pixel of the sub-rectangle keeps its
previous content. -/
theorem copy_frame_to_display_places_frame (borders_cleared : Int) (ov : Overlay)
    (hn : ov.s_num_points ≤ (TFLM_SINE_OVERLAY_MAX_POINTS : Int))
    (src dst : Buf) (x y : Nat) (hx : x < CAMERA_W) (hy : y < CAMERA_H) :
    FRAME_X_OFFSET = 40 ∧ FRAME_Y_OFFSET = 7 ∧
    ((((copy_frame_to_display borders_cleared ov src dst).2
          (2 * ((FRAME_Y_OFFSET + y) * DISPLAY_W + (FRAME_X_OFFSET + x)))
        = src (2 * (y * CAMERA_W + x)) ∧
      (copy_frame_to_display borders_cleared ov src dst).2
          (2 * ((FRAME_Y_OFFSET + y) * DISPLAY_W + (FRAME_X_OFFSET + x)) + 1)
        = src (2 * (y * CAMERA_W + x) + 1)) ∨
     ((copy_frame_to_display borders_cleared ov src dst).2
          (2 * ((FRAME_Y_OFFSET + y) * DISPLAY_W + (FRAME_X_OFFSET + x)))
        = c565 COLOR_GREEN >>> 8 &&& 0xFF ∧
      (copy_frame_to_display borders_cleared ov src dst).2
          (2 * ((FRAME_Y_OFFSET + y) * DISPLAY_W + (FRAME_X_OFFSET + x)) + 1)
        = c565 COLOR_GREEN &&& 0xFF))) ∧
    (tflm_sine_overlay_is_ready ov = 0 →
      (copy_frame_to_display borders_cleared ov src dst).2
          (2 * ((FRAME_Y_OFFSET + y) * DISPLAY_W + (FRAME_X_OFFSET + x)))
        = src (2 * (y * CAMERA_W + x)) ∧
      (copy_frame_to_display borders_cleared ov src dst).2
          (2 * ((FRAME_Y_OFFSET + y) * DISPLAY_W + (FRAME_X_OFFSET + x)) + 1)
        = src (2 * (y * CAMERA_W + x) + 1)) ∧
    (∀ (flag' : Int) (dst' : Buf),
      (copy_frame_to_display flag' ov src dst').2
          (2 * ((FRAME_Y_OFFSET + y) * DISPLAY_W + (FRAME_X_OFFSET + x)))
        = (copy_frame_to_display borders_cleared ov src dst).2
          (2 * ((FRAME_Y_OFFSET + y) * DISPLAY_W + (FRAME_X_OFFSET + x))) ∧
      (copy_frame_to_display flag' ov src dst').2
          (2 * ((FRAME_Y_OFFSET + y) * DISPLAY_W + (FRAME_X_OFFSET + x)) + 1)
        = (copy_frame_to_display borders_cleared ov src dst).2
          (2 * ((FRAME_Y_OFFSET + y) * DISPLAY_W + (FRAME_X_OFFSET + x)) + 1)) := by
  have hn' : ov.s_num_points ≤ 161 := hn
  have e1 : FRAME_X_OFFSET = 40 := rfl
  have e2 : FRAME_Y_OFFSET = 7 := rfl
  have e3 : DISPLAY_W = 240 := rfl
  have e4 : CAMERA_W = 160 := rfl
  rw [e4] at hx
  rw [show CAMERA_H = 120 from rfl] at hy
  rw [e1, e2, e3, e4]
  obtain ⟨fb0, fb1, ix0, ix1⟩ := frame_pixel_bytes x y hx hy
  obtain ⟨_, _, g1, g2⟩ := green_bytes
  rw [g1, g2]
  -- the buffer handed to the overlay holds the source pixel
  have base : ∀ (f : Int) (d : Buf),
      copy_rows src (if f = 0 then memset d 0 0 (DISPLAY_W * DISPLAY_H * 2) else d)
          (2 * ((7 + y) * 240 + (40 + x))) = src (2 * (y * 160 + x)) ∧
      copy_rows src (if f = 0 then memset d 0 0 (DISPLAY_W * DISPLAY_H * 2) else d)
          (2 * ((7 + y) * 240 + (40 + x)) + 1) = src (2 * (y * 160 + x) + 1) := by
    intro f d
    rw [copy_rows_apply, copy_rows_apply, if_pos fb0, if_pos fb1, ix0, ix1]
    exact ⟨rfl, rfl⟩
  refine ⟨rfl, rfl, ?_, ?_, ?_⟩
  · have key := draw_sine_overlay_pred
      (fun b => ∀ p : Nat,
        (b (2 * p) = (copy_rows src (if borders_cleared = 0 then
            memset dst 0 0 (DISPLAY_W * DISPLAY_H * 2) else dst)) (2 * p) ∧
          b (2 * p + 1) = (copy_rows src (if borders_cleared = 0 then
            memset dst 0 0 (DISPLAY_W * DISPLAY_H * 2) else dst)) (2 * p + 1)) ∨
        (b (2 * p) = 0x07 ∧ b (2 * p + 1) = 0xE0))
      (fun b x y hf hb => set_pixel_keeps_base_or_green _ b x y hf hb) ov hn'
      (copy_rows src (if borders_cleared = 0 then
        memset dst 0 0 (DISPLAY_W * DISPLAY_H * 2) else dst))
      (fun p => Or.inl ⟨rfl, rfl⟩) ((7 + y) * 240 + (40 + x))
    rw [(base borders_cleared dst).1, (base borders_cleared dst).2] at key
    exact key
  · intro hready
    have hov : ∀ d, draw_sine_overlay ov d = d := by
      intro d
      unfold draw_sine_overlay
      simp [hready]
    unfold copy_frame_to_display
    simp only [hov]
    exact base borders_cleared dst
  · intro flag' dst'
    have key := draw_sine_overlay_rel (fun b b' => ∀ j, frameByte j → b j = b' j)
      (fun b b' x y hf hb => set_pixel_keeps_agree b b' x y hf hb) ov hn'
      (copy_rows src (if flag' = 0 then memset dst' 0 0 (DISPLAY_W * DISPLAY_H * 2) else dst'))
      (copy_rows src (if borders_cleared = 0 then
        memset dst 0 0 (DISPLAY_W * DISPLAY_H * 2) else dst))
      (fun j hj => by rw [copy_rows_apply, copy_rows_apply, if_pos hj, if_pos hj])
    exact ⟨key _ fb0, key _ fb1⟩

theorem copy_frame_to_display_places_frame_witness :
    sample_overlay.s_num_points ≤ (TFLM_SINE_OVERLAY_MAX_POINTS : Int) ∧
    3 < CAMERA_W ∧ 5 < CAMERA_H ∧
    ((((copy_frame_to_display 0 sample_overlay (fun j => j % 251) (fun _ => 9)).2
          (2 * ((FRAME_Y_OFFSET + 5) * DISPLAY_W + (FRAME_X_OFFSET + 3)))
        = (fun j => j % 251) (2 * (5 * CAMERA_W + 3)) ∧
      (copy_frame_to_display 0 sample_overlay (fun j => j % 251) (fun _ => 9)).2
          (2 * ((FRAME_Y_OFFSET + 5) * DISPLAY_W + (FRAME_X_OFFSET + 3)) + 1)
        = (fun j => j % 251) (2 * (5 * CAMERA_W + 3) + 1)) ∨
     ((copy_frame_to_display 0 sample_overlay (fun j => j % 251) (fun _ => 9)).2
          (2 * ((FRAME_Y_OFFSET + 5) * DISPLAY_W + (FRAME_X_OFFSET + 3)))
        = c565 COLOR_GREEN >>> 8 &&& 0xFF ∧
      (copy_frame_to_display 0 sample_overlay (fun j => j % 251) (fun _ => 9)).2
          (2 * ((FRAME_Y_OFFSET + 5) * DISPLAY_W + (FRAME_X_OFFSET + 3)) + 1)
        = c565 COLOR_GREEN &&& 0xFF))) :=
  ⟨by decide, by decide, by decide,
    (copy_frame_to_display_places_frame 0 sample_overlay (by decide)
      (fun j => j % 251) (fun _ => 9) 3 5 (by decide) (by decide)).2.2.1⟩

/-- C2: after `N >= 1` successive `copy_frame_to_display` calls on one
destination buffer, starting with the one-time flag clear, with any camera
frames and any overlay states whose count fits the sample array, both bytes of
every border pixel (`x < 40`, `x >= 200`, `y < 7` or `y >= 127`) are 0, the
initial fill; and a call made with the flag already set leaves every byte
outside the camera sub-rectangle as it was, so calls after the first never
write a border pixel. -/
theorem compose_keeps_border_clear (frames : List (Overlay × Buf))
    (hne : frames ≠ [])
    (hc : ∀ f ∈ frames, f.1.s_num_points ≤ (TFLM_SINE_OVERLAY_MAX_POINTS : Int))
    (dst0 : Buf) (x y : Nat) (hx : x < DISPLAY_W) (hy : y < DISPLAY_H)
    (hb : x < 40 ∨ x ≥ 200 ∨ y < 7 ∨ y ≥ 127) :
    ((compose_frames (0, dst0) frames).2 (2 * (y * DISPLAY_W + x)) = 0 ∧
      (compose_frames (0, dst0) frames).2 (2 * (y * DISPLAY_W + x) + 1) = 0) ∧
    (∀ (flag : Int) (ov : Overlay) (src dst : Buf), flag ≠ 0 →
      ov.s_num_points ≤ (TFLM_SINE_OVERLAY_MAX_POINTS : Int) →
      (copy_frame_to_display flag ov src dst).1 = flag ∧
      (copy_frame_to_display flag ov src dst).2 (2 * (y * DISPLAY_W + x))
        = dst (2 * (y * DISPLAY_W + x)) ∧
      (copy_frame_to_display flag ov src dst).2 (2 * (y * DISPLAY_W + x) + 1)
        = dst (2 * (y * DISPLAY_W + x) + 1)) := by
  have hc' : ∀ f ∈ frames, f.1.s_num_points ≤ 161 := hc
  rw [show DISPLAY_W = 240 from rfl] at hx ⊢
  rw [show DISPLAY_H = 135 from rfl] at hy
  have nb0 : ¬ frameByte (2 * (y * 240 + x)) := by unfold frameByte; omega
  have nb1 : ¬ frameByte (2 * (y * 240 + x) + 1) := by unfold frameByte; omega
  have lt0 : 2 * (y * 240 + x) < 64800 := by omega
  have lt1 : 2 * (y * 240 + x) + 1 < 64800 := by omega
  constructor
  · cases frames with
    | nil => exact absurd rfl hne
    | cons f rest =>
      have hf := hc' f (List.mem_cons_self _ _)
      have key := compose_frames_border rest
        (fun g hg => hc' g (List.mem_cons_of_mem _ hg))
        (copy_frame_to_display 0 f.1 f.2 dst0) (copy_frame_flag _ _ _ _)
        (fun j hj hfj => by
          rw [copy_frame_outside 0 f.1 hf f.2 dst0 j hfj]
          simp [hj])
      have e : compose_frames (0, dst0) (f :: rest)
          = compose_frames (copy_frame_to_display 0 f.1 f.2 dst0) rest := by
        unfold compose_frames
        rw [List.foldl_cons]
      rw [e]
      exact ⟨key _ lt0 nb0, key _ lt1 nb1⟩
  · intro flag ov src dst hflag hov
    refine ⟨?_, ?_, ?_⟩
    · unfold copy_frame_to_display
      simp [hflag]
    · rw [copy_frame_outside flag ov hov src dst _ nb0, if_neg hflag]
    · rw [copy_frame_outside flag ov hov src dst _ nb1, if_neg hflag]

theorem compose_keeps_border_clear_witness :
    ([(sample_overlay, (fun j => j % 251 : Buf)),
        (sample_overlay, (fun j => j % 7 : Buf))] ≠ []) ∧
    39 < DISPLAY_W ∧ 60 < DISPLAY_H ∧ (39 < 40 ∨ 39 ≥ 200 ∨ 60 < 7 ∨ 60 ≥ 127) ∧
    ((compose_frames (0, fun _ => 9)
        [(sample_overlay, (fun j => j % 251 : Buf)),
          (sample_overlay, (fun j => j % 7 : Buf))]).2 (2 * (60 * DISPLAY_W + 39)) = 0 ∧
      (compose_frames (0, fun _ => 9)
        [(sample_overlay, (fun j => j % 251 : Buf)),
          (sample_overlay, (fun j => j % 7 : Buf))]).2 (2 * (60 * DISPLAY_W + 39) + 1) = 0) :=
  ⟨by simp, by decide, by decide, by decide,
    (compose_keeps_border_clear
      [(sample_overlay, (fun j => j % 251 : Buf)), (sample_overlay, (fun j => j % 7 : Buf))]
      (by simp) (by intro f hf; simp at hf; rcases hf with rfl | rfl <;> decide)
      (fun _ => 9) 39 60 (by decide) (by decide) (by decide)).1⟩

/-! ## Claims on the glyph cell and the sampling indices -/

theorem glyph_w_pos (sn sd : Int) : 0 < glyph_w sn sd := by
  unfold glyph_w
  simp only
  split <;> omega

theorem glyph_h_pos (sn sd : Int) : 0 < glyph_h sn sd := by
  unfold glyph_h
  simp only
  split <;> omega

/-- C8: for every `scale_num` and `scale_den` (any `int` values) and every
destination pixel `(dy, dx)` of the scaled path, `dy < glyph_h`, `dx < glyph_w`,
the sampled source row `dy * 16 / glyph_h` is below 16 and the sampled source
column `dx * 8 / glyph_w` is below 8 (both are non-negative as quotients of
naturals): the glyph row read exists in the 16-row glyph and the mask
`0x80 >> src_col` is one of the eight bits of the row byte. -/
theorem scaled_sample_in_glyph (scale_num scale_den : Int) (dy dx : Nat)
    (hdy : dy < glyph_h (clamp_scale_num scale_num) (clamp_scale_den scale_den))
    (hdx : dx < glyph_w (clamp_scale_num scale_num) (clamp_scale_den scale_den)) :
    dy * FONT_H / glyph_h (clamp_scale_num scale_num) (clamp_scale_den scale_den) < FONT_H ∧
    dx * FONT_W / glyph_w (clamp_scale_num scale_num) (clamp_scale_den scale_den) < FONT_W ∧
    (∀ c : Nat, 0x20 ≤ c → c ≤ 0x7E →
      ∃ g, glyph_for_char c = some g ∧
        dy * FONT_H / glyph_h (clamp_scale_num scale_num) (clamp_scale_den scale_den)
          < g.length) ∧
    0x80 >>> (dx * FONT_W / glyph_w (clamp_scale_num scale_num) (clamp_scale_den scale_den))
      ≠ 0 := by
  have hh := glyph_h_pos (clamp_scale_num scale_num) (clamp_scale_den scale_den)
  have hw := glyph_w_pos (clamp_scale_num scale_num) (clamp_scale_den scale_den)
  generalize glyph_h (clamp_scale_num scale_num) (clamp_scale_den scale_den) = gh at *
  generalize glyph_w (clamp_scale_num scale_num) (clamp_scale_den scale_den) = gw at *
  have h1 : dy * FONT_H / gh < FONT_H := by
    rw [Nat.div_lt_iff_lt_mul hh]
    unfold FONT_H
    omega
  have h2 : dx * FONT_W / gw < FONT_W := by
    rw [Nat.div_lt_iff_lt_mul hw]
    unfold FONT_W
    omega
  refine ⟨h1, h2, ?_, ?_⟩
  · intro c hc0 hc1
    refine ⟨font_ascii.getD (c - FONT_FIRST_CHAR) [], ?_, ?_⟩
    · unfold glyph_for_char FONT_FIRST_CHAR FONT_LAST_CHAR
      rw [if_pos ⟨hc0, hc1⟩]
    · have hall : ∀ k < 95, (font_ascii.getD k []).length = 16 := by decide
      have hk : c - FONT_FIRST_CHAR < 95 := by unfold FONT_FIRST_CHAR; omega
      rw [hall _ hk]
      exact h1
  · generalize dx * FONT_W / gw = k at h2
    unfold FONT_W at h2
    interval_cases k <;> decide

theorem scaled_sample_in_glyph_witness :
    23 < glyph_h (clamp_scale_num 3) (clamp_scale_den 2) ∧
    11 < glyph_w (clamp_scale_num 3) (clamp_scale_den 2) ∧
    23 * FONT_H / glyph_h (clamp_scale_num 3) (clamp_scale_den 2) < FONT_H ∧
    11 * FONT_W / glyph_w (clamp_scale_num 3) (clamp_scale_den 2) < FONT_W :=
  ⟨by decide, by decide,
    (scaled_sample_in_glyph 3 2 23 11 (by decide) (by decide)).1,
    (scaled_sample_in_glyph 3 2 23 11 (by decide) (by decide)).2.1⟩

/-- C9, as stated, fails: with `scale_num = 3`, `scale_den = 1` the glyph cell
is 24x48, wider than 12 and higher than 24; with `scale_num = 1`,
`scale_den = 2` it is 4x8, narrower than 8 and lower than 16. -/
theorem glyph_cell_outside_claimed_range :
    glyph_w (clamp_scale_num 3) (clamp_scale_den 1) = 24 ∧
    glyph_h (clamp_scale_num 3) (clamp_scale_den 1) = 48 ∧
    glyph_w (clamp_scale_num 1) (clamp_scale_den 2) = 4 ∧
    glyph_h (clamp_scale_num 1) (clamp_scale_den 2) = 8 ∧
    ¬ (∀ scale_num scale_den : Int,
        8 ≤ glyph_w (clamp_scale_num scale_num) (clamp_scale_den scale_den) ∧
        glyph_w (clamp_scale_num scale_num) (clamp_scale_den scale_den) ≤ 12 ∧
        16 ≤ glyph_h (clamp_scale_num scale_num) (clamp_scale_den scale_den) ∧
        glyph_h (clamp_scale_num scale_num) (clamp_scale_den scale_den) ≤ 24) := by
  refine ⟨by decide, by decide, by decide, by decide, ?_⟩
  intro h
  have := (h 3 1).2.1
  revert this
  decide

/-- C9, amended: `display_text` clamps `scale_num` to `1..3` and `scale_den` to
`1..2`, each on its own; the glyph cell used is `floor(8 * n / d)` by
`floor(16 * n / d)` on the clamped values `n`, `d`, which is between 4 and 24
wide and between 8 and 48 high, so the 1 pixel minimum never applies; the cell
is between 8x16 and 12x24 when the clamped ratio lies between 1 and 3/2; the
descriptor handed to `display_write` has this cell height. -/
theorem glyph_cell_of_clamped_scale (scale_num scale_den : Int) :
    1 ≤ clamp_scale_num scale_num ∧ clamp_scale_num scale_num ≤ 3 ∧
    1 ≤ clamp_scale_den scale_den ∧ clamp_scale_den scale_den ≤ 2 ∧
    (glyph_w (clamp_scale_num scale_num) (clamp_scale_den scale_den) : Int)
      = 8 * clamp_scale_num scale_num / clamp_scale_den scale_den ∧
    (glyph_h (clamp_scale_num scale_num) (clamp_scale_den scale_den) : Int)
      = 16 * clamp_scale_num scale_num / clamp_scale_den scale_den ∧
    4 ≤ glyph_w (clamp_scale_num scale_num) (clamp_scale_den scale_den) ∧
    glyph_w (clamp_scale_num scale_num) (clamp_scale_den scale_den) ≤ 24 ∧
    8 ≤ glyph_h (clamp_scale_num scale_num) (clamp_scale_den scale_den) ∧
    glyph_h (clamp_scale_num scale_num) (clamp_scale_den scale_den) ≤ 48 ∧
    ((clamp_scale_den scale_den ≤ clamp_scale_num scale_num ∧
        2 * clamp_scale_num scale_num ≤ 3 * clamp_scale_den scale_den) →
      8 ≤ glyph_w (clamp_scale_num scale_num) (clamp_scale_den scale_den) ∧
      glyph_w (clamp_scale_num scale_num) (clamp_scale_den scale_den) ≤ 12 ∧
      16 ≤ glyph_h (clamp_scale_num scale_num) (clamp_scale_den scale_den) ∧
      glyph_h (clamp_scale_num scale_num) (clamp_scale_den scale_den) ≤ 24) ∧
    (∀ (fmt : display_pixel_format) (str : List Nat) (x y fg bg : Nat) (buf : Buf) (bpp : Nat),
      (display_text fmt str x y fg bg buf bpp scale_num scale_den).desc.height
        = glyph_h (clamp_scale_num scale_num) (clamp_scale_den scale_den)) := by
  have hn : clamp_scale_num scale_num = 1 ∨ clamp_scale_num scale_num = 2 ∨
      clamp_scale_num scale_num = 3 := by
    unfold clamp_scale_num FONT_SCALE_LARGE_NUM
    simp only
    split <;> split <;> omega
  have hd : clamp_scale_den scale_den = 1 ∨ clamp_scale_den scale_den = 2 := by
    unfold clamp_scale_den FONT_SCALE_LARGE_DEN
    simp only
    split <;> split <;> omega
  refine ⟨?_, ?_, ?_, ?_, ?_, ?_, ?_, ?_, ?_, ?_, ?_, ?_⟩
  all_goals first
    | (intro fmt str x y fg bg buf bpp; rfl)
    | (rcases hn with h | h | h <;> rcases hd with h' | h' <;> rw [h, h'] <;> decide)
    | (rcases hn with h | h | h <;> omega)

/-! ## Claim on the vertical mapping of the overlay -/

/-- C10, as stated, fails: for the sample `3/64 = 0.046875` the product with
the amplitude is `2.625`; the code converts it with `(int)`, which discards
the fraction, and plots row `67 - 2 = 65`, where `center_y - round(v *
amplitude)` is `67 - 3 = 64`. -/
theorem overlay_py_not_rounded :
    f32_mul (F32.fin false 3 (-6)) (f32_of_int 56) = F32.fin false 11010048 (-22) ∧
    overlay_py_raw (F32.fin false 3 (-6)) = 65 ∧
    spec_overlay_py_raw (F32.fin false 3 (-6)) = 64 ∧
    overlay_py_raw (F32.fin false 3 (-6)) ≠ spec_overlay_py_raw (F32.fin false 3 (-6)) := by
  decide

/-- C10, amended: `draw_sine_overlay` maps every sample value `v` to the row
`center_y - trunc(v * amplitude)` before clamping, with `center_y = 67`,
`amplitude = 56`, the product taken in single precision and `trunc` the C
conversion to `int`, which discards the fractional part: for a finite product
`(-1)^neg * m * 2^e` of magnitude below `2^31 - 1` the converted value `t` has
`|t| <= m * 2^e < |t| + 1` and the sign of the product.  The subtraction does
not wrap when `t >= -2147483580`.  The values `0.0`, `1.0` and `-1.0` map to
`center_y = 67`, `center_y - amplitude = 11` and `center_y + amplitude = 123`,
which the clamping leaves as they are. -/
theorem overlay_py_truncates (v : F32) :
    (FRAME_Y_OFFSET : Int) + (CAMERA_H : Int) / 2 = 67 ∧
    (CAMERA_H : Int) / 2 - 4 = 56 ∧
    overlay_py_raw v = wrap32 (67 - f32_to_int (f32_mul v (f32_of_int 56))) ∧
    (-2147483580 ≤ f32_to_int (f32_mul v (f32_of_int 56)) →
      overlay_py_raw v = 67 - f32_to_int (f32_mul v (f32_of_int 56))) ∧
    (∀ (neg : Bool) (m : Nat) (e : Int), f32_mul v (f32_of_int 56) = F32.fin neg m e →
      m * 2 ^ e.toNat < 2147483647 * 2 ^ (-e).toNat →
      (f32_to_int (f32_mul v (f32_of_int 56))).natAbs * 2 ^ (-e).toNat ≤ m * 2 ^ e.toNat ∧
      m * 2 ^ e.toNat < ((f32_to_int (f32_mul v (f32_of_int 56))).natAbs + 1) * 2 ^ (-e).toNat ∧
      (neg = true → f32_to_int (f32_mul v (f32_of_int 56)) ≤ 0) ∧
      (neg = false → 0 ≤ f32_to_int (f32_mul v (f32_of_int 56)))) ∧
    (overlay_py_raw (F32.fin false 0 0) = 67 ∧ overlay_py (F32.fin false 0 0) = 67) ∧
    (overlay_py_raw (F32.fin false 1 0) = 11 ∧ overlay_py (F32.fin false 1 0) = 11) ∧
    (overlay_py_raw (F32.fin false 8388608 (-23)) = 11) ∧
    (overlay_py_raw (F32.fin true 1 0) = 123 ∧ overlay_py (F32.fin true 1 0) = 123) ∧
    (overlay_py_raw (F32.fin true 8388608 (-23)) = 123) := by
  refine ⟨by decide, by decide, rfl, ?_, ?_, by decide, by decide, by decide, by decide,
    by decide⟩
  · intro h
    have hub : f32_to_int (f32_mul v (f32_of_int 56)) ≤ 2147483647 := by
      generalize f32_mul v (f32_of_int 56) = p
      cases p with
      | nan => simp [f32_to_int]
      | inf neg => cases neg <;> simp [f32_to_int]
      | fin neg m e =>
        unfold f32_to_int
        simp only
        generalize m * 2 ^ e.toNat / 2 ^ (-e).toNat = t
        split <;> split <;> omega
    show wrap32 (67 - f32_to_int (f32_mul v (f32_of_int 56))) = _
    exact wrap32_eq _ (by omega) (by omega)
  · intro neg m e hp hlt
    rw [hp]
    unfold f32_to_int
    simp only
    have hpos : 0 < 2 ^ (-e).toNat := by positivity
    have hdiv : m * 2 ^ e.toNat / 2 ^ (-e).toNat < 2147483647 :=
      (Nat.div_lt_iff_lt_mul hpos).mpr hlt
    have hdm := Nat.div_add_mod (m * 2 ^ e.toNat) (2 ^ (-e).toNat)
    have hmod := Nat.mod_lt (m * 2 ^ e.toNat) hpos
    generalize m * 2 ^ e.toNat / 2 ^ (-e).toNat = q at hdiv hdm
    generalize m * 2 ^ e.toNat % 2 ^ (-e).toNat = r at hdm hmod
    generalize m * 2 ^ e.toNat = a at hdm
    generalize 2 ^ (-e).toNat = P at hdm hmod
    have h1 : ¬ (2147483648 ≤ q) := by omega
    have h2 : ¬ (2147483647 ≤ q) := by omega
    have hcomm : q * P = P * q := Nat.mul_comm _ _
    have hsucc : (q + 1) * P = P * q + P := by ring
    cases neg
    · simp only [h2, if_false, Bool.false_eq_true, Int.natAbs_ofNat]
      refine ⟨by omega, by omega, fun h => by simp at h, fun _ => by omega⟩
    · simp only [h1, if_false, if_true, Int.natAbs_neg, Int.natAbs_ofNat]
      refine ⟨by omega, by omega, fun _ => by omega, fun h => by simp at h⟩

/-! ## Claim on the overlay publish order -/

theorem fill_step_inv (setup_ok : Bool) (predict : F32 → F32) (ov0 : Overlay)
    (h0 : ov0.s_overlay_ready = 0) (p : Producer) (h : FillInv setup_ok predict ov0 p) :
    FillInv setup_ok predict ov0 (fill_step setup_ok predict p) := by
  obtain ⟨pc, ov⟩ := p
  cases pc with
  | entry =>
    simp only [FillInv] at h
    subst h
    simp [fill_step, FillInv, h0]
  | check =>
    simp only [FillInv] at h
    unfold fill_step
    simp only
    by_cases hs : ov.setup_done = true
    · simp only [hs, if_true, FillInv]
      refine ⟨h.1, ?_, Nat.zero_le _, fun j hj => absurd hj (Nat.not_lt_zero j)⟩
      rw [← h.2]; exact hs
    · simp only [hs, if_false, FillInv]
      left
      refine ⟨h.1, ?_⟩
      rw [← h.2]; simpa using hs
  | loop i =>
    simp only [FillInv] at h
    obtain ⟨h1, h2, h3, h4⟩ := h
    unfold fill_step
    simp only
    by_cases hi : i < TFLM_SINE_OVERLAY_MAX_POINTS
    · simp only [hi, if_true, FillInv]
      refine ⟨h1, h2, hi, ?_⟩
      intro j hj
      by_cases hji : j = i
      · simp [hji]
      · simp only [hji, if_false]
        exact h4 j (by omega)
    · simp only [hi, if_false, FillInv]
      refine ⟨h1, h2, ?_⟩
      intro j hj
      exact h4 j (by omega)
  | store_count =>
    simp only [FillInv] at h
    simp only [fill_step, FillInv]
    exact ⟨h.1, h.2.1, trivial, h.2.2⟩
  | publish =>
    simp only [FillInv] at h
    simp only [fill_step, FillInv]
    right
    exact ⟨trivial, h.2.1, h.2.2.1, h.2.2.2⟩
  | done => exact h

theorem fill_steps_inv (setup_ok : Bool) (predict : F32 → F32) (ov0 : Overlay)
    (h0 : ov0.s_overlay_ready = 0) (k : Nat) (p : Producer)
    (h : FillInv setup_ok predict ov0 p) :
    FillInv setup_ok predict ov0 (fill_steps setup_ok predict k p) := by
  induction k generalizing p with
  | zero => exact h
  | succ k ih => exact ih _ (fill_step_inv setup_ok predict ov0 h0 p h)

theorem fill_inv_ready (setup_ok : Bool) (predict : F32 → F32) (ov0 : Overlay)
    (h0 : ov0.s_overlay_ready = 0) (p : Producer)
    (h : FillInv setup_ok predict ov0 p) (hr : p.ov.s_overlay_ready ≠ 0) :
    p.pc = FillPc.done ∧ (ov0.setup_done || setup_ok) = true ∧
    p.ov.s_num_points = (TFLM_SINE_OVERLAY_MAX_POINTS : Int) ∧
    ∀ j < TFLM_SINE_OVERLAY_MAX_POINTS, p.ov.s_y_values j = predict (overlay_x j) := by
  obtain ⟨pc, ov⟩ := p
  cases pc <;> simp only [FillInv] at h
  case done =>
    rcases h with h | h
    · exact absurd h.1 hr
    · exact ⟨rfl, h.2⟩
  all_goals first
    | exact absurd h.1 hr
    | (subst h; exact absurd h0 hr)

theorem fill_step_rank (setup_ok : Bool) (predict : F32 → F32) (p : Producer) :
    fill_rank (fill_step setup_ok predict p).pc ≤ fill_rank p.pc - 1 := by
  obtain ⟨pc, ov⟩ := p
  cases pc with
  | loop i =>
    unfold fill_step
    simp only
    split <;> simp only [fill_rank, TFLM_SINE_OVERLAY_MAX_POINTS] at * <;> omega
  | check =>
    unfold fill_step
    simp only
    split <;> simp [fill_rank, TFLM_SINE_OVERLAY_MAX_POINTS]
  | _ => simp [fill_step, fill_rank]

theorem fill_steps_rank (setup_ok : Bool) (predict : F32 → F32) (k : Nat) (p : Producer) :
    fill_rank (fill_steps setup_ok predict k p).pc ≤ fill_rank p.pc - k := by
  induction k generalizing p with
  | zero => exact le_refl _
  | succ k ih =>
    have h1 := ih (fill_step setup_ok predict p)
    have h2 := fill_step_rank setup_ok predict p
    show fill_rank (fill_steps setup_ok predict k (fill_step setup_ok predict p)).pc ≤ _
    omega

theorem fill_rank_zero (pc : FillPc) (h : fill_rank pc = 0) : pc = FillPc.done := by
  cases pc <;> simp [fill_rank] at h ⊢

/-- C5: `tflm_sine_fill_overlay_buffer` sets the readiness flag only as its
last step.  For a call entered with the flag clear, in every state the
producer reaches (after any number `k` of its steps): if
`tflm_sine_overlay_is_ready` is non-zero, the function has returned (nothing
is written after the flag), `tflm_sine_overlay_get` hands out the count 161
and an array whose 161 entries are the predictions the loop stored; and if the
setup has failed the flag is zero in every reachable state.  A whole call
with a successful setup does publish: afterwards the flag is set. -/
theorem overlay_ready_implies_published (setup_ok : Bool) (predict : F32 → F32)
    (ov0 : Overlay) (h0 : ov0.s_overlay_ready = 0) (k : Nat) :
    (tflm_sine_overlay_is_ready
        (fill_steps setup_ok predict k { pc := FillPc.entry, ov := ov0 }).ov ≠ 0 →
      (fill_steps setup_ok predict k { pc := FillPc.entry, ov := ov0 }).pc = FillPc.done ∧
      (tflm_sine_overlay_get
        (fill_steps setup_ok predict k { pc := FillPc.entry, ov := ov0 }).ov).2 = 161 ∧
      ∀ j < TFLM_SINE_OVERLAY_MAX_POINTS,
        (tflm_sine_overlay_get
          (fill_steps setup_ok predict k { pc := FillPc.entry, ov := ov0 }).ov).1 j
          = predict (overlay_x j)) ∧
    ((ov0.setup_done || setup_ok) = false →
      tflm_sine_overlay_is_ready
        (fill_steps setup_ok predict k { pc := FillPc.entry, ov := ov0 }).ov = 0) ∧
    ((ov0.setup_done || setup_ok) = true →
      tflm_sine_overlay_is_ready (tflm_sine_fill_overlay_buffer setup_ok predict ov0) = 1) := by
  have hinv := fill_steps_inv setup_ok predict ov0 h0 k { pc := FillPc.entry, ov := ov0 }
    (by simp [FillInv])
  refine ⟨?_, ?_, ?_⟩
  · intro hr
    have hr' : (fill_steps setup_ok predict k { pc := FillPc.entry, ov := ov0 }).ov.s_overlay_ready
        ≠ 0 := by
      intro hz
      apply hr
      simp [tflm_sine_overlay_is_ready, hz]
    obtain ⟨a, _, c, d⟩ := fill_inv_ready setup_ok predict ov0 h0 _ hinv hr'
    exact ⟨a, c, d⟩
  · intro hs
    by_contra hr
    have hr' : (fill_steps setup_ok predict k { pc := FillPc.entry, ov := ov0 }).ov.s_overlay_ready
        ≠ 0 := by
      intro hz
      apply hr
      simp [tflm_sine_overlay_is_ready, hz]
    obtain ⟨_, b, _, _⟩ := fill_inv_ready setup_ok predict ov0 h0 _ hinv hr'
    rw [hs] at b
    exact absurd b (by decide)
  · intro hs
    unfold tflm_sine_fill_overlay_buffer
    generalize hN : (166 : Nat) = n
    have hinv2 := fill_steps_inv setup_ok predict ov0 h0 n
      { pc := FillPc.entry, ov := ov0 } (by simp [FillInv])
    have hrank : fill_rank (fill_steps setup_ok predict n
        { pc := FillPc.entry, ov := ov0 }).pc ≤ 166 - n :=
      fill_steps_rank setup_ok predict n { pc := FillPc.entry, ov := ov0 }
    have hzero : fill_rank (fill_steps setup_ok predict n
        { pc := FillPc.entry, ov := ov0 }).pc = 0 := by
      omega
    have hdone := fill_rank_zero _ hzero
    clear hzero hrank
    generalize fill_steps setup_ok predict n { pc := FillPc.entry, ov := ov0 } = q at *
    obtain ⟨pc, ov⟩ := q
    simp only at hdone
    subst hdone
    simp only [FillInv] at hinv2
    rcases hinv2 with h | h
    · rw [hs] at h
      exact absurd h.2 (by decide)
    · simp [tflm_sine_overlay_is_ready, h.1]

theorem overlay_ready_implies_published_witness :
    overlay_init.s_overlay_ready = 0 ∧
    tflm_sine_overlay_is_ready
      (tflm_sine_fill_overlay_buffer true (fun x => x) overlay_init) = 1 :=
  ⟨rfl, (overlay_ready_implies_published true (fun x => x) overlay_init rfl 0).2.2 rfl⟩

/-! ## Claims on the capture loop -/

theorem pool_count (b : Nat) (c : Cam) :
    (pool c).count b = c.src.queued.count b + c.src.filled.count b + c.held.count b := by
  unfold pool
  simp only [List.count_append]

theorem source_complete_count (b : Nat) (s : Source) (k : Nat) :
    (source_complete s k).queued.count b + (source_complete s k).filled.count b
      = s.queued.count b + s.filled.count b := by
  unfold source_complete
  simp only [List.count_append]
  have h := congrArg (List.count b) (List.take_append_drop k s.queued)
  rw [List.count_append] at h
  omega

theorem nodup_of_count_eq (l l' : List Nat) (h : ∀ b, l'.count b = l.count b)
    (hn : l.Nodup) : l'.Nodup := by
  rw [List.nodup_iff_count_le_one] at hn ⊢
  intro a
  rw [h a]
  exact hn a

theorem not_mem_of_count_zero (b : Nat) (l : List Nat) (h : l.count b = 0) : b ∉ l := by
  intro hm
  have := List.count_pos_iff.mpr hm
  omega

theorem pool_count_complete (c : Cam) (k b : Nat) :
    (pool (cam_complete c k)).count b = (pool c).count b := by
  simp only [pool_count, cam_complete]
  have := source_complete_count b c.src k
  omega

theorem cam_dequeue_none (c : Cam) (h : c.src.filled = []) : cam_dequeue c = none := by
  simp only [cam_dequeue, video_dequeue, h]

theorem cam_dequeue_some (c : Cam) (t : Nat) (rest : List Nat) (h : c.src.filled = t :: rest) :
    cam_dequeue c =
      some (t, { src := { queued := c.src.queued, filled := rest }, held := t :: c.held }) := by
  simp only [cam_dequeue, video_dequeue, h]

/-- A successful dequeue moves the oldest completed buffer to the application. -/
theorem cam_dequeue_spec (c c1 : Cam) (t : Nat) (h : cam_dequeue c = some (t, c1)) :
    c1.held = t :: c.held ∧ c.src.filled = t :: c1.src.filled ∧
    c1.src.queued = c.src.queued ∧ ∀ b, (pool c1).count b = (pool c).count b := by
  cases hf : c.src.filled with
  | nil => rw [cam_dequeue_none c hf] at h; exact absurd h (by simp)
  | cons t' rest =>
    rw [cam_dequeue_some c t' rest hf] at h
    simp only [Option.some.injEq, Prod.mk.injEq] at h
    obtain ⟨h1, h2⟩ := h
    subst h1 h2
    refine ⟨rfl, rfl, rfl, ?_⟩
    intro b
    simp only [pool_count, hf, List.count_cons]
    omega

/-- Handing back the buffer dequeued last. -/
theorem cam_enqueue_spec (c : Cam) (t : Nat) (hd : List Nat) (h : c.held = t :: hd) :
    (cam_enqueue c t).held = hd ∧ (cam_enqueue c t).src.filled = c.src.filled ∧
    (cam_enqueue c t).src.queued = c.src.queued ++ [t] ∧
    ∀ b, (pool (cam_enqueue c t)).count b = (pool c).count b := by
  simp only [cam_enqueue, video_enqueue, h, List.erase_cons_head, true_and]
  intro b
  simp only [pool_count, h, List.count_append, List.count_cons, List.count_nil]
  omega

/-- An enqueue of a held buffer in a pool without duplicates hands over a
buffer the source does not hold. -/
theorem held_not_in_source (c : Cam) (t : Nat) (hd : List Nat) (h : c.held = t :: hd)
    (hn : (pool c).Nodup) : t ∈ c.held ∧ t ∉ c.src.queued ∧ t ∉ c.src.filled := by
  have h1 := List.nodup_iff_count_le_one.mp hn t
  simp only [pool_count, h, List.count_cons, beq_self_eq_true, if_true] at h1
  rw [h]
  exact ⟨List.mem_cons_self _ _, not_mem_of_count_zero _ _ (by omega),
    not_mem_of_count_zero _ _ (by omega)⟩

/-- The drain loop, run with enough fuel, ends on the failing dequeue: it hands
every completed buffer back to the source and leaves the held buffers as they
were. -/
theorem drain_spec (fuel : Nat) (c : Cam) (h : c.src.filled.length < fuel) :
    (drain fuel c).1 =
      { src := { queued := c.src.queued ++ c.src.filled, filled := [] }, held := c.held } ∧
    events (drain fuel c).2 = drain_events c.src.filled ∧
    (∀ s ∈ (drain fuel c).2, ∀ b, (pool s.2).count b = (pool c).count b) ∧
    ((pool c).Nodup → enqueue_fresh c (drain fuel c).2) := by
  induction fuel generalizing c with
  | zero => omega
  | succ fuel ih =>
    cases hf : c.src.filled with
    | nil =>
      obtain ⟨⟨q, f⟩, hd⟩ := c
      simp only at hf
      subst hf
      simp only [drain, cam_dequeue_none, events, drain_events, List.map_cons, List.map_nil,
        List.append_nil, true_and]
      refine ⟨?_, ?_⟩
      · intro s hs b
        simp only [List.mem_singleton] at hs
        rw [hs]
      · intro _
        simp [enqueue_fresh]
    | cons t rest =>
      have hdq := cam_dequeue_some c t rest hf
      obtain ⟨a1, a2, a3, a4⟩ := cam_dequeue_spec c _ t hdq
      obtain ⟨b1, b2, b3, b4⟩ := cam_enqueue_spec _ t c.held a1
      generalize hc1 : (⟨⟨c.src.queued, rest⟩, t :: c.held⟩ : Cam) = c1
        at hdq a1 a2 a3 a4 b1 b2 b3 b4
      have hlen : (cam_enqueue c1 t).src.filled.length < fuel := by
        rw [b2, ← hc1]
        rw [hf] at h
        simp only [List.length_cons] at h ⊢
        omega
      obtain ⟨i1, i2, i3, i4⟩ := ih (cam_enqueue c1 t) hlen
      have hfill : c1.src.filled = rest := by rw [← hc1]
      simp only [drain, hdq, events, drain_events, List.map_cons]
      refine ⟨?_, ?_, ?_, ?_⟩
      · rw [i1, b1, b2, b3, a3, hfill]
        simp
      · simp only [events] at i2
        rw [i2, b2, hfill]
      · intro s hs b
        simp only [List.mem_cons] at hs
        rcases hs with hs | hs | hs
        · rw [hs]; exact a4 b
        · rw [hs, b4 b]; exact a4 b
        · rw [i3 s hs b, b4 b]; exact a4 b
      · intro hn
        have hn1 := nodup_of_count_eq _ _ a4 hn
        refine ⟨?_, ?_, ?_⟩
        · intro b hb
          exact absurd hb (by simp)
        · intro b hb
          have hbt : t = b := by injection hb
          subst hbt
          exact held_not_in_source c1 t c.held a1 hn1
        · exact i4 (nodup_of_count_eq _ _ b4 hn1)

theorem drain_full (c : Cam) :
    (drain (c.src.filled.length + 1) c).1 =
      { src := { queued := c.src.queued ++ c.src.filled, filled := [] }, held := c.held } ∧
    events (drain (c.src.filled.length + 1) c).2 = drain_events c.src.filled ∧
    (∀ s ∈ (drain (c.src.filled.length + 1) c).2, ∀ b, (pool s.2).count b = (pool c).count b) ∧
    ((pool c).Nodup → enqueue_fresh c (drain (c.src.filled.length + 1) c).2) :=
  drain_spec _ c (Nat.lt_succ_self _)

theorem events_append (a b : Trace) : events (a ++ b) = events a ++ events b := by
  unfold events
  exact List.map_append _ _ _

theorem dequeued_append (a b : List Event) : dequeued (a ++ b) = dequeued a ++ dequeued b := by
  induction a with
  | nil => rfl
  | cons e a ih =>
    cases e with
    | dequeue t o => cases o <;> simp [dequeued, ih]
    | _ => simp [dequeued, ih]

theorem enqueued_append (a b : List Event) : enqueued (a ++ b) = enqueued a ++ enqueued b := by
  induction a with
  | nil => rfl
  | cons e a ih => cases e <;> simp [enqueued, ih]

theorem delivered_append (a b : List Event) :
    delivered (a ++ b) = delivered a ++ delivered b := by
  induction a with
  | nil => rfl
  | cons e a ih => cases e <;> simp [delivered, ih]

theorem display_writes_append (a b : List Event) :
    display_writes (a ++ b) = display_writes a + display_writes b := by
  unfold display_writes
  exact List.count_append _ _ _

theorem drain_events_facts (l : List Nat) :
    dequeued (drain_events l) = l ∧ enqueued (drain_events l) = l ∧
    delivered (drain_events l) = [] ∧ display_writes (drain_events l) = 0 ∧
    (drain_events l).count Event.stream_stop = 0 ∧
    (∀ ms, (drain_events l).count (Event.msleep ms) = 0) ∧
    (drain_events l).count (Event.dequeue 0 none) = 1 := by
  induction l with
  | nil => simp [drain_events, dequeued, enqueued, delivered, display_writes]
  | cons b l ih =>
    obtain ⟨h1, h2, h3, h4, h5, h6, h7⟩ := ih
    unfold display_writes at h4 ⊢
    simp [drain_events, dequeued, enqueued, delivered, h1, h2, h3, h4, h5, h6, h7]

theorem enqueue_fresh_snoc (c c' : Cam) (t : Trace) (e : Event)
    (he : ∀ b, e ≠ Event.enqueue b) (h : enqueue_fresh c t) :
    enqueue_fresh c (t ++ [(e, c')]) := by
  induction t generalizing c with
  | nil =>
    simp only [List.nil_append, enqueue_fresh, and_true]
    intro b hb
    exact absurd hb (he b)
  | cons s t ih =>
    obtain ⟨e1, c1⟩ := s
    simp only [List.cons_append, enqueue_fresh] at h ⊢
    exact ⟨h.1, ih c1 h.2⟩

/-- The iteration after a failed `video_stream_start`. -/
theorem iteration_start_failed (cy : Cycle) (c0 : Cam) (h : cy.start_ret < 0) :
    camera_iteration cy c0 =
      ((drain ((cam_complete c0 cy.late).src.filled.length + 1) (cam_complete c0 cy.late)).1,
        [(Event.stream_start cy.start_ret, c0),
          (Event.source_completes cy.late, cam_complete c0 cy.late),
          (Event.stream_stop, cam_complete c0 cy.late)] ++
        (drain ((cam_complete c0 cy.late).src.filled.length + 1) (cam_complete c0 cy.late)).2 ++
        [(Event.msleep 100,
          (drain ((cam_complete c0 cy.late).src.filled.length + 1)
            (cam_complete c0 cy.late)).1)]) := by
  unfold camera_iteration
  rw [if_pos h]

/-- The iteration whose bounded dequeue times out. -/
theorem iteration_poll_timeout (cy : Cycle) (c0 : Cam) (h : ¬ cy.start_ret < 0)
    (hf : cam_dequeue (cam_complete c0 cy.completed) = none) :
    camera_iteration cy c0 =
      ((drain ((cam_complete (cam_complete c0 cy.completed) cy.late).src.filled.length + 1)
          (cam_complete (cam_complete c0 cy.completed) cy.late)).1,
        [(Event.stream_start cy.start_ret, c0),
          (Event.source_completes cy.completed, cam_complete c0 cy.completed),
          (Event.dequeue 100 none, cam_complete c0 cy.completed),
          (Event.source_completes cy.late,
            cam_complete (cam_complete c0 cy.completed) cy.late),
          (Event.stream_stop, cam_complete (cam_complete c0 cy.completed) cy.late)] ++
        (drain ((cam_complete (cam_complete c0 cy.completed) cy.late).src.filled.length + 1)
          (cam_complete (cam_complete c0 cy.completed) cy.late)).2 ++
        [(Event.msleep 1,
          (drain ((cam_complete (cam_complete c0 cy.completed) cy.late).src.filled.length + 1)
            (cam_complete (cam_complete c0 cy.completed) cy.late)).1)]) := by
  unfold camera_iteration
  rw [if_neg h]
  simp only [hf]

/-- The iteration whose bounded dequeue returns the buffer `vbuf`. -/
theorem iteration_success (cy : Cycle) (c0 c2 : Cam) (h : ¬ cy.start_ret < 0) (vbuf : Nat)
    (hf : cam_dequeue (cam_complete c0 cy.completed) = some (vbuf, c2)) :
    camera_iteration cy c0 =
      ((drain ((cam_enqueue (cam_complete c2 cy.late) vbuf).src.filled.length + 1)
          (cam_enqueue (cam_complete c2 cy.late) vbuf)).1,
        [(Event.stream_start cy.start_ret, c0),
          (Event.source_completes cy.completed, cam_complete c0 cy.completed),
          (Event.dequeue 100 (some vbuf), c2),
          (Event.source_completes cy.late, cam_complete c2 cy.late),
          (Event.stream_stop, cam_complete c2 cy.late),
          (Event.copy_frame vbuf, cam_complete c2 cy.late),
          (Event.display_write, cam_complete c2 cy.late),
          (Event.enqueue vbuf, cam_enqueue (cam_complete c2 cy.late) vbuf)] ++
        (drain ((cam_enqueue (cam_complete c2 cy.late) vbuf).src.filled.length + 1)
          (cam_enqueue (cam_complete c2 cy.late) vbuf)).2) := by
  unfold camera_iteration
  rw [if_neg h]
  simp only [hf]

/-- What every iteration of the capture loop keeps: it ends with no completed
buffer left in the source and with the application holding what it held
before; every state it passes through has the same buffers in the pool; every
enqueue hands over a buffer the source does not hold; and the buffers it
dequeues are the buffers it enqueues, in the same order. -/
theorem camera_iteration_spec (cy : Cycle) (c0 : Cam) :
    (camera_iteration cy c0).1.src.filled = [] ∧
    (camera_iteration cy c0).1.held = c0.held ∧
    (∀ b, (pool (camera_iteration cy c0).1).count b = (pool c0).count b) ∧
    (∀ s ∈ (camera_iteration cy c0).2, ∀ b, (pool s.2).count b = (pool c0).count b) ∧
    ((pool c0).Nodup → enqueue_fresh c0 (camera_iteration cy c0).2) ∧
    dequeued (events (camera_iteration cy c0).2)
      = enqueued (events (camera_iteration cy c0).2) := by
  have hfin : ∀ c : Cam, ∀ b,
      (pool (⟨⟨c.src.queued ++ c.src.filled, []⟩, c.held⟩ : Cam)).count b = (pool c).count b := by
    intro c b
    simp only [pool_count, List.count_append, List.count_nil]
    omega
  -- the part every path ends with: a drain from a state `c` with the pool of `c0`
  have hdrain : ∀ c : Cam, c.held = c0.held → (∀ b, (pool c).count b = (pool c0).count b) →
      (drain (c.src.filled.length + 1) c).1.src.filled = [] ∧
      (drain (c.src.filled.length + 1) c).1.held = c0.held ∧
      (∀ b, (pool (drain (c.src.filled.length + 1) c).1).count b = (pool c0).count b) ∧
      (∀ s ∈ (drain (c.src.filled.length + 1) c).2, ∀ b,
        (pool s.2).count b = (pool c0).count b) ∧
      ((pool c0).Nodup → enqueue_fresh c (drain (c.src.filled.length + 1) c).2) ∧
      dequeued (events (drain (c.src.filled.length + 1) c).2)
        = enqueued (events (drain (c.src.filled.length + 1) c).2) := by
    intro c hh hc
    obtain ⟨d1, d2, d3, d4⟩ := drain_full c
    obtain ⟨f1, f2, _, _, _, _, _⟩ := drain_events_facts c.src.filled
    refine ⟨by rw [d1], by rw [d1]; exact hh, ?_, ?_, ?_, by rw [d2, f1, f2]⟩
    · intro b
      rw [d1, hfin c b, hc b]
    · intro s hs b
      rw [d3 s hs b, hc b]
    · intro hn
      exact d4 (nodup_of_count_eq _ _ hc hn)
  by_cases h : cy.start_ret < 0
  · -- start failure
    rw [iteration_start_failed cy c0 h]
    have hc1 := pool_count_complete c0 cy.late
    have hh1 : (cam_complete c0 cy.late).held = c0.held := rfl
    generalize cam_complete c0 cy.late = c1 at hc1 hh1
    obtain ⟨e1, e2, e3, e4, e5, e6⟩ := hdrain c1 hh1 hc1
    refine ⟨e1, e2, e3, ?_, ?_, ?_⟩
    · intro s hs b
      simp only [List.append_assoc, List.mem_append, List.mem_cons, List.mem_singleton,
        List.not_mem_nil, or_false] at hs
      rcases hs with (hs | hs | hs) | hs | hs
      · rw [hs]
      · rw [hs]; exact hc1 b
      · rw [hs]; exact hc1 b
      · exact e4 s hs b
      · rw [hs]; exact e3 b
    · intro hn
      apply enqueue_fresh_snoc _ _ _ _ (by intro b; simp)
      simp only [List.cons_append, List.nil_append, enqueue_fresh]
      exact ⟨by intro b hb; simp at hb, by intro b hb; simp at hb,
        by intro b hb; simp at hb, e5 hn⟩
    · simp only [events_append, dequeued_append, enqueued_append, e6]
      simp [events, dequeued, enqueued]
  · cases hf : cam_dequeue (cam_complete c0 cy.completed) with
    | none =>
      -- poll timeout
      rw [iteration_poll_timeout cy c0 h hf]
      have hc1 := pool_count_complete c0 cy.completed
      have hh1 : (cam_complete c0 cy.completed).held = c0.held := rfl
      generalize cam_complete c0 cy.completed = c1 at hc1 hh1
      have hc2 : ∀ b, (pool (cam_complete c1 cy.late)).count b = (pool c0).count b :=
        fun b => by rw [pool_count_complete c1 cy.late b, hc1 b]
      have hh2 : (cam_complete c1 cy.late).held = c0.held := hh1
      generalize cam_complete c1 cy.late = c2 at hc2 hh2
      obtain ⟨e1, e2, e3, e4, e5, e6⟩ := hdrain c2 hh2 hc2
      refine ⟨e1, e2, e3, ?_, ?_, ?_⟩
      · intro s hs b
        simp only [List.append_assoc, List.mem_append, List.mem_cons, List.mem_singleton,
          List.not_mem_nil, or_false] at hs
        rcases hs with (hs | hs | hs | hs | hs) | hs | hs
        · rw [hs]
        · rw [hs]; exact hc1 b
        · rw [hs]; exact hc1 b
        · rw [hs]; exact hc2 b
        · rw [hs]; exact hc2 b
        · exact e4 s hs b
        · rw [hs]; exact e3 b
      · intro hn
        apply enqueue_fresh_snoc _ _ _ _ (by intro b; simp)
        simp only [List.cons_append, List.nil_append, enqueue_fresh]
        exact ⟨by intro b hb; simp at hb, by intro b hb; simp at hb,
          by intro b hb; simp at hb, by intro b hb; simp at hb,
          by intro b hb; simp at hb, e5 hn⟩
      · simp only [events_append, dequeued_append, enqueued_append, e6]
        simp [events, dequeued, enqueued]
    | some p =>
      -- a frame is delivered
      obtain ⟨vbuf, c2⟩ := p
      rw [iteration_success cy c0 c2 h vbuf hf]
      have hc1 := pool_count_complete c0 cy.completed
      have hh1 : (cam_complete c0 cy.completed).held = c0.held := rfl
      generalize cam_complete c0 cy.completed = c1 at hc1 hh1 hf
      obtain ⟨a1, _, _, a4⟩ := cam_dequeue_spec c1 c2 vbuf hf
      have hc2 : ∀ b, (pool c2).count b = (pool c0).count b := fun b => by rw [a4 b, hc1 b]
      have hc3 : ∀ b, (pool (cam_complete c2 cy.late)).count b = (pool c0).count b :=
        fun b => by rw [pool_count_complete c2 cy.late b, hc2 b]
      have hh3 : (cam_complete c2 cy.late).held = vbuf :: c0.held := by
        rw [← hh1, ← a1]; rfl
      generalize cam_complete c2 cy.late = c3 at hc3 hh3
      obtain ⟨b1, _, _, b4⟩ := cam_enqueue_spec c3 vbuf c0.held hh3
      have hc4 : ∀ b, (pool (cam_enqueue c3 vbuf)).count b = (pool c0).count b :=
        fun b => by rw [b4 b, hc3 b]
      obtain ⟨e1, e2, e3, e4, e5, e6⟩ := hdrain (cam_enqueue c3 vbuf) b1 hc4
      refine ⟨e1, e2, e3, ?_, ?_, ?_⟩
      · intro s hs b
        simp only [List.mem_append, List.mem_cons, List.not_mem_nil, or_false] at hs
        rcases hs with (hs | hs | hs | hs | hs | hs | hs | hs) | hs
        · rw [hs]
        · rw [hs]; exact hc1 b
        · rw [hs]; exact hc2 b
        · rw [hs]; exact hc3 b
        · rw [hs]; exact hc3 b
        · rw [hs]; exact hc3 b
        · rw [hs]; exact hc3 b
        · rw [hs]; exact hc4 b
        · exact e4 s hs b
      · intro hn
        simp only [List.cons_append, List.nil_append, enqueue_fresh]
        refine ⟨by intro b hb; simp at hb, by intro b hb; simp at hb,
          by intro b hb; simp at hb, by intro b hb; simp at hb,
          by intro b hb; simp at hb, by intro b hb; simp at hb,
          by intro b hb; simp at hb, ?_, e5 hn⟩
        intro b hb
        have hbt : vbuf = b := by injection hb
        subst hbt
        exact held_not_in_source c3 vbuf c0.held hh3 (nodup_of_count_eq _ _ hc3 hn)
      · simp only [events_append, dequeued_append, enqueued_append, e6]
        simp [events, dequeued, enqueued]

theorem enqueue_all_aux (l q : List Nat) :
    l.foldl cam_enqueue { src := { queued := q, filled := [] }, held := l }
      = { src := { queued := q ++ l, filled := [] }, held := [] } := by
  induction l generalizing q with
  | nil => simp
  | cons b l ih =>
    rw [List.foldl_cons]
    have h : cam_enqueue { src := { queued := q, filled := [] }, held := b :: l } b
        = { src := { queued := q ++ [b], filled := [] }, held := l } := by
      simp [cam_enqueue, video_enqueue]
    rw [h, ih]
    simp

/-- After the start-up loop the source holds every buffer of the pool. -/
theorem enqueue_all_eq (vbufs : List Nat) :
    enqueue_all vbufs = { src := { queued := vbufs, filled := [] }, held := [] } := by
  unfold enqueue_all
  rw [enqueue_all_aux]
  simp

/-- At the start of every iteration the source has no completed buffer
waiting, the application holds what it held at the start of the loop, and the
pool is the same. -/
theorem camera_loop_boundary (cycles : List Cycle) (c0 : Cam) :
    (camera_loop cycles c0).1.held = c0.held ∧
    (cycles ≠ [] → (camera_loop cycles c0).1.src.filled = []) ∧
    (∀ b, (pool (camera_loop cycles c0).1).count b = (pool c0).count b) ∧
    (camera_loop cycles c0).2.length = cycles.length := by
  induction cycles generalizing c0 with
  | nil => simp [camera_loop]
  | cons cy rest ih =>
    obtain ⟨s1, s2, s3, _, _, _⟩ := camera_iteration_spec cy c0
    obtain ⟨i1, i2, i3, i4⟩ := ih (camera_iteration cy c0).1
    simp only [camera_loop, List.length_cons]
    refine ⟨by rw [i1, s2], ?_, fun b => by rw [i3 b, s3 b], by rw [i4]⟩
    intro _
    by_cases hr : rest = []
    · subst hr
      simp only [camera_loop]
      exact s1
    · exact i2 hr

theorem camera_loop_append (a b : List Cycle) (c0 : Cam) :
    camera_loop (a ++ b) c0 =
      ((camera_loop b (camera_loop a c0).1).1,
        (camera_loop a c0).2 ++ (camera_loop b (camera_loop a c0).1).2) := by
  induction a generalizing c0 with
  | nil => simp [camera_loop]
  | cons cy a ih =>
    rw [List.cons_append]
    simp only [camera_loop]
    rw [ih]
    simp

/-- The state at the start of an iteration of the capture loop that was started
by handing all of `vbufs` to the source. -/
theorem camera_loop_start_state (vbufs : List Nat) (pre : List Cycle) :
    (camera_loop pre (enqueue_all vbufs)).1.held = [] ∧
    (camera_loop pre (enqueue_all vbufs)).1.src.filled = [] ∧
    (∀ b, (pool (camera_loop pre (enqueue_all vbufs)).1).count b = vbufs.count b) ∧
    (camera_loop pre (enqueue_all vbufs)).1.src.queued.Perm vbufs := by
  obtain ⟨h1, h2, h3, _⟩ := camera_loop_boundary pre (enqueue_all vbufs)
  rw [enqueue_all_eq] at h1 h2 h3 ⊢
  have hfill : (camera_loop pre { src := { queued := vbufs, filled := [] }, held := [] }).1.src.filled
      = [] := by
    by_cases hp : pre = []
    · subst hp; rfl
    · exact h2 hp
  have hcount : ∀ b, (pool (camera_loop pre
      { src := { queued := vbufs, filled := [] }, held := [] }).1).count b = vbufs.count b := by
    intro b
    rw [h3 b]
    simp [pool_count]
  refine ⟨h1, hfill, hcount, ?_⟩
  rw [List.perm_iff_count]
  intro b
  have := hcount b
  simp only [pool_count, hfill, h1, List.count_nil] at this
  omega

theorem cam_complete_zero (c : Cam) : cam_complete c 0 = c := by
  obtain ⟨⟨q, f⟩, h⟩ := c
  simp [cam_complete, source_complete]

/-- A cycle with the events of a timed-out dequeue has exactly one stop, one
drain, one 1 ms backoff, and delivers nothing. -/
theorem timeout_cycle_counts (evs : List Event) (h : timeout_cycle_events evs) :
    evs.count Event.stream_stop = 1 ∧ evs.count (Event.dequeue 0 none) = 1 ∧
    evs.count (Event.msleep 1) = 1 ∧ (∀ ms, ms ≠ 1 → evs.count (Event.msleep ms) = 0) ∧
    delivered evs = [] ∧ display_writes evs = 0 := by
  obtain ⟨r, k, l, rfl⟩ := h
  obtain ⟨_, _, f3, f4, f5, f6, f7⟩ := drain_events_facts l
  unfold display_writes at f4 ⊢
  refine ⟨?_, ?_, ?_, ?_, ?_, ?_⟩
  · simp [List.count_append, f5]
  · simp [List.count_append, f7]
  · simp [List.count_append, f6]
  · intro ms hms
    simp [List.count_append, f6, hms]
  · simp [delivered_append, delivered, f3]
  · simp [List.count_append, f4]

/-- Timed-out cycles from an iteration boundary: every one of them has the
events of a timed-out cycle. -/
theorem camera_loop_timeouts (ts : List Cycle)
    (hts : ∀ cy ∈ ts, 0 ≤ cy.start_ret ∧ cy.completed = 0) (c0 : Cam)
    (hf : c0.src.filled = []) :
    ∀ tr ∈ (camera_loop ts c0).2, timeout_cycle_events (events tr) := by
  induction ts generalizing c0 with
  | nil => intro tr htr; simp [camera_loop] at htr
  | cons cy rest ih =>
    obtain ⟨h1, h2⟩ := hts cy (List.mem_cons_self _ _)
    have hnone : cam_dequeue (cam_complete c0 cy.completed) = none := by
      rw [h2, cam_complete_zero]
      exact cam_dequeue_none c0 hf
    obtain ⟨s1, _, _, _, _, _⟩ := camera_iteration_spec cy c0
    intro tr htr
    simp only [camera_loop, List.mem_cons] at htr
    rcases htr with htr | htr
    · rw [htr, iteration_poll_timeout cy c0 (by omega) hnone]
      obtain ⟨_, d2, _, _⟩ := drain_full (cam_complete (cam_complete c0 cy.completed) cy.late)
      refine ⟨cy.start_ret, cy.late,
        (cam_complete (cam_complete c0 cy.completed) cy.late).src.filled, ?_⟩
      simp only [events_append, d2]
      simp [events, h2]
    · exact ih (fun c hc => hts c (List.mem_cons_of_mem _ hc)) _ s1 tr htr

/-- C3: the failure policy of the capture loop.  A cycle whose
`video_stream_start` fails does stop, a non-blocking drain and a 100 ms
backoff; a cycle whose bounded dequeue times out does stop, a non-blocking
drain and a 1 ms backoff; neither hands a frame to `copy_frame_to_display` or
`display_write`.  For every number of cycles `ts` in which the source
completes nothing before the dequeue returns, followed by a cycle `s` in which
it completes at least one buffer, with a non-empty pool: each of the cycles of
`ts` has exactly one stop, one drain and one 1 ms backoff and delivers
nothing, and the cycle after them delivers exactly one frame, written to the
display once. -/
theorem capture_failure_policy (vbufs : List Nat) (hne : vbufs ≠ []) (ts : List Cycle)
    (hts : ∀ cy ∈ ts, 0 ≤ cy.start_ret ∧ cy.completed = 0)
    (s : Cycle) (hs : 0 ≤ s.start_ret ∧ 1 ≤ s.completed) :
    (∀ (cy : Cycle) (c : Cam), cy.start_ret < 0 →
      events (camera_iteration cy c).2 =
        [Event.stream_start cy.start_ret, Event.source_completes cy.late, Event.stream_stop]
          ++ drain_events (cam_complete c cy.late).src.filled ++ [Event.msleep 100] ∧
      delivered (events (camera_iteration cy c).2) = [] ∧
      display_writes (events (camera_iteration cy c).2) = 0) ∧
    (∀ (cy : Cycle) (c : Cam), ¬ cy.start_ret < 0 →
      cam_dequeue (cam_complete c cy.completed) = none →
      events (camera_iteration cy c).2 =
        [Event.stream_start cy.start_ret, Event.source_completes cy.completed,
          Event.dequeue 100 none, Event.source_completes cy.late, Event.stream_stop]
          ++ drain_events (cam_complete (cam_complete c cy.completed) cy.late).src.filled
          ++ [Event.msleep 1] ∧
      delivered (events (camera_iteration cy c).2) = [] ∧
      display_writes (events (camera_iteration cy c).2) = 0) ∧
    ((camera_loop ts (enqueue_all vbufs)).2.length = ts.length ∧
      ∀ tr ∈ (camera_loop ts (enqueue_all vbufs)).2,
        (events tr).count Event.stream_stop = 1 ∧
        (events tr).count (Event.dequeue 0 none) = 1 ∧
        (events tr).count (Event.msleep 1) = 1 ∧
        delivered (events tr) = [] ∧ display_writes (events tr) = 0) ∧
    (camera_loop (ts ++ [s]) (enqueue_all vbufs)).2 =
      (camera_loop ts (enqueue_all vbufs)).2 ++
        [(camera_iteration s (camera_loop ts (enqueue_all vbufs)).1).2] ∧
    (delivered (events (camera_iteration s (camera_loop ts (enqueue_all vbufs)).1).2)).length
      = 1 ∧
    display_writes (events (camera_iteration s (camera_loop ts (enqueue_all vbufs)).1).2)
      = 1 := by
  refine ⟨?_, ?_, ?_, ?_, ?_⟩
  · intro cy c h
    rw [iteration_start_failed cy c h]
    obtain ⟨_, d2, _, _⟩ := drain_full (cam_complete c cy.late)
    obtain ⟨_, _, f3, f4, _, _, _⟩ := drain_events_facts (cam_complete c cy.late).src.filled
    simp only [events_append, d2]
    refine ⟨by simp [events], ?_, ?_⟩
    · simp [events, delivered_append, delivered, f3]
    · unfold display_writes at f4 ⊢
      simp [events, List.count_append, f4]
  · intro cy c h hnone
    rw [iteration_poll_timeout cy c h hnone]
    obtain ⟨_, d2, _, _⟩ := drain_full (cam_complete (cam_complete c cy.completed) cy.late)
    obtain ⟨_, _, f3, f4, _, _, _⟩ :=
      drain_events_facts (cam_complete (cam_complete c cy.completed) cy.late).src.filled
    simp only [events_append, d2]
    refine ⟨by simp [events], ?_, ?_⟩
    · simp [events, delivered_append, delivered, f3]
    · unfold display_writes at f4 ⊢
      simp [events, List.count_append, f4]
  · refine ⟨(camera_loop_boundary ts _).2.2.2, ?_⟩
    intro tr htr
    have hto := camera_loop_timeouts ts hts (enqueue_all vbufs)
      (by rw [enqueue_all_eq]) tr htr
    obtain ⟨c1, c2, c3, _, c5, c6⟩ := timeout_cycle_counts _ hto
    exact ⟨c1, c2, c3, c5, c6⟩
  · rw [camera_loop_append]
    simp [camera_loop]
  · obtain ⟨b1, b2, _, b4⟩ := camera_loop_start_state vbufs ts
    generalize (camera_loop ts (enqueue_all vbufs)).1 = c at b1 b2 b4
    -- the source has a buffer to complete
    have hq : c.src.queued ≠ [] := by
      intro hq
      rw [hq] at b4
      exact hne (List.Perm.nil_eq b4).symm
    obtain ⟨q0, qs, hq0⟩ := List.exists_cons_of_ne_nil hq
    obtain ⟨k, hk⟩ : ∃ k, s.completed = k + 1 := ⟨s.completed - 1, by omega⟩
    have hfill : (cam_complete c s.completed).src.filled = q0 :: qs.take k := by
      simp [cam_complete, source_complete, b2, hq0, hk]
    have hdq := cam_dequeue_some _ q0 (qs.take k) hfill
    rw [iteration_success s c _ (by omega) q0 hdq]
    obtain ⟨_, d2, _, _⟩ := drain_full (cam_enqueue (cam_complete
      (⟨⟨(cam_complete c s.completed).src.queued, qs.take k⟩,
        q0 :: (cam_complete c s.completed).held⟩ : Cam) s.late) q0)
    obtain ⟨_, _, f3, f4, _, _, _⟩ := drain_events_facts (cam_enqueue (cam_complete
      (⟨⟨(cam_complete c s.completed).src.queued, qs.take k⟩,
        q0 :: (cam_complete c s.completed).held⟩ : Cam) s.late) q0).src.filled
    simp only [events_append, d2]
    refine ⟨?_, ?_⟩
    · simp [events, delivered_append, delivered, f3]
    · unfold display_writes at f4 ⊢
      simp [events, List.count_append, f4]

theorem capture_failure_policy_witness :
    ([0, 1, 2] ≠ ([] : List Nat)) ∧
    ((0 : Int) ≤ (Cycle.mk 0 1 0).start_ret ∧ 1 ≤ (Cycle.mk 0 1 0).completed) ∧
    ((camera_loop [Cycle.mk 0 0 0, Cycle.mk 0 0 1, Cycle.mk 0 0 0, Cycle.mk 0 0 2,
        Cycle.mk 0 0 0] (enqueue_all [0, 1, 2])).2.length = 5) ∧
    (delivered (events (camera_iteration (Cycle.mk 0 1 0)
      (camera_loop [Cycle.mk 0 0 0, Cycle.mk 0 0 1, Cycle.mk 0 0 0, Cycle.mk 0 0 2,
        Cycle.mk 0 0 0] (enqueue_all [0, 1, 2])).1).2)).length = 1 :=
  ⟨by decide, by decide,
    (capture_failure_policy [0, 1, 2] (by decide)
      [Cycle.mk 0 0 0, Cycle.mk 0 0 1, Cycle.mk 0 0 0, Cycle.mk 0 0 2, Cycle.mk 0 0 0]
      (by decide) (Cycle.mk 0 1 0) (by decide)).2.2.1.1,
    (capture_failure_policy [0, 1, 2] (by decide)
      [Cycle.mk 0 0 0, Cycle.mk 0 0 1, Cycle.mk 0 0 0, Cycle.mk 0 0 2, Cycle.mk 0 0 0]
      (by decide) (Cycle.mk 0 1 0) (by decide)).2.2.2.2.1⟩

/-- C4: pool conservation in the capture loop.  The pool `vbufs` has no
buffer twice and is handed to the source before the loop.  After any number of
iterations `pre`, at the start of the next iteration the application holds no
buffer, the source has no completed buffer waiting and holds exactly the pool.
In the next iteration, whatever the source does (`cy`): in every state the
buffers held by the source and by the application are a rearrangement of the
pool, so their number is the pool size; every enqueue hands over a buffer that
the application holds and the source does not hold; and the buffers dequeued
(the delivered frame and every drained buffer) are the buffers enqueued, so
all of them are back in the source before the next iteration. -/
theorem capture_pool_conserved (vbufs : List Nat) (hn : vbufs.Nodup) (pre : List Cycle)
    (cy : Cycle) :
    (camera_loop pre (enqueue_all vbufs)).1.held = [] ∧
    (camera_loop pre (enqueue_all vbufs)).1.src.filled = [] ∧
    (camera_loop pre (enqueue_all vbufs)).1.src.queued.Perm vbufs ∧
    (∀ s ∈ (camera_iteration cy (camera_loop pre (enqueue_all vbufs)).1).2,
      (pool s.2).Perm vbufs ∧
      s.2.src.queued.length + s.2.src.filled.length + s.2.held.length = vbufs.length) ∧
    enqueue_fresh (camera_loop pre (enqueue_all vbufs)).1
      (camera_iteration cy (camera_loop pre (enqueue_all vbufs)).1).2 ∧
    dequeued (events (camera_iteration cy (camera_loop pre (enqueue_all vbufs)).1).2)
      = enqueued (events (camera_iteration cy (camera_loop pre (enqueue_all vbufs)).1).2) ∧
    (camera_iteration cy (camera_loop pre (enqueue_all vbufs)).1).1.held = [] := by
  obtain ⟨b1, b2, b3, b4⟩ := camera_loop_start_state vbufs pre
  generalize (camera_loop pre (enqueue_all vbufs)).1 = c at b1 b2 b3 b4
  obtain ⟨_, s2, _, s4, s5, s6⟩ := camera_iteration_spec cy c
  have hnc : (pool c).Nodup := by
    rw [List.nodup_iff_count_le_one] at hn ⊢
    intro a
    rw [b3 a]
    exact hn a
  refine ⟨b1, b2, b4, ?_, s5 hnc, s6, by rw [s2, b1]⟩
  intro s hs
  have hperm : (pool s.2).Perm vbufs := by
    rw [List.perm_iff_count]
    intro b
    rw [s4 s hs b, b3 b]
  refine ⟨hperm, ?_⟩
  have hlen := hperm.length_eq
  simp only [pool, List.length_append] at hlen
  exact hlen

theorem capture_pool_conserved_witness :
    ([0, 1, 2] : List Nat).Nodup ∧
    (camera_loop [Cycle.mk 0 0 2, Cycle.mk (-5) 0 1] (enqueue_all [0, 1, 2])).1.held = [] ∧
    enqueue_fresh (camera_loop [Cycle.mk 0 0 2, Cycle.mk (-5) 0 1] (enqueue_all [0, 1, 2])).1
      (camera_iteration (Cycle.mk 0 2 1)
        (camera_loop [Cycle.mk 0 0 2, Cycle.mk (-5) 0 1] (enqueue_all [0, 1, 2])).1).2 :=
  ⟨by decide,
    (capture_pool_conserved [0, 1, 2] (by decide) [Cycle.mk 0 0 2, Cycle.mk (-5) 0 1]
      (Cycle.mk 0 2 1)).1,
    (capture_pool_conserved [0, 1, 2] (by decide) [Cycle.mk 0 0 2, Cycle.mk (-5) 0 1]
      (Cycle.mk 0 2 1)).2.2.2.2.1⟩

/-! ## Claims on text rendering -/

open display_pixel_format

theorem store8_apply (buf : Buf) (i v j : Nat) :
    store8 buf i v j = if j = i then v % 256 else buf j := rfl

/-- `set_pixel_color` writes the `get_bpp` bytes of the pixel at `offset` and
nothing else. -/
theorem set_pixel_color_apply (buf : Buf) (o : Nat) (fmt : display_pixel_format)
    (color j : Nat) :
    set_pixel_color buf o fmt color j =
      if o ≤ j ∧ j < o + get_bpp fmt then enc fmt color (j - o) else buf j := by
  cases fmt <;>
    simp only [set_pixel_color, enc, get_bpp, store16le, store32le, store8_apply] <;>
    split_ifs <;> first | rfl | omega

theorem get_bpp_pos (fmt : display_pixel_format) : 0 < get_bpp fmt := by
  cases fmt <;> decide

theorem get_bpp_le (fmt : display_pixel_format) : get_bpp fmt ≤ 4 := by
  cases fmt <;> decide

/-- Writing pixel `px` paints exactly that pixel. -/
theorem paints_pixel (fmt : display_pixel_format) (color px : Nat) (hpx : px < 2 ^ 30) :
    Paints fmt color
      (fun b => set_pixel_color b (px * get_bpp fmt % 4294967296) fmt color)
      (fun P => P = px) := by
  intro b P k hk
  have h4 := get_bpp_le fmt
  have h0 := get_bpp_pos fmt
  have hoff : px * get_bpp fmt % 4294967296 = px * get_bpp fmt := by
    apply Nat.mod_eq_of_lt
    have := Nat.mul_le_mul_left px h4
    norm_num at hpx
    omega
  simp only [hoff, set_pixel_color_apply]
  constructor
  · intro hP
    subst hP
    rw [if_pos ⟨by omega, by omega⟩]
    congr 1
    omega
  · intro hP
    have hne : ¬ (px * get_bpp fmt ≤ P * get_bpp fmt + k ∧
        P * get_bpp fmt + k < px * get_bpp fmt + get_bpp fmt) := by
      intro ⟨h1, h2⟩
      apply hP
      rcases Nat.lt_trichotomy P px with hlt | heq | hgt
      · have : (P + 1) * get_bpp fmt ≤ px * get_bpp fmt := Nat.mul_le_mul_right _ hlt
        rw [Nat.add_mul] at this
        omega
      · exact heq
      · have : (px + 1) * get_bpp fmt ≤ P * get_bpp fmt := Nat.mul_le_mul_right _ hgt
        rw [Nat.add_mul] at this
        omega
    rw [if_neg hne]

theorem paints_none (fmt : display_pixel_format) (color : Nat) :
    Paints fmt color (fun b => b) (fun _ => False) := by
  intro b P k _
  exact ⟨fun h => absurd h id, fun _ => rfl⟩

theorem paints_congr (fmt : display_pixel_format) (color : Nat) (T : Buf → Buf)
    (S S' : Nat → Prop) (h : Paints fmt color T S) (hS : ∀ P, S P ↔ S' P) :
    Paints fmt color T S' := by
  intro b P k hk
  obtain ⟨h1, h2⟩ := h b P k hk
  exact ⟨fun hs => h1 ((hS P).mpr hs), fun hs => h2 (fun hs' => hs ((hS P).mp hs'))⟩

theorem paints_ite (fmt : display_pixel_format) (color : Nat) (T : Buf → Buf)
    (S : Nat → Prop) (c : Prop) [Decidable c] (h : Paints fmt color T S) :
    Paints fmt color (fun b => if c then T b else b) (fun P => c ∧ S P) := by
  intro b P k hk
  obtain ⟨h1, h2⟩ := h b P k hk
  by_cases hc : c
  · simp only [hc, if_true, true_and]
    exact ⟨h1, h2⟩
  · simp only [hc, if_false, false_and]
    exact ⟨fun hf => absurd hf id, fun _ => trivial⟩

/-- A loop of painters paints the union of their pixel sets. -/
theorem paints_foldl {α : Type} (fmt : display_pixel_format) (color : Nat)
    (f : Buf → α → Buf) (S : α → Nat → Prop) (l : List α)
    (h : ∀ a ∈ l, Paints fmt color (fun b => f b a) (S a)) :
    Paints fmt color (fun b => l.foldl f b) (fun P => ∃ a ∈ l, S a P) := by
  induction l with
  | nil =>
    intro b P k _
    simp
  | cons a l ih =>
    have iht := ih (fun x hx => h x (List.mem_cons_of_mem _ hx))
    have ha := h a (List.mem_cons_self _ _)
    intro b P k hk
    simp only [List.foldl_cons]
    obtain ⟨t1, t2⟩ := iht (f b a) P k hk
    obtain ⟨a1, a2⟩ := ha b P k hk
    beta_reduce at t1 t2 a1 a2
    constructor
    · rintro ⟨x, hx, hs⟩
      by_cases hl : ∃ x ∈ l, S x P
      · exact t1 hl
      · rw [t2 hl]
        simp only [List.mem_cons] at hx
        rcases hx with rfl | hx
        · exact a1 hs
        · exact absurd ⟨x, hx, hs⟩ hl
    · intro hn
      have hl : ¬ ∃ x ∈ l, S x P := fun ⟨x, hx, hs⟩ => hn ⟨x, List.mem_cons_of_mem _ hx, hs⟩
      have hna : ¬ S a P := fun hs => hn ⟨a, List.mem_cons_self _ _, hs⟩
      rw [t2 hl]
      exact a2 hna

/-- The 1:1 glyph copy paints the pixels of the set bits of the glyph. -/
theorem paints_glyph_direct (fmt : display_pixel_format) (fg text_w c : Nat)
    (glyph : List Nat)
    (hb : ∀ row < FONT_H, ∀ col < FONT_W, row * text_w + c * FONT_W + col < 2 ^ 30) :
    Paints fmt fg (fun b => draw_glyph_direct b fmt (get_bpp fmt) text_w c glyph fg)
      (fun P => ∃ row < FONT_H, ∃ col < FONT_W,
        glyph.getD row 0 &&& (0x80 >>> col) ≠ 0 ∧ P = row * text_w + c * FONT_W + col) := by
  unfold draw_glyph_direct
  refine paints_congr fmt fg _ _ _ (paints_foldl fmt fg _
    (fun row P => ∃ col ∈ List.range FONT_W,
      glyph.getD row 0 &&& (0x80 >>> col) ≠ 0 ∧ P = row * text_w + c * FONT_W + col)
    (List.range FONT_H) ?_) ?_
  · intro row hrow
    have hrow' := List.mem_range.mp hrow
    refine paints_foldl fmt fg _
      (fun col P => glyph.getD row 0 &&& (0x80 >>> col) ≠ 0 ∧
        P = row * text_w + c * FONT_W + col) (List.range FONT_W) ?_
    intro col hcol
    have hcol' := List.mem_range.mp hcol
    have hlt := hb row hrow' col hcol'
    have hmod : (row * text_w + c * FONT_W + col) % 4294967296
        = row * text_w + c * FONT_W + col := by
      apply Nat.mod_eq_of_lt
      norm_num at hlt ⊢
      omega
    have hp := paints_ite fmt fg _ _ (glyph.getD row 0 &&& (0x80 >>> col) ≠ 0)
      (paints_pixel fmt fg (row * text_w + c * FONT_W + col) hlt)
    simp only [hmod]
    exact hp
  · intro P
    constructor
    · rintro ⟨row, hrow, col, hcol, h⟩
      exact ⟨row, List.mem_range.mp hrow, col, List.mem_range.mp hcol, h⟩
    · rintro ⟨row, hrow, col, hcol, h⟩
      exact ⟨row, List.mem_range.mpr hrow, col, List.mem_range.mpr hcol, h⟩

/-- The scaled glyph copy paints the pixels whose sampled source bit is set. -/
theorem paints_glyph_scaled (fmt : display_pixel_format) (fg text_w c gw gh : Nat)
    (glyph : List Nat)
    (hb : ∀ dy < gh, ∀ dx < gw, dy * text_w + (c * gw + dx) < 2 ^ 30) :
    Paints fmt fg (fun b => draw_glyph_scaled b fmt (get_bpp fmt) text_w c gw gh glyph fg)
      (fun P => ∃ dy < gh, ∃ dx < gw,
        glyph.getD (dy * FONT_H / gh) 0 &&& (0x80 >>> (dx * FONT_W / gw)) ≠ 0 ∧
        P = dy * text_w + (c * gw + dx)) := by
  unfold draw_glyph_scaled
  refine paints_congr fmt fg _ _ _ (paints_foldl fmt fg _
    (fun dy P => ∃ dx ∈ List.range gw,
      glyph.getD (dy * FONT_H / gh) 0 &&& (0x80 >>> (dx * FONT_W / gw)) ≠ 0 ∧
      P = dy * text_w + (c * gw + dx))
    (List.range gh) ?_) ?_
  · intro dy hdy
    have hdy' := List.mem_range.mp hdy
    refine paints_foldl fmt fg _
      (fun dx P => glyph.getD (dy * FONT_H / gh) 0 &&& (0x80 >>> (dx * FONT_W / gw)) ≠ 0 ∧
        P = dy * text_w + (c * gw + dx)) (List.range gw) ?_
    intro dx hdx
    have hdx' := List.mem_range.mp hdx
    have hlt := hb dy hdy' dx hdx'
    have hmod : (dy * text_w + (c * gw + dx)) % 4294967296 = dy * text_w + (c * gw + dx) := by
      apply Nat.mod_eq_of_lt
      norm_num at hlt ⊢
      omega
    have hp := paints_ite fmt fg _ _
      (glyph.getD (dy * FONT_H / gh) 0 &&& (0x80 >>> (dx * FONT_W / gw)) ≠ 0)
      (paints_pixel fmt fg (dy * text_w + (c * gw + dx)) hlt)
    simp only [hmod]
    exact hp
  · intro P
    constructor
    · rintro ⟨dy, hdy, dx, hdx, h⟩
      exact ⟨dy, List.mem_range.mp hdy, dx, List.mem_range.mp hdx, h⟩
    · rintro ⟨dy, hdy, dx, hdx, h⟩
      exact ⟨dy, List.mem_range.mpr hdy, dx, List.mem_range.mpr hdx, h⟩

theorem paints_range (fmt : display_pixel_format) (color n : Nat) (f : Buf → Nat → Buf)
    (S : Nat → Nat → Prop) (h : ∀ c < n, Paints fmt color (fun b => f b c) (S c)) :
    Paints fmt color (fun b => (List.range n).foldl f b) (fun P => ∃ c < n, S c P) := by
  refine paints_congr fmt color _ _ _
    (paints_foldl fmt color f S (List.range n) (fun a ha => h a (List.mem_range.mp ha))) ?_
  intro P
  constructor
  · rintro ⟨c, hc, hs⟩
    exact ⟨c, List.mem_range.mp hc, hs⟩
  · rintro ⟨c, hc, hs⟩
    exact ⟨c, List.mem_range.mpr hc, hs⟩

/-- The black colour is encoded as zero bytes, but for the alpha byte of
`ARGB_8888`. -/
theorem enc_black (fmt : display_pixel_format) (k : Nat) (hk : k < get_bpp fmt)
    (ha : fmt = PIXEL_FORMAT_ARGB_8888 → k < 3) : enc fmt COLOR_BLACK k = 0 := by
  cases fmt <;> simp only [get_bpp] at hk <;> interval_cases k <;>
    first | rfl | (exact absurd (ha rfl) (by decide))

/-- What the background fill leaves in every pixel of the text area. -/
theorem fill_background_pixel (fmt : display_pixel_format) (buf : Buf)
    (total_px bg P k : Nat) (ht : total_px < 2 ^ 30) (hP : P < total_px)
    (hk : k < get_bpp fmt) :
    fill_background buf fmt (get_bpp fmt) total_px bg (P * get_bpp fmt + k)
      = background_byte fmt bg k := by
  have h4 := get_bpp_le fmt
  unfold fill_background background_byte
  by_cases hbg : bg = COLOR_BLACK
  · simp only [hbg, if_true]
    unfold memset
    have hmod : total_px * get_bpp fmt % 4294967296 = total_px * get_bpp fmt := by
      apply Nat.mod_eq_of_lt
      have := Nat.mul_le_mul_left total_px h4
      norm_num at ht
      omega
    rw [hmod]
    have hin : 0 ≤ P * get_bpp fmt + k ∧ P * get_bpp fmt + k < 0 + total_px * get_bpp fmt := by
      have : (P + 1) * get_bpp fmt ≤ total_px * get_bpp fmt := Nat.mul_le_mul_right _ hP
      rw [Nat.add_mul] at this
      omega
    rw [if_pos hin]
  · simp only [hbg, if_false]
    have hp := paints_range fmt bg total_px
      (fun b px => set_pixel_color b (px * get_bpp fmt % 4294967296) fmt bg)
      (fun px P => P = px)
      (fun c hc => paints_pixel fmt bg c (by omega))
    exact (hp buf P k hk).1 ⟨P, hP, rfl⟩

theorem add_mul_unique (W r r' a a' : Nat) (ha : a < W) (ha' : a' < W)
    (h : r * W + a = r' * W + a') : r = r' ∧ a = a' := by
  have h1 : (r * W + a) / W = r := by
    rw [Nat.add_comm, Nat.add_mul_div_right _ _ (by omega), Nat.div_eq_of_lt ha,
      Nat.zero_add]
  have h2 : (r' * W + a') / W = r' := by
    rw [Nat.add_comm, Nat.add_mul_div_right _ _ (by omega), Nat.div_eq_of_lt ha',
      Nat.zero_add]
  have hr : r = r' := by rw [← h1, ← h2, h]
  subst hr
  exact ⟨rfl, by omega⟩

/-- A pixel of the text area names its row, its character cell and its column
in the cell uniquely. -/
theorem cell_unique (g len r r' c c' d d' : Nat) (hc : c < len) (hc' : c' < len)
    (hd : d < g) (hd' : d' < g)
    (h : r * (len * g) + (c * g + d) = r' * (len * g) + (c' * g + d')) :
    r = r' ∧ c = c' ∧ d = d' := by
  have hlt : ∀ x y, x < len → y < g → x * g + y < len * g := by
    intro x y hx hy
    have : (x + 1) * g ≤ len * g := Nat.mul_le_mul_right _ hx
    rw [Nat.add_mul] at this
    omega
  obtain ⟨h1, h2⟩ := add_mul_unique (len * g) r r' _ _ (hlt c d hc hd) (hlt c' d' hc' hd') h
  obtain ⟨h3, h4⟩ := add_mul_unique g c c' d d' hd hd' h2
  exact ⟨h1, h3, h4⟩

/-- A character loop of painters over a filled background: a pixel of the text
area painted by some character holds the foreground bytes, every other pixel
of the text area holds what the background fill left. -/
theorem text_pixel (fmt : display_pixel_format) (fg bg : Nat) (buf : Buf)
    (len total_px : Nat) (f : Buf → Nat → Buf) (S : Nat → Nat → Prop)
    (hf : ∀ c < len, Paints fmt fg (fun b => f b c) (S c))
    (ht : total_px < 2 ^ 30) (P : Nat) (hP : P < total_px) (k : Nat) (hk : k < get_bpp fmt) :
    ((∃ c < len, S c P) →
      (List.range len).foldl f (fill_background buf fmt (get_bpp fmt) total_px bg)
        (P * get_bpp fmt + k) = enc fmt fg k) ∧
    (¬ (∃ c < len, S c P) →
      (List.range len).foldl f (fill_background buf fmt (get_bpp fmt) total_px bg)
        (P * get_bpp fmt + k) = background_byte fmt bg k) := by
  obtain ⟨h1, h2⟩ := paints_range fmt fg len f S hf
    (fill_background buf fmt (get_bpp fmt) total_px bg) P k hk
  beta_reduce at h1 h2
  refine ⟨h1, fun hn => ?_⟩
  rw [h2 hn]
  exact fill_background_pixel fmt buf total_px bg P k ht hP hk

theorem text_len_le (str : List Nat) : text_len str ≤ 32 ∧ text_len str ≤ str.length := by
  unfold text_len DISPLAY_TEXT_MAX_LEN
  split <;> omega

theorem text_len_of_le (str : List Nat) (h : str.length ≤ 32) : text_len str = str.length := by
  unfold text_len DISPLAY_TEXT_MAX_LEN
  split <;> omega

/-- `display_text` at scale 1/1, unfolded. -/
theorem display_text_direct (fmt : display_pixel_format) (str : List Nat)
    (x y fg bg : Nat) (buf : Buf) (bpp : Nat) :
    display_text fmt str x y fg bg buf bpp 1 1 =
      { x := x, y := y,
        desc := { buf_size := (text_len str * 8 % 65536 * 16 % 4294967296) * bpp % 4294967296,
                  width := text_len str * 8 % 65536, height := 16,
                  pitch := text_len str * 8 % 65536 },
        buf := (List.range (text_len str)).foldl
          (fun b c =>
            match glyph_for_char (str.getD c 0) with
            | none => b
            | some glyph => draw_glyph_direct b fmt bpp (text_len str * 8 % 65536) c glyph fg)
          (fill_background buf fmt bpp (text_len str * 8 % 65536 * 16 % 4294967296) bg) } := by
  have e1 : clamp_scale_num 1 = 1 := by decide
  have e2 : clamp_scale_den 1 = 1 := by decide
  have e3 : glyph_w 1 1 = 8 := by decide
  have e4 : glyph_h 1 1 = 16 := by decide
  unfold display_text
  simp only [e1, e2, e3, e4, and_self, if_true]

/-- `display_text` at scale 3/2, unfolded. -/
theorem display_text_scaled (fmt : display_pixel_format) (str : List Nat)
    (x y fg bg : Nat) (buf : Buf) (bpp : Nat) :
    display_text fmt str x y fg bg buf bpp 3 2 =
      { x := x, y := y,
        desc := { buf_size := (text_len str * 12 % 65536 * 24 % 4294967296) * bpp % 4294967296,
                  width := text_len str * 12 % 65536, height := 24,
                  pitch := text_len str * 12 % 65536 },
        buf := (List.range (text_len str)).foldl
          (fun b c =>
            match glyph_for_char (str.getD c 0) with
            | none => b
            | some glyph =>
                draw_glyph_scaled b fmt bpp (text_len str * 12 % 65536) c 12 24 glyph fg)
          (fill_background buf fmt bpp (text_len str * 12 % 65536 * 24 % 4294967296) bg) } := by
  have e1 : clamp_scale_num 3 = 3 := by decide
  have e2 : clamp_scale_den 2 = 2 := by decide
  have e3 : glyph_w 3 2 = 12 := by decide
  have e4 : glyph_h 3 2 = 24 := by decide
  have e5 : ¬ ((3 : Int) = 1 ∧ (2 : Int) = 1) := by decide
  unfold display_text
  simp only [e1, e2, e3, e4, e5, if_false]

/-- Which pixels the character loop paints: the pixel at row `r0`, column `d0`
of the cell of character `k0` is painted exactly when the bit predicate `B`
holds of that character's glyph there. -/
theorem chars_paint_iff (str : List Nat) (len gw gh : Nat) (B : List Nat → Nat → Nat → Prop)
    (k0 r0 d0 : Nat) (hk : k0 < len) (hd : d0 < gw) (hr : r0 < gh) (g0 : List Nat)
    (hg : glyph_for_char (str.getD k0 0) = some g0) :
    (∃ c < len, ∃ g, glyph_for_char (str.getD c 0) = some g ∧
      ∃ r < gh, ∃ d < gw, B g r d ∧
        r0 * (len * gw) + (k0 * gw + d0) = r * (len * gw) + (c * gw + d)) ↔ B g0 r0 d0 := by
  constructor
  · rintro ⟨c, hc, g, hgc, r, _, d, hdd, hB, hP⟩
    obtain ⟨e1, e2, e3⟩ := cell_unique gw len r0 r k0 c d0 d hk hc hd hdd hP
    subst e1 e2 e3
    rw [hg] at hgc
    injection hgc with hgc
    subst hgc
    exact hB
  · intro hB
    exact ⟨k0, hk, g0, hg, r0, hr, d0, hd, hB, rfl⟩

theorem glyph_for_char_printable (ch : Nat) (h0 : 0x20 ≤ ch) (h1 : ch ≤ 0x7E) :
    glyph_for_char ch = some (font_ascii.getD (ch - FONT_FIRST_CHAR) []) := by
  unfold glyph_for_char FONT_FIRST_CHAR FONT_LAST_CHAR
  rw [if_pos ⟨h0, h1⟩]

/-- The body of the character loop at scale 1/1 is a painter. -/
theorem paints_char_direct (fmt : display_pixel_format) (fg : Nat) (str : List Nat)
    (len c : Nat) (hlen : len ≤ 32) (hc : c < len) :
    Paints fmt fg
      (fun b =>
        match glyph_for_char (str.getD c 0) with
        | none => b
        | some glyph => draw_glyph_direct b fmt (get_bpp fmt) (len * 8) c glyph fg)
      (fun P => ∃ g, glyph_for_char (str.getD c 0) = some g ∧
        ∃ r < 16, ∃ d < 8, g.getD r 0 &&& (0x80 >>> d) ≠ 0 ∧
          P = r * (len * 8) + (c * 8 + d)) := by
  cases hg : glyph_for_char (str.getD c 0) with
  | none =>
    refine paints_congr fmt fg _ _ _ (paints_none fmt fg) ?_
    intro P
    simp
  | some g =>
    have hb : ∀ row < FONT_H, ∀ col < FONT_W, row * (len * 8) + c * FONT_W + col < 2 ^ 30 := by
      intro row hrow col hcol
      unfold FONT_H at hrow
      unfold FONT_W at hcol ⊢
      have h1 : row * (len * 8) ≤ 16 * (32 * 8) :=
        Nat.mul_le_mul (by omega) (Nat.mul_le_mul_right _ hlen)
      norm_num
      omega
    refine paints_congr fmt fg _ _ _ (paints_glyph_direct fmt fg (len * 8) c g hb) ?_
    intro P
    unfold FONT_H FONT_W
    constructor
    · rintro ⟨r, hr, d, hd, hB, hP⟩
      exact ⟨g, rfl, r, hr, d, hd, hB, by omega⟩
    · rintro ⟨g', hg', r, hr, d, hd, hB, hP⟩
      injection hg' with hg'
      subst hg'
      exact ⟨r, hr, d, hd, hB, by omega⟩

/-- The body of the character loop at scale 3/2 is a painter. -/
theorem paints_char_scaled (fmt : display_pixel_format) (fg : Nat) (str : List Nat)
    (len c : Nat) (hlen : len ≤ 32) (hc : c < len) :
    Paints fmt fg
      (fun b =>
        match glyph_for_char (str.getD c 0) with
        | none => b
        | some glyph => draw_glyph_scaled b fmt (get_bpp fmt) (len * 12) c 12 24 glyph fg)
      (fun P => ∃ g, glyph_for_char (str.getD c 0) = some g ∧
        ∃ r < 24, ∃ d < 12, g.getD (r * 16 / 24) 0 &&& (0x80 >>> (d * 8 / 12)) ≠ 0 ∧
          P = r * (len * 12) + (c * 12 + d)) := by
  cases hg : glyph_for_char (str.getD c 0) with
  | none =>
    refine paints_congr fmt fg _ _ _ (paints_none fmt fg) ?_
    intro P
    simp
  | some g =>
    have hb : ∀ dy < 24, ∀ dx < 12, dy * (len * 12) + (c * 12 + dx) < 2 ^ 30 := by
      intro dy hdy dx hdx
      have h1 : dy * (len * 12) ≤ 24 * (32 * 12) :=
        Nat.mul_le_mul (by omega) (Nat.mul_le_mul_right _ hlen)
      norm_num
      omega
    refine paints_congr fmt fg _ _ _ (paints_glyph_scaled fmt fg (len * 12) c 12 24 g hb) ?_
    intro P
    unfold FONT_H FONT_W
    constructor
    · rintro ⟨r, hr, d, hd, hB, hP⟩
      exact ⟨g, rfl, r, hr, d, hd, hB, hP⟩
    · rintro ⟨g', hg', r, hr, d, hd, hB, hP⟩
      injection hg' with hg'
      subst hg'
      exact ⟨r, hr, d, hd, hB, hP⟩

/-- Every byte of a character cell after `display_text` at scale 1/1. -/
theorem display_text_direct_byte (fmt : display_pixel_format) (str : List Nat)
    (x y fg bg : Nat) (buf : Buf) (k0 r0 d0 j : Nat) (hk : k0 < text_len str)
    (hch : 0x20 ≤ str.getD k0 0 ∧ str.getD k0 0 ≤ 0x7E)
    (hr : r0 < 16) (hd : d0 < 8) (hj : j < get_bpp fmt) :
    (display_text fmt str x y fg bg buf (get_bpp fmt) 1 1).buf
        ((r0 * (text_len str * 8) + (k0 * 8 + d0)) * get_bpp fmt + j)
      = if font_bit (str.getD k0 0) r0 d0 then enc fmt fg j else background_byte fmt bg j := by
  obtain ⟨hl32, _⟩ := text_len_le str
  rw [display_text_direct]
  simp only
  have hw : text_len str * 8 % 65536 = text_len str * 8 := Nat.mod_eq_of_lt (by omega)
  have ht : text_len str * 8 * 16 % 4294967296 = text_len str * 8 * 16 :=
    Nat.mod_eq_of_lt (by omega)
  rw [hw, ht]
  have hP : r0 * (text_len str * 8) + (k0 * 8 + d0) < text_len str * 8 * 16 := by
    have : (r0 + 1) * (text_len str * 8) ≤ 16 * (text_len str * 8) :=
      Nat.mul_le_mul_right _ hr
    rw [Nat.add_mul] at this
    omega
  obtain ⟨p1, p2⟩ := text_pixel fmt fg bg buf (text_len str) (text_len str * 8 * 16) _ _
    (fun c hc => paints_char_direct fmt fg str (text_len str) c hl32 hc)
    (by norm_num; omega) _ hP j hj
  have hiff := chars_paint_iff str (text_len str) 8 16
    (fun g r d => g.getD r 0 &&& (0x80 >>> d) ≠ 0) k0 r0 d0 hk hd hr _
    (glyph_for_char_printable _ hch.1 hch.2)
  by_cases hb : font_bit (str.getD k0 0) r0 d0
  · rw [if_pos hb]
    exact p1 (hiff.mpr hb)
  · rw [if_neg hb]
    exact p2 (fun h => hb (hiff.mp h))

/-- Every byte of a character cell after `display_text` at scale 3/2. -/
theorem display_text_scaled_byte (fmt : display_pixel_format) (str : List Nat)
    (x y fg bg : Nat) (buf : Buf) (k0 r0 d0 j : Nat) (hk : k0 < text_len str)
    (hch : 0x20 ≤ str.getD k0 0 ∧ str.getD k0 0 ≤ 0x7E)
    (hr : r0 < 24) (hd : d0 < 12) (hj : j < get_bpp fmt) :
    (display_text fmt str x y fg bg buf (get_bpp fmt) 3 2).buf
        ((r0 * (text_len str * 12) + (k0 * 12 + d0)) * get_bpp fmt + j)
      = if font_bit (str.getD k0 0) (r0 * 16 / 24) (d0 * 8 / 12) then enc fmt fg j
        else background_byte fmt bg j := by
  obtain ⟨hl32, _⟩ := text_len_le str
  rw [display_text_scaled]
  simp only
  have hw : text_len str * 12 % 65536 = text_len str * 12 := Nat.mod_eq_of_lt (by omega)
  have ht : text_len str * 12 * 24 % 4294967296 = text_len str * 12 * 24 :=
    Nat.mod_eq_of_lt (by omega)
  rw [hw, ht]
  have hP : r0 * (text_len str * 12) + (k0 * 12 + d0) < text_len str * 12 * 24 := by
    have : (r0 + 1) * (text_len str * 12) ≤ 24 * (text_len str * 12) :=
      Nat.mul_le_mul_right _ hr
    rw [Nat.add_mul] at this
    omega
  obtain ⟨p1, p2⟩ := text_pixel fmt fg bg buf (text_len str) (text_len str * 12 * 24) _ _
    (fun c hc => paints_char_scaled fmt fg str (text_len str) c hl32 hc)
    (by norm_num; omega) _ hP j hj
  have hiff := chars_paint_iff str (text_len str) 12 24
    (fun g r d => g.getD (r * 16 / 24) 0 &&& (0x80 >>> (d * 8 / 12)) ≠ 0) k0 r0 d0 hk hd hr _
    (glyph_for_char_printable _ hch.1 hch.2)
  by_cases hb : font_bit (str.getD k0 0) (r0 * 16 / 24) (d0 * 8 / 12)
  · rw [if_pos hb]
    exact p1 (hiff.mpr hb)
  · rw [if_neg hb]
    exact p2 (fun h => hb (hiff.mp h))

/-- The background fill shows the background colour. -/
theorem background_byte_shows (fmt : display_pixel_format) (bg k : Nat)
    (hk : k < get_bpp fmt) (ha : fmt = PIXEL_FORMAT_ARGB_8888 → k < 3) :
    background_byte fmt bg k = enc fmt bg k := by
  unfold background_byte
  split
  · rename_i h
    rw [h, enc_black fmt k hk ha]
  · rfl

/-- C6: at scale 1/1 `display_text` reproduces the font bitmap bit for bit.
For every pixel format (with the matching bytes per pixel), every string of
length at most 32, every position `k` with a character in `0x20..0x7E`, every
`row < 16` and `col < 8`: the output is `8 * len` pixels wide and 16 high; the
pixel at row `row`, column `8 * k + col` holds the bytes `set_pixel_color`
writes for the foreground colour when bit `0x80 >> col` of
`font_ascii[c - 0x20][row]` is set, and shows the background colour when the
bit is clear (with exactly the bytes `set_pixel_color` writes for it, except
for the alpha byte of `ARGB_8888` under a black background); when the two
colours differ in a colour byte, the pixel shows the foreground colour if and
only if the bit is set. -/
theorem display_text_identity_reproduces_font (fmt : display_pixel_format) (str : List Nat)
    (hlen : str.length ≤ 32) (x y fg bg : Nat) (buf : Buf) (k row col : Nat)
    (hk : k < str.length) (hch : 0x20 ≤ str.getD k 0 ∧ str.getD k 0 ≤ 0x7E)
    (hrow : row < 16) (hcol : col < 8) :
    (display_text fmt str x y fg bg buf (get_bpp fmt) 1 1).desc.width = 8 * str.length ∧
    (display_text fmt str x y fg bg buf (get_bpp fmt) 1 1).desc.height = 16 ∧
    (font_bit (str.getD k 0) row col →
      pixel_is fmt (display_text fmt str x y fg bg buf (get_bpp fmt) 1 1).buf
        (row * (8 * str.length) + (8 * k + col)) fg) ∧
    (¬ font_bit (str.getD k 0) row col →
      pixel_shows fmt (display_text fmt str x y fg bg buf (get_bpp fmt) 1 1).buf
        (row * (8 * str.length) + (8 * k + col)) bg ∧
      (¬ (fmt = PIXEL_FORMAT_ARGB_8888 ∧ bg = COLOR_BLACK) →
        pixel_is fmt (display_text fmt str x y fg bg buf (get_bpp fmt) 1 1).buf
          (row * (8 * str.length) + (8 * k + col)) bg)) ∧
    ((∃ j < get_bpp fmt, (fmt = PIXEL_FORMAT_ARGB_8888 → j < 3) ∧ enc fmt fg j ≠ enc fmt bg j) →
      (pixel_shows fmt (display_text fmt str x y fg bg buf (get_bpp fmt) 1 1).buf
          (row * (8 * str.length) + (8 * k + col)) fg ↔
        font_bit (str.getD k 0) row col)) := by
  have hl := text_len_of_le str hlen
  have hbyte : ∀ j < get_bpp fmt,
      (display_text fmt str x y fg bg buf (get_bpp fmt) 1 1).buf
          ((row * (8 * str.length) + (8 * k + col)) * get_bpp fmt + j)
        = if font_bit (str.getD k 0) row col then enc fmt fg j
          else background_byte fmt bg j := by
    intro j hj
    have h := display_text_direct_byte fmt str x y fg bg buf k row col j (by rw [hl]; exact hk)
      hch hrow hcol hj
    rw [hl] at h
    rw [show 8 * str.length = str.length * 8 by omega, show 8 * k = k * 8 by omega]
    exact h
  refine ⟨?_, ?_, ?_, ?_, ?_⟩
  · rw [display_text_direct]
    simp only
    rw [hl]
    omega
  · rw [display_text_direct]
  · intro hb j hj
    rw [hbyte j hj, if_pos hb]
  · intro hb
    refine ⟨?_, ?_⟩
    · intro j hj ha
      rw [hbyte j hj, if_neg hb]
      exact background_byte_shows fmt bg j hj ha
    · intro hna j hj
      rw [hbyte j hj, if_neg hb]
      by_cases hblack : bg = COLOR_BLACK
      · apply background_byte_shows fmt bg j hj
        intro hf
        exact absurd ⟨hf, hblack⟩ hna
      · unfold background_byte
        rw [if_neg hblack]
  · rintro ⟨j, hj, ha, hne⟩
    constructor
    · intro hs
      by_contra hb
      have h1 := hs j hj ha
      rw [hbyte j hj, if_neg hb, background_byte_shows fmt bg j hj ha] at h1
      exact hne h1.symm
    · intro hb i hi _
      rw [hbyte i hi, if_pos hb]

theorem display_text_identity_reproduces_font_witness :
    ([0x41, 0x42] : List Nat).length ≤ 32 ∧ 1 < ([0x41, 0x42] : List Nat).length ∧
    (0x20 ≤ ([0x41, 0x42] : List Nat).getD 1 0 ∧ ([0x41, 0x42] : List Nat).getD 1 0 ≤ 0x7E) ∧
    font_bit (([0x41, 0x42] : List Nat).getD 1 0) 2 0 ∧
    pixel_is PIXEL_FORMAT_RGB_565
      (display_text PIXEL_FORMAT_RGB_565 [0x41, 0x42] 0 0 0xFFA500 0 (fun _ => 9)
        (get_bpp PIXEL_FORMAT_RGB_565) 1 1).buf
      (2 * (8 * ([0x41, 0x42] : List Nat).length) + (8 * 1 + 0)) 0xFFA500 :=
  ⟨by decide, by decide, by decide, by decide,
    (display_text_identity_reproduces_font PIXEL_FORMAT_RGB_565 [0x41, 0x42] (by decide)
      0 0 0xFFA500 0 (fun _ => 9) 1 2 0 (by decide) (by decide) (by decide)
      (by decide)).2.2.1 (by decide)⟩

/-- C7: at scale 3/2 `display_text` renders each character in a 12x24 cell by
nearest-neighbour sampling.  For every pixel format, every string, every
rendered position `k` (below the length `len` clamped to 32) with a character
`c` in `0x20..0x7E`, every `dy < 24` and `dx < 12`: the output is `12 * len`
wide and 24 high; the pixel
at row `dy`, column `12 * k + dx` holds the foreground bytes when the font bit
of `c` at source row `dy * 16 / 24`, source column `dx * 8 / 12` is set, and
shows the background colour when it is clear; when the two colours differ in a
colour byte, it shows the foreground colour if and only if that bit is set.
For the string "A": every bit `(r, c)` of the 8x16 glyph is sampled by the
output pixel `((3 r + 1) / 2, (3 c + 1) / 2)`, whose bytes are the foreground
bytes when the bit of the 'A' glyph is set and the background-fill bytes when
it is clear, so the output sampled back gives the glyph. -/
theorem display_text_scaled_samples_font (fmt : display_pixel_format) (str : List Nat)
    (x y fg bg : Nat) (buf : Buf) (k dy dx : Nat)
    (hk : k < text_len str) (hch : 0x20 ≤ str.getD k 0 ∧ str.getD k 0 ≤ 0x7E)
    (hdy : dy < 24) (hdx : dx < 12) :
    (display_text fmt str x y fg bg buf (get_bpp fmt) 3 2).desc.width = 12 * text_len str ∧
    (display_text fmt str x y fg bg buf (get_bpp fmt) 3 2).desc.height = 24 ∧
    (font_bit (str.getD k 0) (dy * 16 / 24) (dx * 8 / 12) →
      pixel_is fmt (display_text fmt str x y fg bg buf (get_bpp fmt) 3 2).buf
        (dy * (12 * text_len str) + (12 * k + dx)) fg) ∧
    (¬ font_bit (str.getD k 0) (dy * 16 / 24) (dx * 8 / 12) →
      pixel_shows fmt (display_text fmt str x y fg bg buf (get_bpp fmt) 3 2).buf
        (dy * (12 * text_len str) + (12 * k + dx)) bg ∧
      (¬ (fmt = PIXEL_FORMAT_ARGB_8888 ∧ bg = COLOR_BLACK) →
        pixel_is fmt (display_text fmt str x y fg bg buf (get_bpp fmt) 3 2).buf
          (dy * (12 * text_len str) + (12 * k + dx)) bg)) ∧
    ((∃ j < get_bpp fmt, (fmt = PIXEL_FORMAT_ARGB_8888 → j < 3) ∧ enc fmt fg j ≠ enc fmt bg j) →
      (pixel_shows fmt (display_text fmt str x y fg bg buf (get_bpp fmt) 3 2).buf
          (dy * (12 * text_len str) + (12 * k + dx)) fg ↔
        font_bit (str.getD k 0) (dy * 16 / 24) (dx * 8 / 12))) ∧
    (∀ r < 16, ∀ c < 8,
      (3 * r + 1) / 2 < 24 ∧ (3 * c + 1) / 2 < 12 ∧
      (3 * r + 1) / 2 * 16 / 24 = r ∧ (3 * c + 1) / 2 * 8 / 12 = c ∧
      ∀ j < get_bpp fmt,
        (display_text fmt [0x41] x y fg bg buf (get_bpp fmt) 3 2).buf
            (((3 * r + 1) / 2 * 12 + (3 * c + 1) / 2) * get_bpp fmt + j)
          = if font_bit 0x41 r c then enc fmt fg j else background_byte fmt bg j) := by
  have hbyte : ∀ j < get_bpp fmt,
      (display_text fmt str x y fg bg buf (get_bpp fmt) 3 2).buf
          ((dy * (12 * text_len str) + (12 * k + dx)) * get_bpp fmt + j)
        = if font_bit (str.getD k 0) (dy * 16 / 24) (dx * 8 / 12) then enc fmt fg j
          else background_byte fmt bg j := by
    intro j hj
    have h := display_text_scaled_byte fmt str x y fg bg buf k dy dx j hk hch hdy hdx hj
    rw [show 12 * text_len str = text_len str * 12 by omega, show 12 * k = k * 12 by omega]
    exact h
  refine ⟨?_, ?_, ?_, ?_, ?_, ?_⟩
  · rw [display_text_scaled]
    simp only
    have := (text_len_le str).1
    omega
  · rw [display_text_scaled]
  · intro hb j hj
    rw [hbyte j hj, if_pos hb]
  · intro hb
    refine ⟨?_, ?_⟩
    · intro j hj ha
      rw [hbyte j hj, if_neg hb]
      exact background_byte_shows fmt bg j hj ha
    · intro hna j hj
      rw [hbyte j hj, if_neg hb]
      by_cases hblack : bg = COLOR_BLACK
      · apply background_byte_shows fmt bg j hj
        intro hf
        exact absurd ⟨hf, hblack⟩ hna
      · unfold background_byte
        rw [if_neg hblack]
  · rintro ⟨j, hj, ha, hne⟩
    constructor
    · intro hs
      by_contra hb
      have h1 := hs j hj ha
      rw [hbyte j hj, if_neg hb, background_byte_shows fmt bg j hj ha] at h1
      exact hne h1.symm
    · intro hb i hi _
      rw [hbyte i hi, if_pos hb]
  · intro r hr c hc
    have e1 : (3 * r + 1) / 2 * 16 / 24 = r := by omega
    have e2 : (3 * c + 1) / 2 * 8 / 12 = c := by omega
    refine ⟨by omega, by omega, e1, e2, ?_⟩
    intro j hj
    have h := display_text_scaled_byte fmt [0x41] x y fg bg buf 0 ((3 * r + 1) / 2)
      ((3 * c + 1) / 2) j (by decide) (by decide) (by omega) (by omega) hj
    have hl1 : text_len [0x41] = 1 := by decide
    rw [hl1, e1, e2] at h
    simp only [Nat.one_mul, Nat.zero_mul, Nat.zero_add, List.getD_cons_zero] at h
    exact h

theorem display_text_scaled_samples_font_witness :
    0 < text_len [0x41] ∧
    (0x20 ≤ ([0x41] : List Nat).getD 0 0 ∧ ([0x41] : List Nat).getD 0 0 ≤ 0x7E) ∧
    font_bit (([0x41] : List Nat).getD 0 0) (3 * 16 / 24) (5 * 8 / 12) ∧
    pixel_is PIXEL_FORMAT_RGB_565
      (display_text PIXEL_FORMAT_RGB_565 [0x41] 0 0 0xFFA500 0 (fun _ => 9)
        (get_bpp PIXEL_FORMAT_RGB_565) 3 2).buf
      (3 * (12 * text_len [0x41]) + (12 * 0 + 5)) 0xFFA500 :=
  ⟨by decide, by decide, by decide,
    (display_text_scaled_samples_font PIXEL_FORMAT_RGB_565 [0x41]
      0 0 0xFFA500 0 (fun _ => 9) 0 3 5 (by decide) (by decide) (by decide)
      (by decide)).2.2.1 (by decide)⟩

/-! ## The overlay column for every `int` count -/

/-- The exponent `k` found for `N / D` satisfies `2^k <= N / D`. -/
theorem f32_exponent_lower (N D : Nat) (hN : N ≠ 0) (hD : D ≠ 0) :
    D * 2 ^ (f32_exponent N D).toNat ≤ N * 2 ^ (-(f32_exponent N D)).toNat := by
  unfold f32_exponent
  simp only
  split
  · assumption
  · have hN2 := two_pow_bitlen_le N hN
    have hD2 := lt_two_pow_bitlen D
    by_cases hs : (bitlen D : Int) + 1 ≤ (bitlen N : Int)
    · have e1 : ((bitlen N : Int) - (bitlen D : Int) - 1).toNat = bitlen N - bitlen D - 1 := by
        omega
      have e2 : (-((bitlen N : Int) - (bitlen D : Int) - 1)).toNat = 0 := by omega
      rw [e1, e2, pow_zero, Nat.mul_one]
      have h3 : 2 * (D * 2 ^ (bitlen N - bitlen D - 1)) ≤ 2 * N := by
        calc 2 * (D * 2 ^ (bitlen N - bitlen D - 1))
            ≤ 2 * (2 ^ bitlen D * 2 ^ (bitlen N - bitlen D - 1)) := by
              apply Nat.mul_le_mul_left
              exact Nat.mul_le_mul_right _ (le_of_lt hD2)
          _ = 2 ^ (bitlen D + (bitlen N - bitlen D - 1) + 1) := by
              rw [pow_succ, pow_add]; ring
          _ = 2 ^ bitlen N := by congr 1; omega
          _ ≤ 2 * N := hN2
      omega
    · have e1 : ((bitlen N : Int) - (bitlen D : Int) - 1).toNat = 0 := by omega
      have e2 : (-((bitlen N : Int) - (bitlen D : Int) - 1)).toNat
          = bitlen D + 1 - bitlen N := by omega
      rw [e1, e2, pow_zero, Nat.mul_one]
      have hbN : 1 ≤ bitlen N := by
        by_contra hc
        have h0 : bitlen N = 0 := by omega
        have hlt := lt_two_pow_bitlen N
        rw [h0] at hlt
        omega
      have h3 : 2 * D ≤ 2 * (N * 2 ^ (bitlen D + 1 - bitlen N)) := by
        calc 2 * D ≤ 2 * 2 ^ bitlen D := Nat.mul_le_mul_left _ (le_of_lt hD2)
          _ = 2 ^ (bitlen N + (bitlen D + 1 - bitlen N)) := by
              rw [← pow_succ']; congr 1; omega
          _ = 2 ^ bitlen N * 2 ^ (bitlen D + 1 - bitlen N) := by rw [pow_add]
          _ ≤ 2 * N * 2 ^ (bitlen D + 1 - bitlen N) := Nat.mul_le_mul_right _ hN2
          _ = 2 * (N * 2 ^ (bitlen D + 1 - bitlen N)) := by ring
      omega

/-- The significand `f32_round` chooses is the scaled quotient or its
successor, and the quotient itself when the division is exact. -/
theorem f32_round_form (N D : Nat) (hN : N ≠ 0) (hD : D ≠ 0) (u : Int)
    (hu : max (f32_exponent N D - 23) (-149) = u) :
    ∃ m : Nat,
      f32_round false N D =
        (if 2 ^ 128 ≤ m * 2 ^ u.toNat then F32.inf false else F32.fin false m u) ∧
      N * 2 ^ (-u).toNat / (D * 2 ^ u.toNat) ≤ m ∧
      m ≤ N * 2 ^ (-u).toNat / (D * 2 ^ u.toNat) + 1 ∧
      (N * 2 ^ (-u).toNat % (D * 2 ^ u.toNat) = 0 → m = N * 2 ^ (-u).toNat / (D * 2 ^ u.toNat)) := by
  unfold f32_round
  simp only [hN, hD, if_false, hu]
  refine ⟨_, rfl, ?_, ?_, ?_⟩
  · split <;> omega
  · split <;> omega
  · intro h0
    rw [h0]
    have hden : D * 2 ^ u.toNat ≠ 0 := Nat.mul_ne_zero hD (by positivity)
    have : ¬ (D * 2 ^ u.toNat < 2 * 0 ∨
        (2 * 0 = D * 2 ^ u.toNat ∧ N * 2 ^ (-u).toNat / (D * 2 ^ u.toNat) % 2 = 1)) := by
      omega
    rw [if_neg this]

/-- Rounding a quotient to a multiple of the unit never passes a bound that is
itself a multiple of the unit. -/
theorem round_le_of_le (n d H m : Nat) (h : n ≤ H * d) (hm1 : m ≤ n / d + 1)
    (hm2 : n % d = 0 → m = n / d) : m ≤ H := by
  have hq : n / d ≤ H := Nat.div_le_of_le_mul (by rw [Nat.mul_comm]; exact h)
  rcases Nat.lt_or_ge (n / d) H with hlt | hge
  · omega
  · have hqe : n / d = H := Nat.le_antisymm hq hge
    have hdm := Nat.div_add_mod n d
    rw [hqe] at hdm
    have hr : n % d = 0 := by
      have : d * H = H * d := Nat.mul_comm _ _
      omega
    rw [hm2 hr, hqe]

/-- Rounding keeps a quotient that is at least 1 between a lower bound `2^j`
and an upper bound `K * 2^k` with `K < 2^24`: both bounds are values of the
format.  The result is finite and non-negative; its value is given scaled by
`2^64`. -/
theorem f32_round_between (N D j K k : Nat) (hD : 0 < D) (hlo : 2 ^ j * D ≤ N)
    (hhi : N ≤ K * 2 ^ k * D) (hK : K < 2 ^ 24) (hsz : K * 2 ^ k < 2 ^ 64) :
    ∃ (m : Nat) (e : Int), f32_round false N D = F32.fin false m e ∧ -23 ≤ e ∧
      2 ^ j * 2 ^ 64 ≤ m * 2 ^ (e + 64).toNat ∧
      m * 2 ^ (e + 64).toNat ≤ K * 2 ^ k * 2 ^ 64 := by
  have hj1 : 1 ≤ 2 ^ j := Nat.one_le_two_pow
  have hND : D ≤ N := le_trans (by nlinarith) hlo
  have hN : N ≠ 0 := by omega
  have hD0 : D ≠ 0 := by omega
  have hup := f32_exponent_upper N D hD0
  have hlow := f32_exponent_lower N D hN hD0
  have hE64 : f32_exponent N D ≤ 64 := by
    apply f32_exponent_le
    calc N ≤ K * 2 ^ k * D := hhi
      _ < 2 ^ 64 * D := Nat.mul_lt_mul_of_pos_right hsz hD
  have hE0 : 0 ≤ f32_exponent N D := by
    by_contra hneg
    have e1 : (f32_exponent N D + 1).toNat = 0 := by omega
    rw [e1, pow_zero, Nat.mul_one] at hup
    have : N ≤ N * 2 ^ (-(f32_exponent N D + 1)).toNat :=
      Nat.le_mul_of_pos_right _ (by positivity)
    omega
  obtain ⟨E, hE⟩ : ∃ E : Nat, f32_exponent N D = (E : Int) :=
    ⟨(f32_exponent N D).toNat, by omega⟩
  rw [hE] at hlow hE64
  have e0 : (-(E : Int)).toNat = 0 := by omega
  rw [e0, pow_zero, Nat.mul_one, Int.toNat_ofNat] at hlow
  by_cases hcase : E < 23
  · -- the unit is 2^-s
    obtain ⟨s, hs⟩ : ∃ s : Nat, s = 23 - E := ⟨_, rfl⟩
    have hu : max (f32_exponent N D - 23) (-149) = -(s : Int) := by rw [hE]; omega
    obtain ⟨m, hm, hq1, hq2, hq3⟩ := f32_round_form N D hN hD0 _ hu
    have e1 : (-(s : Int)).toNat = 0 := by omega
    have e2 : (- -(s : Int)).toNat = s := by omega
    rw [e1, e2, pow_zero, Nat.mul_one] at hq1 hq2 hq3
    rw [e1, pow_zero, Nat.mul_one] at hm
    have hmH : m ≤ K * 2 ^ k * 2 ^ s := by
      apply round_le_of_le (N * 2 ^ s) D _ m _ hq2 hq3
      calc N * 2 ^ s ≤ K * 2 ^ k * D * 2 ^ s := Nat.mul_le_mul_right _ hhi
        _ = K * 2 ^ k * 2 ^ s * D := by ring
    have hmL : 2 ^ j * 2 ^ s ≤ m := by
      refine le_trans ?_ hq1
      rw [Nat.le_div_iff_mul_le hD]
      calc 2 ^ j * 2 ^ s * D = 2 ^ j * D * 2 ^ s := by ring
        _ ≤ N * 2 ^ s := Nat.mul_le_mul_right _ hlo
    have hs23 : s ≤ 23 := by omega
    have h2s : 2 ^ s ≤ 2 ^ 23 := Nat.pow_le_pow_right (by norm_num) hs23
    have hfin : ¬ (2 ^ 128 ≤ m) := by
      have : K * 2 ^ k * 2 ^ s < 2 ^ 64 * 2 ^ 23 + 1 := by
        have := Nat.mul_le_mul (le_of_lt hsz) h2s
        omega
      have h128 : (2 : Nat) ^ 64 * 2 ^ 23 + 1 ≤ 2 ^ 128 := by norm_num
      omega
    rw [if_neg hfin] at hm
    refine ⟨m, -(s : Int), hm, by omega, ?_, ?_⟩
    · have e3 : (-(s : Int) + 64).toNat = 64 - s := by omega
      rw [e3]
      calc 2 ^ j * 2 ^ 64 = 2 ^ j * 2 ^ (s + (64 - s)) := by congr 2; omega
        _ = 2 ^ j * 2 ^ s * 2 ^ (64 - s) := by rw [pow_add]; ring
        _ ≤ m * 2 ^ (64 - s) := Nat.mul_le_mul_right _ hmL
    · have e3 : (-(s : Int) + 64).toNat = 64 - s := by omega
      rw [e3]
      calc m * 2 ^ (64 - s) ≤ K * 2 ^ k * 2 ^ s * 2 ^ (64 - s) := Nat.mul_le_mul_right _ hmH
        _ = K * 2 ^ k * 2 ^ (s + (64 - s)) := by rw [pow_add]; ring
        _ = K * 2 ^ k * 2 ^ 64 := by congr 2; omega
  · -- the unit is 2^t
    obtain ⟨t, ht⟩ : ∃ t : Nat, t = E - 23 := ⟨_, rfl⟩
    have hEt : E = t + 23 := by omega
    have hu : max (f32_exponent N D - 23) (-149) = (t : Int) := by rw [hE]; omega
    obtain ⟨m, hm, hq1, hq2, hq3⟩ := f32_round_form N D hN hD0 _ hu
    have e1 : (-(t : Int)).toNat = 0 := by omega
    rw [e1, Int.toNat_ofNat, pow_zero, Nat.mul_one] at hq1 hq2 hq3
    rw [Int.toNat_ofNat] at hm
    have hden : 0 < D * 2 ^ t := Nat.mul_pos hD (by positivity)
    have hq23 : 2 ^ 23 ≤ N / (D * 2 ^ t) := by
      rw [Nat.le_div_iff_mul_le hden]
      calc 2 ^ 23 * (D * 2 ^ t) = D * 2 ^ (t + 23) := by rw [pow_add]; ring
        _ = D * 2 ^ E := by rw [hEt]
        _ ≤ N := hlow
    have htk : t ≤ k := by
      by_contra hc
      have hkt : k + 1 ≤ t := by omega
      have h1 : D * 2 ^ (t + 23) ≤ K * 2 ^ k * D := by
        rw [← hEt]; exact le_trans hlow hhi
      have h2 : 2 ^ (t + 23) ≤ K * 2 ^ k := by
        have : 2 ^ (t + 23) * D ≤ K * 2 ^ k * D := by rw [Nat.mul_comm]; exact h1
        exact Nat.le_of_mul_le_mul_right this hD
      have h3 : 2 ^ (k + 24) ≤ 2 ^ (t + 23) := Nat.pow_le_pow_right (by norm_num) (by omega)
      have h4 : 2 ^ 24 * 2 ^ k ≤ K * 2 ^ k := by
        calc 2 ^ 24 * 2 ^ k = 2 ^ (k + 24) := by rw [pow_add]; ring
          _ ≤ K * 2 ^ k := le_trans h3 h2
      have h5 : 2 ^ 24 ≤ K := Nat.le_of_mul_le_mul_right h4 (by positivity)
      omega
    have hKk : K * 2 ^ k = K * 2 ^ (k - t) * 2 ^ t := by
      rw [Nat.mul_assoc, ← pow_add]; congr 2; omega
    have hmH : m ≤ K * 2 ^ (k - t) := by
      apply round_le_of_le N (D * 2 ^ t) _ m _ hq2 hq3
      calc N ≤ K * 2 ^ k * D := hhi
        _ = K * 2 ^ (k - t) * (D * 2 ^ t) := by rw [hKk]; ring
    have hmV : m * 2 ^ t ≤ K * 2 ^ k := by
      rw [hKk]; exact Nat.mul_le_mul_right _ hmH
    have hmL : 2 ^ j ≤ m * 2 ^ t := by
      by_cases hjt : t ≤ j
      · have hqj : 2 ^ (j - t) ≤ N / (D * 2 ^ t) := by
          rw [Nat.le_div_iff_mul_le hden]
          calc 2 ^ (j - t) * (D * 2 ^ t) = 2 ^ (j - t + t) * D := by rw [pow_add]; ring
            _ = 2 ^ j * D := by congr 2; omega
            _ ≤ N := hlo
        calc 2 ^ j = 2 ^ (j - t + t) := by congr 1; omega
          _ = 2 ^ (j - t) * 2 ^ t := by rw [pow_add]
          _ ≤ m * 2 ^ t := Nat.mul_le_mul_right _ (le_trans hqj hq1)
      · have hm1 : 1 ≤ m := le_trans (le_trans Nat.one_le_two_pow hq23) hq1
        calc 2 ^ j ≤ 2 ^ t := Nat.pow_le_pow_right (by norm_num) (by omega)
          _ = 1 * 2 ^ t := by ring
          _ ≤ m * 2 ^ t := Nat.mul_le_mul_right _ hm1
    have hfin : ¬ (2 ^ 128 ≤ m * 2 ^ t) := by
      have h128 : (2 : Nat) ^ 64 ≤ 2 ^ 128 := by norm_num
      omega
    rw [if_neg hfin] at hm
    refine ⟨m, (t : Int), hm, by omega, ?_, ?_⟩
    · have e3 : ((t : Int) + 64).toNat = t + 64 := by omega
      rw [e3, pow_add, ← Nat.mul_assoc]
      exact Nat.mul_le_mul_right _ hmL
    · have e3 : ((t : Int) + 64).toNat = t + 64 := by omega
      rw [e3, pow_add, ← Nat.mul_assoc]
      exact Nat.mul_le_mul_right _ hmV

/-- The `int` conversion of a rounded non-negative quotient that is at most a
natural number `hi < 2^23` lies between 0 and `hi`. -/
theorem f32_to_int_round_le (N D hi : Nat) (hD : 0 < D) (hhi : N ≤ hi * D)
    (h23 : hi < 2 ^ 23) :
    0 ≤ f32_to_int (f32_round false N D) ∧ f32_to_int (f32_round false N D) ≤ (hi : Int) := by
  have hD0 : D ≠ 0 := by omega
  by_cases hN : N = 0
  · subst hN
    unfold f32_round
    simp [hD0, f32_to_int]
  · have hE : f32_exponent N D ≤ 23 := by
      apply f32_exponent_le
      calc N ≤ hi * D := hhi
        _ < 2 ^ 23 * D := Nat.mul_lt_mul_of_pos_right h23 hD
    obtain ⟨s, hs⟩ : ∃ s : Nat, max (f32_exponent N D - 23) (-149) = -(s : Int) :=
      ⟨(-(max (f32_exponent N D - 23) (-149))).toNat, by omega⟩
    obtain ⟨m, hm, hq1, hq2, hq3⟩ := f32_round_form N D hN hD0 _ hs
    have e1 : (-(s : Int)).toNat = 0 := by omega
    have e2 : (- -(s : Int)).toNat = s := by omega
    rw [e1, e2, pow_zero, Nat.mul_one] at hq1 hq2 hq3
    rw [e1, pow_zero, Nat.mul_one] at hm
    have hmH : m ≤ hi * 2 ^ s := by
      apply round_le_of_le (N * 2 ^ s) D _ m _ hq2 hq3
      calc N * 2 ^ s ≤ hi * D * 2 ^ s := Nat.mul_le_mul_right _ hhi
        _ = hi * 2 ^ s * D := by ring
    have h24 : N * 2 ^ s / D < 2 ^ 24 :=
      Nat.div_lt_of_lt_mul (f32_scaled_lt N D s hD0 hs)
    have hfin : ¬ (2 ^ 128 ≤ m) := by
      have h128 : (2 : Nat) ^ 24 + 1 ≤ 2 ^ 128 := by norm_num
      omega
    rw [if_neg hfin] at hm
    rw [hm]
    unfold f32_to_int
    simp only [e1, e2, pow_zero, Nat.mul_one]
    have ht : m / 2 ^ s ≤ hi := Nat.div_le_of_le_mul (by rw [Nat.mul_comm]; exact hmH)
    have : (false = true) = False := by simp
    simp only [this, if_false]
    generalize m / 2 ^ s = t at ht ⊢
    have h23' : hi < 8388608 := by norm_num at h23; exact h23
    split <;> omega

/-- The `float` value of a positive `int` below `2^31` that lies between `2^j`
and `2^k`: finite, non-negative, with the same bounds. -/
theorem f32_of_int_between (i j k : Nat) (hlo : 2 ^ j ≤ i) (hhi : i ≤ 2 ^ k) (hk : k ≤ 31) :
    ∃ (m : Nat) (e : Int), f32_of_int (i : Int) = F32.fin false m e ∧ -23 ≤ e ∧
      2 ^ j * 2 ^ 64 ≤ m * 2 ^ (e + 64).toNat ∧
      m * 2 ^ (e + 64).toNat ≤ 2 ^ k * 2 ^ 64 := by
  unfold f32_of_int
  have h1 : decide ((i : Int) < 0) = false := by simp
  have h2 : (i : Int).natAbs = i := by simp
  rw [h1, h2]
  have h2k : 2 ^ k ≤ 2 ^ 31 := Nat.pow_le_pow_right (by norm_num) hk
  obtain ⟨m, e, h, he, hl, hu⟩ := f32_round_between i 1 j 1 k (by norm_num) (by omega)
    (by omega) (by norm_num) (by
      have : (2 : Nat) ^ 31 < 2 ^ 64 := by norm_num
      omega)
  exact ⟨m, e, h, he, hl, by omega⟩

/-- Powers of two with truncated differences of the exponents. -/
theorem pow_sub_balance (a b : Nat) : 2 ^ (a - b) * 2 ^ b = 2 ^ a * 2 ^ (b - a) := by
  rw [← pow_add, ← pow_add]
  congr 1
  omega

/-- Every `int` count has a power of two below it. -/
theorem pow_bucket (i : Nat) (hi : 1 ≤ i) : ∃ j : Nat, 2 ^ j ≤ i ∧ i ≤ 2 ^ (j + 1) := by
  refine ⟨bitlen i - 1, ?_, ?_⟩
  · have h := two_pow_bitlen_le i (by omega)
    have hb : 1 ≤ bitlen i := by
      by_contra hc
      have h0 : bitlen i = 0 := by omega
      have hlt := lt_two_pow_bitlen i
      rw [h0] at hlt
      omega
    have : 2 ^ bitlen i = 2 * 2 ^ (bitlen i - 1) := by
      rw [← pow_succ']; congr 1; omega
    omega
  · have hlt := lt_two_pow_bitlen i
    have hle : 2 ^ bitlen i ≤ 2 ^ (bitlen i - 1 + 1) :=
      Nat.pow_le_pow_right (by norm_num) (by omega)
    omega

/-- The quotient `(float)i * 159.0f / (float)d` of the column expression,
converted to `int`, for every `0 <= i <= d < 2^31`, `d >= 1`: between 0 and
318, so that adding `FRAME_X_OFFSET` cannot overflow. -/
theorem overlay_quotient_range (i d : Nat) (hid : i ≤ d) (hd1 : 1 ≤ d) (hd : d < 2 ^ 31) :
    0 ≤ f32_to_int (f32_div (f32_mul (f32_of_int (i : Int)) (f32_of_int ((159 : Nat) : Int)))
      (f32_of_int (d : Int))) ∧
    f32_to_int (f32_div (f32_mul (f32_of_int (i : Int)) (f32_of_int ((159 : Nat) : Int)))
      (f32_of_int (d : Int))) ≤ 318 := by
  have hb : f32_of_int ((159 : Nat) : Int) = F32.fin false (159 * 2 ^ 16) (-16) := by decide
  by_cases hi0 : i = 0
  · subst hi0
    have ha : f32_of_int ((0 : Nat) : Int) = F32.fin false 0 0 := by decide
    have hp : f32_mul (F32.fin false 0 0) (F32.fin false (159 * 2 ^ 16) (-16))
        = F32.fin false 0 0 := by decide
    obtain ⟨mc, ec, hc, _, hcl, _⟩ := f32_of_int_between d 0 31 (by omega) (le_of_lt hd)
      (le_refl _)
    rw [ha, hb, hp, hc]
    have hmc : mc ≠ 0 := by
      intro h0
      rw [h0] at hcl
      norm_num at hcl
    unfold f32_div
    simp only [hmc, if_false, Nat.zero_mul]
    unfold f32_round
    simp [hmc, f32_to_int]
  · obtain ⟨j, hj1, hj2⟩ := pow_bucket i (by omega)
    have hj31 : j + 1 ≤ 31 := by
      by_contra hc
      have : 2 ^ 31 ≤ 2 ^ j := Nat.pow_le_pow_right (by norm_num) (by omega)
      omega
    have h2j : 0 < 2 ^ j := by positivity
    obtain ⟨ma, ea, ha, hea, hal, hau⟩ := f32_of_int_between i j (j + 1) hj1 hj2 hj31
    obtain ⟨mc, ec, hc, hec, hcl, _⟩ := f32_of_int_between d j 31 (by omega) (le_of_lt hd)
      (le_refl _)
    have hmc : mc ≠ 0 := by
      intro h0
      rw [h0, Nat.zero_mul] at hcl
      have : 0 < 2 ^ j * 2 ^ 64 := by positivity
      omega
    obtain ⟨w, hw⟩ : ∃ w : Nat, ea = (w : Int) - 64 := ⟨(ea + 64).toNat, by omega⟩
    have ew : (ea + 64).toNat = w := by omega
    rw [ew] at hal hau
    -- the product
    have hmul : f32_mul (F32.fin false ma ea) (F32.fin false (159 * 2 ^ 16) (-16)) =
        f32_round false (ma * (159 * 2 ^ 16) * 2 ^ (w - 80)) (2 ^ (80 - w)) := by
      unfold f32_mul
      have e1 : (ea + -16).toNat = w - 80 := by omega
      have e2 : (-(ea + -16)).toNat = 80 - w := by omega
      simp only [e1, e2, Bool.xor_false]
    have hbal : ma * (159 * 2 ^ 16) * 2 ^ (w - 80) * 2 ^ 64 = 159 * (ma * 2 ^ w) * 2 ^ (80 - w) := by
      have h80 : (2 : Nat) ^ 16 * 2 ^ 64 = 2 ^ 80 := by norm_num
      have := pow_sub_balance w 80
      calc ma * (159 * 2 ^ 16) * 2 ^ (w - 80) * 2 ^ 64
          = 159 * ma * (2 ^ (w - 80) * (2 ^ 16 * 2 ^ 64)) := by ring
        _ = 159 * ma * (2 ^ (w - 80) * 2 ^ 80) := by rw [h80]
        _ = 159 * ma * (2 ^ w * 2 ^ (80 - w)) := by rw [this]
        _ = 159 * (ma * 2 ^ w) * 2 ^ (80 - w) := by ring
    have hDp : 0 < 2 ^ (80 - w) := by positivity
    have hplo : 2 ^ j * 2 ^ (80 - w) ≤ ma * (159 * 2 ^ 16) * 2 ^ (w - 80) := by
      have h1 : 2 ^ j * 2 ^ (80 - w) * 2 ^ 64
          ≤ ma * (159 * 2 ^ 16) * 2 ^ (w - 80) * 2 ^ 64 := by
        rw [hbal]
        calc 2 ^ j * 2 ^ (80 - w) * 2 ^ 64 = 2 ^ j * 2 ^ 64 * 2 ^ (80 - w) := by ring
          _ ≤ ma * 2 ^ w * 2 ^ (80 - w) := Nat.mul_le_mul_right _ hal
          _ ≤ 159 * (ma * 2 ^ w) * 2 ^ (80 - w) := by
              apply Nat.mul_le_mul_right
              omega
      exact Nat.le_of_mul_le_mul_right h1 (by positivity)
    have hphi : ma * (159 * 2 ^ 16) * 2 ^ (w - 80) ≤ 159 * 2 ^ (j + 1) * 2 ^ (80 - w) := by
      have h1 : ma * (159 * 2 ^ 16) * 2 ^ (w - 80) * 2 ^ 64
          ≤ 159 * 2 ^ (j + 1) * 2 ^ (80 - w) * 2 ^ 64 := by
        rw [hbal]
        calc 159 * (ma * 2 ^ w) * 2 ^ (80 - w)
            ≤ 159 * (2 ^ (j + 1) * 2 ^ 64) * 2 ^ (80 - w) := by
              apply Nat.mul_le_mul_right
              exact Nat.mul_le_mul_left _ hau
          _ = 159 * 2 ^ (j + 1) * 2 ^ (80 - w) * 2 ^ 64 := by ring
      exact Nat.le_of_mul_le_mul_right h1 (by positivity)
    have hsz : 159 * 2 ^ (j + 1) < 2 ^ 64 := by
      have : 2 ^ (j + 1) ≤ 2 ^ 31 := Nat.pow_le_pow_right (by norm_num) hj31
      have h64 : (159 : Nat) * 2 ^ 31 < 2 ^ 64 := by norm_num
      omega
    obtain ⟨mp, ep, hp, hep, _, hpu⟩ := f32_round_between _ _ j 159 (j + 1) hDp hplo hphi
      (by norm_num) hsz
    obtain ⟨wp, hwp⟩ : ∃ wp : Nat, ep = (wp : Int) - 64 := ⟨(ep + 64).toNat, by omega⟩
    obtain ⟨wc, hwc⟩ : ∃ wc : Nat, ec = (wc : Int) - 64 := ⟨(ec + 64).toNat, by omega⟩
    have ewp : (ep + 64).toNat = wp := by omega
    have ewc : (ec + 64).toNat = wc := by omega
    rw [ewp] at hpu
    rw [ewc] at hcl
    rw [ha, hb, hmul, hp, hc]
    have hdiv : f32_div (F32.fin false mp ep) (F32.fin false mc ec) =
        f32_round false (mp * 2 ^ (wp - wc)) (mc * 2 ^ (wc - wp)) := by
      unfold f32_div
      have e1 : (ep - ec).toNat = wp - wc := by omega
      have e2 : (ec - ep).toNat = wc - wp := by omega
      simp only [hmc, if_false, e1, e2, Bool.xor_false]
    rw [hdiv]
    have hDq : 0 < mc * 2 ^ (wc - wp) := Nat.mul_pos (by omega) (by positivity)
    have hq : mp * 2 ^ (wp - wc) ≤ 318 * (mc * 2 ^ (wc - wp)) := by
      have hbal2 : mp * 2 ^ (wp - wc) * (mc * 2 ^ wc) = mp * 2 ^ wp * (mc * 2 ^ (wc - wp)) := by
        have := pow_sub_balance wp wc
        calc mp * 2 ^ (wp - wc) * (mc * 2 ^ wc) = mp * mc * (2 ^ (wp - wc) * 2 ^ wc) := by ring
          _ = mp * mc * (2 ^ wp * 2 ^ (wc - wp)) := by rw [this]
          _ = mp * 2 ^ wp * (mc * 2 ^ (wc - wp)) := by ring
      have h1 : mp * 2 ^ (wp - wc) * (2 ^ j * 2 ^ 64)
          ≤ 318 * (mc * 2 ^ (wc - wp)) * (2 ^ j * 2 ^ 64) := by
        calc mp * 2 ^ (wp - wc) * (2 ^ j * 2 ^ 64)
            ≤ mp * 2 ^ (wp - wc) * (mc * 2 ^ wc) := Nat.mul_le_mul_left _ hcl
          _ = mp * 2 ^ wp * (mc * 2 ^ (wc - wp)) := hbal2
          _ ≤ 159 * 2 ^ (j + 1) * 2 ^ 64 * (mc * 2 ^ (wc - wp)) := Nat.mul_le_mul_right _ hpu
          _ = 318 * (mc * 2 ^ (wc - wp)) * (2 ^ j * 2 ^ 64) := by rw [pow_succ]; ring
      exact Nat.le_of_mul_le_mul_right h1 (by positivity)
    have := f32_to_int_round_le _ _ 318 hDq hq (by norm_num)
    exact ⟨this.1, by simpa using this.2⟩

/-- The overlay column lies in `40 .. 199` for every sample index below every
count that an `int` can hold. -/
theorem overlay_px_range_int (i : Nat) (n : Int) (hi : (i : Int) < n)
    (hn : n ≤ 2147483647) : 40 ≤ overlay_px i n ∧ overlay_px i n ≤ 199 := by
  obtain ⟨d, hd⟩ : ∃ d : Nat, (if n > 1 then n - 1 else 1) = (d : Int) :=
    ⟨(if n > 1 then n - 1 else 1).toNat, by split <;> omega⟩
  have hd1 : 1 ≤ d ∧ i ≤ d ∧ d < 2 ^ 31 := by
    split at hd <;> omega
  have hq := overlay_quotient_range i d hd1.2.1 hd1.1 hd1.2.2
  unfold overlay_px
  simp only [CAMERA_W, FRAME_X_OFFSET, DISPLAY_W]
  rw [hd]
  have e159 : ((160 : Nat) : Int) - 1 = ((159 : Nat) : Int) := by norm_num
  have e40 : (((240 - 160) / 2 : Nat) : Int) = 40 := by norm_num
  rw [e159, e40]
  generalize f32_to_int (f32_div (f32_mul (f32_of_int (i : Int)) (f32_of_int ((159 : Nat) : Int)))
      (f32_of_int (d : Int))) = r at hq ⊢
  rw [wrap32_eq _ (by omega) (by omega)]
  split <;> omega

/-! ## Claims on the overlay mapping and the pixel writer -/

/-- C12: for every sample value `y` (any finite value, an infinity or a NaN)
the row that `draw_sine_overlay` plots lies in `7 .. 126`, and for every sample
index `i` below every count `n` that an `int` holds the column lies in
`40 .. 199`; these are the coordinates one iteration of the sample loop hands
to `set_display_pixel_rgb565` and keeps as `prev_px`, `prev_py`. -/
theorem overlay_point_clamped (y_values : Nat → F32) (n : Int) (hn : n ≤ 2147483647)
    (s : OverlayLoop) (i : Nat) (hi : (i : Int) < n) :
    (∀ y : F32, 7 ≤ overlay_py y ∧ overlay_py y ≤ 126) ∧
    (overlay_step y_values n s i).prev_px = overlay_px i n ∧
    (overlay_step y_values n s i).prev_py = overlay_py (y_values i) ∧
    7 ≤ (overlay_step y_values n s i).prev_py ∧
    (overlay_step y_values n s i).prev_py ≤ 126 ∧
    40 ≤ (overlay_step y_values n s i).prev_px ∧
    (overlay_step y_values n s i).prev_px ≤ 199 :=
  ⟨overlay_py_range, rfl, rfl, (overlay_py_range _).1, (overlay_py_range _).2,
    (overlay_px_range_int i n hi hn).1, (overlay_px_range_int i n hi hn).2⟩

theorem overlay_point_clamped_witness :
    (overlay_step (fun _ => F32.fin false 1000 0) 161 ⟨fun _ => 0, -1, -1⟩ 3).prev_py = 7 ∧
    (overlay_step (fun _ => F32.inf true) 161 ⟨fun _ => 0, -1, -1⟩ 3).prev_py ≤ 126 ∧
    (overlay_step (fun _ => F32.fin false 1000 0) 161 ⟨fun _ => 0, -1, -1⟩ 160).prev_px ≤ 199 :=
  ⟨by decide,
   (overlay_point_clamped (fun _ => F32.inf true) 161 (by decide)
      ⟨fun _ => 0, -1, -1⟩ 3 (by decide)).2.2.2.2.1,
   (overlay_point_clamped (fun _ => F32.fin false 1000 0) 161 (by decide)
      ⟨fun _ => 0, -1, -1⟩ 160 (by decide)).2.2.2.2.2.2⟩

/-- C13: `set_display_pixel_rgb565` discards a write with `dx >= 240` or
`dy >= 135` (the buffer is returned unchanged); for `dx < 240` and `dy < 135`
it stores the high and the low byte of the RGB565 value at the byte indices
`2 * (dy * 240 + dx)` and `2 * (dy * 240 + dx) + 1`, both below `64800`, and
changes no other byte. -/
theorem set_display_pixel_discards_out_of_bounds (dst : Buf) (dx dy color : Nat) :
    ((dx ≥ 240 ∨ dy ≥ 135) → set_display_pixel_rgb565 dst dx dy color = dst) ∧
    (dx < 240 → dy < 135 →
      (∀ j : Nat, j ≠ 2 * (dy * 240 + dx) → j ≠ 2 * (dy * 240 + dx) + 1 →
        set_display_pixel_rgb565 dst dx dy color j = dst j) ∧
      set_display_pixel_rgb565 dst dx dy color (2 * (dy * 240 + dx))
        = (c565 color >>> 8 &&& 0xFF) % 256 ∧
      set_display_pixel_rgb565 dst dx dy color (2 * (dy * 240 + dx) + 1)
        = (c565 color &&& 0xFF) % 256 ∧
      2 * (dy * 240 + dx) < 240 * 135 * 2 ∧
      2 * (dy * 240 + dx) + 1 < 240 * 135 * 2) := by
  constructor
  · intro h
    unfold set_display_pixel_rgb565 DISPLAY_W DISPLAY_H
    rw [if_pos h]
  · intro hx hy
    have hnot : ¬ (dx ≥ 240 ∨ dy ≥ 135) := by omega
    have e1 : (dy * 240 + dx) % 4294967296 = dy * 240 + dx := Nat.mod_eq_of_lt (by omega)
    have e2 : (dy * 240 + dx) * 2 % 4294967296 = 2 * (dy * 240 + dx) := by omega
    unfold set_display_pixel_rgb565 DISPLAY_W DISPLAY_H
    rw [if_neg hnot]
    simp only [e1, e2, store8_apply]
    refine ⟨?_, ?_, ?_, ?_, ?_⟩
    · intro j h1 h2
      rw [if_neg h2, if_neg h1]
    · simp
    · simp
    · omega
    · omega

theorem set_display_pixel_discards_out_of_bounds_witness :
    set_display_pixel_rgb565 (fun _ => 9) 240 0 COLOR_GREEN = (fun _ => 9) ∧
    set_display_pixel_rgb565 (fun _ => 9) 3 65535 COLOR_GREEN = (fun _ => 9) ∧
    set_display_pixel_rgb565 (fun _ => 9) 1 1 COLOR_GREEN 484 = 9 ∧
    2 * (1 * 240 + 1) + 1 < 240 * 135 * 2 :=
  ⟨(set_display_pixel_discards_out_of_bounds (fun _ => 9) 240 0 COLOR_GREEN).1
      (Or.inl (by decide)),
   (set_display_pixel_discards_out_of_bounds (fun _ => 9) 3 65535 COLOR_GREEN).1
      (Or.inr (by decide)),
   ((set_display_pixel_discards_out_of_bounds (fun _ => 9) 1 1 COLOR_GREEN).2
      (by decide) (by decide)).1 484 (by decide) (by decide),
   ((set_display_pixel_discards_out_of_bounds (fun _ => 9) 1 1 COLOR_GREEN).2
      (by decide) (by decide)).2.2.2.2⟩

/-- C16: when `tflm_sine_overlay_is_ready` returns 0, or the count handed out
by `tflm_sine_overlay_get` is `<= 0`, `draw_sine_overlay` returns the
destination buffer with every byte unchanged, and `copy_frame_to_display`
yields the copied camera rows with no overlay pixel. -/
theorem draw_sine_overlay_skips_unpublished (ov : Overlay) (dst : Buf)
    (h : tflm_sine_overlay_is_ready ov = 0 ∨ (tflm_sine_overlay_get ov).2 ≤ 0) :
    draw_sine_overlay ov dst = dst ∧
    (∀ j : Nat, draw_sine_overlay ov dst j = dst j) ∧
    (∀ (bc : Int) (src : Buf),
      (copy_frame_to_display bc ov src dst).2 =
        copy_rows src (if bc = 0 then memset dst 0 0 (DISPLAY_W * DISPLAY_H * 2) else dst)) := by
  have key : ∀ d : Buf, draw_sine_overlay ov d = d := by
    intro d
    unfold draw_sine_overlay
    simp only
    split
    · rfl
    · split
      · rfl
      · rcases h with h | h
        · contradiction
        · rw [if_pos h]
  refine ⟨key dst, fun j => by rw [key dst], ?_⟩
  intro bc src
  unfold copy_frame_to_display
  simp only
  rw [key]

theorem draw_sine_overlay_skips_unpublished_witness :
    draw_sine_overlay ⟨true, fun _ => F32.fin false 1 0, 161, 0⟩ (fun _ => 9) = (fun _ => 9) ∧
    draw_sine_overlay ⟨true, fun _ => F32.fin false 1 0, 0, 1⟩ (fun _ => 9) = (fun _ => 9) :=
  ⟨(draw_sine_overlay_skips_unpublished ⟨true, fun _ => F32.fin false 1 0, 161, 0⟩ (fun _ => 9)
      (Or.inl (by decide))).1,
   (draw_sine_overlay_skips_unpublished ⟨true, fun _ => F32.fin false 1 0, 0, 1⟩ (fun _ => 9)
      (Or.inr (by decide))).1⟩

/-! ## Claim on the pixel encoding -/

theorem and_255 (x : Nat) : x &&& 255 = x % 256 := Nat.and_pow_two_sub_one_eq_mod x 8

theorem and_63 (x : Nat) : x &&& 63 = x % 64 := Nat.and_pow_two_sub_one_eq_mod x 6

theorem and_31 (x : Nat) : x &&& 31 = x % 32 := Nat.and_pow_two_sub_one_eq_mod x 5

/-- The RGB565 packing as arithmetic: the three fields do not overlap. -/
theorem pack565_eq (r5 g6 b5 : Nat) (hg : g6 < 64) (hb : b5 < 32) :
    (r5 <<< 11) ||| (g6 <<< 5) ||| b5 = r5 * 2048 + g6 * 32 + b5 := by
  have h1 : 2 ^ 11 * r5 + 2 ^ 5 * g6 = 2 ^ 11 * r5 ||| 2 ^ 5 * g6 :=
    Nat.mul_add_lt_is_or (by omega) r5
  have h2 : 2 ^ 5 * (64 * r5 + g6) + b5 = 2 ^ 5 * (64 * r5 + g6) ||| b5 :=
    Nat.mul_add_lt_is_or (by omega) (64 * r5 + g6)
  have e1 : r5 <<< 11 = 2 ^ 11 * r5 := by rw [Nat.shiftLeft_eq, Nat.mul_comm]
  have e2 : g6 <<< 5 = 2 ^ 5 * g6 := by rw [Nat.shiftLeft_eq, Nat.mul_comm]
  have e3 : 2 ^ 11 * r5 + 2 ^ 5 * g6 = 2 ^ 5 * (64 * r5 + g6) := by omega
  rw [e1, e2, ← h1, e3, ← h2]
  omega

/-- The channels the code extracts are the bytes of the colour. -/
theorem channels_eq (color : Nat) :
    (color >>> 16) &&& 0xFF = channel_r color ∧ (color >>> 8) &&& 0xFF = channel_g color ∧
    color &&& 0xFF = channel_b color := by
  unfold channel_r channel_g channel_b
  simp only [and_255, Nat.shiftRight_eq_div_pow]
  norm_num

/-- The RGB565 value of the code as arithmetic on the channels. -/
theorem c565_eq (color : Nat) :
    c565 color = channel_r color / 8 * 2048 + channel_g color / 4 * 32 + channel_b color / 8 := by
  have hc := channels_eq color
  have hr : channel_r color < 256 := Nat.mod_lt _ (by norm_num)
  have hg : channel_g color < 256 := Nat.mod_lt _ (by norm_num)
  have hb : channel_b color < 256 := Nat.mod_lt _ (by norm_num)
  unfold c565
  simp only [hc.1, hc.2.1, hc.2.2]
  have e3 : ∀ x : Nat, x >>> 3 = x / 8 := fun x => Nat.shiftRight_eq_div_pow x 3
  have e2 : ∀ x : Nat, x >>> 2 = x / 4 := fun x => Nat.shiftRight_eq_div_pow x 2
  rw [e3, e3, e2]
  exact pack565_eq _ _ _ (by omega) (by omega)

/-- The word `0xFF000000 | color` of a 32-bit colour: alpha byte `0xFF` above
the low 24 bits of the colour. -/
theorem argb_word_eq (color : Nat) (hc : color < 4294967296) :
    (0xFF000000 ||| color) % 4294967296 = 0xFF000000 ||| color ∧
    (0xFF000000 ||| color) / 16777216 = 255 ∧
    (0xFF000000 ||| color) % 16777216 = color % 16777216 := by
  have hlt : 0xFF000000 ||| color < 2 ^ 32 := Nat.or_lt_two_pow (by norm_num) (by omega)
  have e0 : (0xFF000000 : Nat) = 255 <<< 24 := by rw [Nat.shiftLeft_eq]
  have hhi : (0xFF000000 ||| color) >>> 24 = 255 ||| (color >>> 24) := by
    apply Nat.eq_of_testBit_eq
    intro i
    rw [e0]
    simp only [Nat.testBit_shiftRight, Nat.testBit_or, Nat.testBit_shiftLeft]
    have : 24 + i - 24 = i := by omega
    rw [this]
    simp
  have hlo : (0xFF000000 ||| color) % 2 ^ 24 = color % 2 ^ 24 := by
    apply Nat.eq_of_testBit_eq
    intro i
    rw [e0]
    simp only [Nat.testBit_mod_two_pow, Nat.testBit_or, Nat.testBit_shiftLeft]
    by_cases h : i < 24
    · have : ¬ i ≥ 24 := by omega
      simp [h, this]
    · simp [h]
  have hx : color >>> 24 < 256 := by
    rw [Nat.shiftRight_eq_div_pow]
    omega
  have h255 : ∀ x < 256, 255 ||| x = 255 := by
    intro x hx
    interval_cases x <;> rfl
  refine ⟨Nat.mod_eq_of_lt hlt, ?_, hlo⟩
  rw [Nat.shiftRight_eq_div_pow, h255 _ hx] at hhi
  exact hhi

/-- C14: `set_pixel_color` encodes the colour `0x00RRGGBB`, with channels
`R`, `G`, `B`, in the layout of the format.  For `RGB_565` the two bytes are the
high and the low byte of `(R>>3)<<11 | (G>>2)<<5 | (B>>3)`, and the value read
back big-endian yields `R>>3`, `G>>2` and `B>>3`; for `RGB_888` the three bytes
are `R`, `G`, `B`; for `ARGB_8888` the 32-bit word is `0xFF000000 | colour`,
whose top byte is `0xFF` and whose three low bytes are `B`, `G`, `R`. -/
theorem set_pixel_color_encodes (buf : Buf) (o color : Nat) (hc : color < 4294967296) :
    (load16be (set_pixel_color buf o PIXEL_FORMAT_RGB_565 color) o
        = ((channel_r color >>> 3) <<< 11) ||| ((channel_g color >>> 2) <<< 5) |||
            (channel_b color >>> 3) ∧
      set_pixel_color buf o PIXEL_FORMAT_RGB_565 color o
        = load16be (set_pixel_color buf o PIXEL_FORMAT_RGB_565 color) o >>> 8 ∧
      set_pixel_color buf o PIXEL_FORMAT_RGB_565 color (o + 1)
        = load16be (set_pixel_color buf o PIXEL_FORMAT_RGB_565 color) o &&& 0xFF ∧
      load16be (set_pixel_color buf o PIXEL_FORMAT_RGB_565 color) o >>> 11
        = channel_r color >>> 3 ∧
      (load16be (set_pixel_color buf o PIXEL_FORMAT_RGB_565 color) o >>> 5) &&& 0x3F
        = channel_g color >>> 2 ∧
      load16be (set_pixel_color buf o PIXEL_FORMAT_RGB_565 color) o &&& 0x1F
        = channel_b color >>> 3) ∧
    (set_pixel_color buf o PIXEL_FORMAT_RGB_888 color o = channel_r color ∧
      set_pixel_color buf o PIXEL_FORMAT_RGB_888 color (o + 1) = channel_g color ∧
      set_pixel_color buf o PIXEL_FORMAT_RGB_888 color (o + 2) = channel_b color) ∧
    (load32le (set_pixel_color buf o PIXEL_FORMAT_ARGB_8888 color) o = 0xFF000000 ||| color ∧
      set_pixel_color buf o PIXEL_FORMAT_ARGB_8888 color (o + 3) = 0xFF ∧
      set_pixel_color buf o PIXEL_FORMAT_ARGB_8888 color (o + 2) = channel_r color ∧
      set_pixel_color buf o PIXEL_FORMAT_ARGB_8888 color (o + 1) = channel_g color ∧
      set_pixel_color buf o PIXEL_FORMAT_ARGB_8888 color o = channel_b color) := by
  have hch := channels_eq color
  have hr : channel_r color < 256 := Nat.mod_lt _ (by norm_num)
  have hg : channel_g color < 256 := Nat.mod_lt _ (by norm_num)
  have hb : channel_b color < 256 := Nat.mod_lt _ (by norm_num)
  have hpack := pack565_eq (channel_r color / 8) (channel_g color / 4) (channel_b color / 8)
    (by omega) (by omega)
  have e3 : ∀ x : Nat, x >>> 3 = x / 8 := fun x => Nat.shiftRight_eq_div_pow x 3
  have e2 : ∀ x : Nat, x >>> 2 = x / 4 := fun x => Nat.shiftRight_eq_div_pow x 2
  have e5 : ∀ x : Nat, x >>> 5 = x / 32 := fun x => Nat.shiftRight_eq_div_pow x 5
  have e8 : ∀ x : Nat, x >>> 8 = x / 256 := fun x => Nat.shiftRight_eq_div_pow x 8
  have e11 : ∀ x : Nat, x >>> 11 = x / 2048 := fun x => Nat.shiftRight_eq_div_pow x 11
  obtain ⟨w1, w2, w3⟩ := argb_word_eq color hc
  refine ⟨?_, ?_, ?_⟩
  · simp only [load16be, set_pixel_color, store8_apply, hch.1, hch.2.1, hch.2.2]
    simp only [e3, e2, hpack]
    have h1 : channel_r color / 8 < 32 := by omega
    have h2 : channel_g color / 4 < 64 := by omega
    have h3 : channel_b color / 8 < 32 := by omega
    generalize channel_r color / 8 = r5 at h1 ⊢
    generalize channel_g color / 4 = g6 at h2 ⊢
    generalize channel_b color / 8 = b5 at h3 ⊢
    simp only [and_255, and_63, and_31, e5, e8, e11, if_true,
      if_neg (show ¬ (o = o + 1) by omega)]
    refine ⟨?_, ?_, ?_, ?_, ?_, ?_⟩ <;> omega
  · simp only [set_pixel_color, store8_apply, hch.1, hch.2.1, hch.2.2]
    refine ⟨?_, ?_, ?_⟩
    · simp [Nat.mod_eq_of_lt hr]
    · simp [Nat.mod_eq_of_lt hg]
    · simp [Nat.mod_eq_of_lt hb]
  · simp only [load32le, set_pixel_color, store32le, store8_apply, w1]
    unfold channel_r channel_g channel_b
    generalize (0xFF000000 ||| color) = w at *
    have hw : w < 4294967296 := by omega
    simp only [if_pos, if_neg (show ¬ (o + 1 = o) by omega), if_true,
      if_neg (show ¬ (o + 2 = o) by omega), if_neg (show ¬ (o + 3 = o) by omega),
      if_neg (show ¬ (o = o + 1) by omega), if_neg (show ¬ (o = o + 2) by omega),
      if_neg (show ¬ (o = o + 3) by omega), if_neg (show ¬ (o + 1 = o + 2) by omega),
      if_neg (show ¬ (o + 1 = o + 3) by omega), if_neg (show ¬ (o + 2 = o + 3) by omega),
      if_neg (show ¬ (o + 2 = o + 1) by omega), if_neg (show ¬ (o + 3 = o + 1) by omega),
      if_neg (show ¬ (o + 3 = o + 2) by omega)]
    refine ⟨?_, ?_, ?_, ?_, ?_⟩ <;> omega

theorem set_pixel_color_encodes_witness :
    load16be (set_pixel_color (fun _ => 0) 4 PIXEL_FORMAT_RGB_565 0xFFA500) 4 >>> 11
      = channel_r 0xFFA500 >>> 3 ∧
    set_pixel_color (fun _ => 0) 4 PIXEL_FORMAT_RGB_888 0xFFA500 5 = channel_g 0xFFA500 ∧
    load32le (set_pixel_color (fun _ => 0) 4 PIXEL_FORMAT_ARGB_8888 0xFFA500) 4
      = 0xFF000000 ||| 0xFFA500 :=
  ⟨(set_pixel_color_encodes (fun _ => 0) 4 0xFFA500 (by decide)).1.2.2.2.1,
   (set_pixel_color_encodes (fun _ => 0) 4 0xFFA500 (by decide)).2.1.2.1,
   (set_pixel_color_encodes (fun _ => 0) 4 0xFFA500 (by decide)).2.2.1⟩

/-! ## Claims on line drawing -/

/-- The 16.16 fixed-point product on naturals: the result is the truncated
exact quotient or one less, and the truncated exact quotient when the
parameter `i * 65536 / s` is exact. -/
theorem fixed_point_trunc (a s i : Nat) (hs : 0 < s) (ha : a ≤ 65536) :
    a * (i * 65536 / s) / 65536 ≤ a * i / s ∧
    a * i / s ≤ a * (i * 65536 / s) / 65536 + 1 ∧
    (s ∣ i * 65536 → a * (i * 65536 / s) / 65536 = a * i / s) := by
  have ht1 : i * 65536 / s * s ≤ i * 65536 := Nat.div_mul_le_self _ _
  have ht2 : i * 65536 < (i * 65536 / s + 1) * s := by
    have := Nat.lt_succ_self (i * 65536 / s)
    exact (Nat.div_lt_iff_lt_mul hs).mp this
  have ht3 : s ∣ i * 65536 → i * 65536 / s * s = i * 65536 := fun h => Nat.div_mul_cancel h
  generalize i * 65536 / s = t at ht1 ht2 ht3 ⊢
  have hA1 : a * t / 65536 * 65536 ≤ a * t := Nat.div_mul_le_self _ _
  have hA2 : a * t < (a * t / 65536 + 1) * 65536 :=
    (Nat.div_lt_iff_lt_mul (by norm_num)).mp (Nat.lt_succ_self _)
  have hle : a * t / 65536 ≤ a * i / s := by
    rw [Nat.le_div_iff_mul_le hs]
    generalize a * t / 65536 = A at hA1 hA2 ⊢
    have h1 : A * 65536 * s ≤ a * t * s := Nat.mul_le_mul_right s hA1
    have h2 : a * (t * s) ≤ a * (i * 65536) := Nat.mul_le_mul_left a ht1
    have h3 : A * s * 65536 ≤ a * i * 65536 := by nlinarith
    exact Nat.le_of_mul_le_mul_right h3 (by norm_num)
  refine ⟨hle, ?_, ?_⟩
  · have hlt : a * i / s < a * t / 65536 + 2 := by
      rw [Nat.div_lt_iff_lt_mul hs]
      generalize a * t / 65536 = A at hA1 hA2 ⊢
      have h1 : a * (i * 65536) ≤ a * ((t + 1) * s) := Nat.mul_le_mul_left a (le_of_lt ht2)
      have h2 : a * t * s < (A + 1) * 65536 * s := Nat.mul_lt_mul_of_pos_right hA2 hs
      have h3 : a * s ≤ 65536 * s := Nat.mul_le_mul_right s ha
      have h4 : a * i * 65536 < (A + 2) * s * 65536 := by nlinarith
      exact Nat.lt_of_mul_lt_mul_right h4
    omega
  · intro hdvd
    apply Nat.le_antisymm hle
    rw [Nat.le_div_iff_mul_le (by norm_num)]
    have hE : a * i / s * s ≤ a * i := Nat.div_mul_le_self _ _
    generalize a * i / s = E at hE ⊢
    have hts := ht3 hdvd
    have h6 : E * s * 65536 ≤ a * i * 65536 := Nat.mul_le_mul_right _ hE
    have h7 : E * 65536 * s ≤ a * t * s := by
      have : a * t * s = a * (i * 65536) := by rw [Nat.mul_assoc, hts]
      rw [this]
      nlinarith
    exact Nat.le_of_mul_le_mul_right h7 hs

/-- The 16.16 fixed-point product of `draw_line_rgb565` on `int` operands: the
offset has the direction of the delta `d`, and its magnitude is the magnitude
of the exact quotient `d * i / s` truncated toward zero, or one less; it is the
truncated exact quotient when `s` divides `i * 65536`. -/
theorem tdiv_fixed_point (d s : Int) (i : Nat) (hs : 0 < s) (hd : d.natAbs ≤ 65536) :
    (Int.tdiv (d * Int.tdiv ((i : Int) * 65536) s) 65536).natAbs
      ≤ (Int.tdiv (d * (i : Int)) s).natAbs ∧
    (Int.tdiv (d * (i : Int)) s).natAbs
      ≤ (Int.tdiv (d * Int.tdiv ((i : Int) * 65536) s) 65536).natAbs + 1 ∧
    0 ≤ Int.tdiv (d * Int.tdiv ((i : Int) * 65536) s) 65536 * d ∧
    (s ∣ (i : Int) * 65536 →
      Int.tdiv (d * Int.tdiv ((i : Int) * 65536) s) 65536 = Int.tdiv (d * (i : Int)) s) := by
  obtain ⟨sn, rfl⟩ : ∃ sn : Nat, s = sn := ⟨s.toNat, by omega⟩
  have hsn : 0 < sn := by omega
  have ht : Int.tdiv ((i : Int) * 65536) (sn : Int) = ((i * 65536 / sn : Nat) : Int) := by
    rw [Int.ofNat_tdiv]
    push_cast
    rfl
  have hdv : (sn : Int) ∣ (i : Int) * 65536 → sn ∣ i * 65536 := by
    intro h
    have : ((i : Int) * 65536) = ((i * 65536 : Nat) : Int) := by push_cast; rfl
    rw [this] at h
    exact Int.ofNat_dvd.mp h
  rw [ht]
  obtain ⟨a, ha⟩ : ∃ a : Nat, d = a ∨ d = -(a : Int) := ⟨d.natAbs, Int.natAbs_eq d⟩
  have key := fixed_point_trunc a sn i hsn (by rcases ha with h | h <;> rw [h] at hd <;> simpa using hd)
  generalize i * 65536 / sn = t at key ⊢
  have e1 : Int.tdiv ((a : Int) * (t : Int)) 65536 = ((a * t / 65536 : Nat) : Int) := by
    rw [Int.ofNat_tdiv]
    push_cast
    rfl
  have e2 : Int.tdiv ((a : Int) * (i : Int)) (sn : Int) = ((a * i / sn : Nat) : Int) := by
    rw [Int.ofNat_tdiv]
    push_cast
    rfl
  rcases ha with h | h
  · rw [h, e1, e2]
    simp only [Int.natAbs_ofNat]
    refine ⟨key.1, key.2.1, by positivity, fun hd => ?_⟩
    rw [key.2.2 (hdv hd)]
  · rw [h]
    simp only [Int.neg_mul, Int.neg_tdiv, e1, e2, Int.natAbs_neg, Int.natAbs_ofNat]
    refine ⟨key.1, key.2.1, ?_, fun hd => ?_⟩
    · have : (0 : Int) ≤ ((a * t / 65536 : Nat) : Int) * (a : Int) := by positivity
      linarith [this, Int.neg_mul_neg ((a * t / 65536 : Nat) : Int) (a : Int)]
    · rw [key.2.2 (hdv hd)]

/-- C15: for the segment from `(40, 67)` to `(44, 70)`, inside the display,
`steps = 4` and the code plots `(40, 67)`, `(41, 67)`, `(42, 68)`, `(43, 69)`,
`(44, 70)`.  At step 1 the parameter `t = 16384` is exact and the exact point is
`(41, 67.75)`; the pixel nearest to it, the pixel a Bresenham line takes, is
`(41, 68)`; the code plots `(41, 67)`, which is not a nearest pixel: the offset
`3 * 16384 / 65536` is cut to 0.  The buffer holds the colour at `(41, 67)` and
keeps its old bytes at `(41, 68)`.  The sample loop of `draw_sine_overlay`
draws such a segment: for sample 2 of 161 with the previous point `(40, 67)`
and the sample `-5/64` the segment ends at `(41, 71)`; its step 3 has the exact
point `(40.75, 70)` with nearest pixel `(41, 70)`, and the code writes
`(40, 70)` and leaves `(41, 70)` unwritten. -/
theorem line_point_not_nearest :
    InDisplay 40 67 ∧ InDisplay 44 70 ∧ line_steps 40 67 44 70 = 4 ∧
    (List.range 5).map (line_point 40 67 44 70)
      = [(40, 67), (41, 67), (42, 68), (43, 69), (44, 70)] ∧
    line_point 40 67 44 70 1 = (41, 67) ∧
    nearest_pixel 40 67 44 70 1 (41, 68) ∧
    ¬ nearest_pixel 40 67 44 70 1 (line_point 40 67 44 70 1) ∧
    (∀ p ∈ [(2 * (67 * 240 + 41), 0x07), (2 * (67 * 240 + 41) + 1, 0xE0),
        (2 * (68 * 240 + 41), 0), (2 * (68 * 240 + 41) + 1, 0)],
      draw_line_rgb565 (fun _ => 0) 40 67 44 70 COLOR_GREEN p.1 = p.2) ∧
    ¬ (∀ (x0 y0 x1 y1 : Int) (i : Nat), InDisplay x0 y0 → InDisplay x1 y1 →
        1 ≤ line_steps x0 y0 x1 y1 → (i : Int) ≤ line_steps x0 y0 x1 y1 →
        nearest_pixel x0 y0 x1 y1 i (line_point x0 y0 x1 y1 i)) ∧
    (overlay_step (fun _ => F32.fin true 5 (-6)) 161 ⟨fun _ => 0, 40, 67⟩ 2).prev_px = 41 ∧
    (overlay_step (fun _ => F32.fin true 5 (-6)) 161 ⟨fun _ => 0, 40, 67⟩ 2).prev_py = 71 ∧
    line_point 40 67 41 71 3 = (40, 70) ∧
    nearest_pixel 40 67 41 71 3 (41, 70) ∧
    ¬ nearest_pixel 40 67 41 71 3 (line_point 40 67 41 71 3) ∧
    (∀ p ∈ [(2 * (70 * 240 + 40), 0x07), (2 * (70 * 240 + 41), 0)],
      (overlay_step (fun _ => F32.fin true 5 (-6)) 161 ⟨fun _ => 0, 40, 67⟩ 2).dst p.1
        = p.2) := by
  have hfail : ¬ nearest_pixel 40 67 44 70 1 (line_point 40 67 44 70 1) := by decide
  refine ⟨by decide, by decide, by decide, by decide, by decide, by decide, hfail, ?_⟩
  refine ⟨by decide, ?_, by decide, by decide, ?_⟩
  · intro h
    exact hfail (h 40 67 44 70 1 (by decide) (by decide) (by decide) (by decide))
  · exact ⟨by decide, by decide, by decide, by decide⟩

/-- What the interpolation of `draw_line_rgb565` computes, for endpoints inside
the display, `steps >= 1` and every `i` in `0 .. steps`: each offset of the
`i`-th point has the direction of its delta, its magnitude is the magnitude of
the exact offset `dx * i / steps` cut toward zero, or one less, and it is the
exact offset cut toward zero whenever `steps` divides `i * 65536`; the point
at `i = 0` is the start, the point at `i = steps` is the end, and every point
is inside the display. -/
theorem line_point_truncates (x0 y0 x1 y1 : Int) (i : Nat)
    (h0 : InDisplay x0 y0) (h1 : InDisplay x1 y1)
    (hs : 1 ≤ line_steps x0 y0 x1 y1) (hi : (i : Int) ≤ line_steps x0 y0 x1 y1) :
    (((line_point x0 y0 x1 y1 i).1 - x0).natAbs
        ≤ (Int.tdiv ((x1 - x0) * (i : Int)) (line_steps x0 y0 x1 y1)).natAbs ∧
      (Int.tdiv ((x1 - x0) * (i : Int)) (line_steps x0 y0 x1 y1)).natAbs
        ≤ ((line_point x0 y0 x1 y1 i).1 - x0).natAbs + 1 ∧
      0 ≤ ((line_point x0 y0 x1 y1 i).1 - x0) * (x1 - x0)) ∧
    (((line_point x0 y0 x1 y1 i).2 - y0).natAbs
        ≤ (Int.tdiv ((y1 - y0) * (i : Int)) (line_steps x0 y0 x1 y1)).natAbs ∧
      (Int.tdiv ((y1 - y0) * (i : Int)) (line_steps x0 y0 x1 y1)).natAbs
        ≤ ((line_point x0 y0 x1 y1 i).2 - y0).natAbs + 1 ∧
      0 ≤ ((line_point x0 y0 x1 y1 i).2 - y0) * (y1 - y0)) ∧
    (line_steps x0 y0 x1 y1 ∣ (i : Int) * 65536 →
      (line_point x0 y0 x1 y1 i).1
        = x0 + Int.tdiv ((x1 - x0) * (i : Int)) (line_steps x0 y0 x1 y1) ∧
      (line_point x0 y0 x1 y1 i).2
        = y0 + Int.tdiv ((y1 - y0) * (i : Int)) (line_steps x0 y0 x1 y1)) ∧
    line_point x0 y0 x1 y1 0 = (x0, y0) ∧
    line_point x0 y0 x1 y1 (line_steps x0 y0 x1 y1).toNat = (x1, y1) ∧
    InDisplay (line_point x0 y0 x1 y1 i).1 (line_point x0 y0 x1 y1 i).2 := by
  have hbox := line_point_between x0 y0 x1 y1 i hi
  have hdisp : InDisplay (line_point x0 y0 x1 y1 i).1 (line_point x0 y0 x1 y1 i).2 := by
    unfold InDisplay DISPLAY_W DISPLAY_H at h0 h1 ⊢
    omega
  clear hbox
  have hax : (if x1 - x0 < 0 then -(x1 - x0) else x1 - x0) = |x1 - x0| := by
    split
    · rw [abs_of_neg (by assumption)]
    · rw [abs_of_nonneg (by omega)]
  have hay : (if y1 - y0 < 0 then -(y1 - y0) else y1 - y0) = |y1 - y0| := by
    split
    · rw [abs_of_neg (by assumption)]
    · rw [abs_of_nonneg (by omega)]
  have hst : (if |x1 - x0| > |y1 - y0| then |x1 - x0| else |y1 - y0|)
      = line_steps x0 y0 x1 y1 := by
    unfold line_steps
    split
    · rw [max_eq_left (by omega)]
    · rw [max_eq_right (by omega)]
  have hpt : ∀ k : Nat, line_point x0 y0 x1 y1 k =
      (x0 + Int.tdiv ((x1 - x0) * Int.tdiv ((k : Int) * 65536) (line_steps x0 y0 x1 y1)) 65536,
       y0 + Int.tdiv ((y1 - y0) * Int.tdiv ((k : Int) * 65536) (line_steps x0 y0 x1 y1)) 65536) := by
    intro k
    unfold line_point
    simp only
    rw [hax, hay, hst, if_neg (by omega)]
  unfold InDisplay DISPLAY_W DISPLAY_H at h0 h1
  have hdx : (x1 - x0).natAbs ≤ 65536 := by omega
  have hdy : (y1 - y0).natAbs ≤ 65536 := by omega
  have hX := tdiv_fixed_point (x1 - x0) (line_steps x0 y0 x1 y1) i (by omega) hdx
  have hY := tdiv_fixed_point (y1 - y0) (line_steps x0 y0 x1 y1) i (by omega) hdy
  have e0 : ∀ a b : Int, a + b - a = b := by intro a b; omega
  refine ⟨?_, ?_, ?_, ?_, ?_, ?_⟩
  · rw [hpt i]
    simp only [e0]
    exact ⟨hX.1, hX.2.1, hX.2.2.1⟩
  · rw [hpt i]
    simp only [e0]
    exact ⟨hY.1, hY.2.1, hY.2.2.1⟩
  · intro hd
    rw [hpt i]
    simp only
    rw [hX.2.2.2 hd, hY.2.2.2 hd]
    exact ⟨rfl, rfl⟩
  · rw [hpt 0]
    simp
  · rw [hpt]
    have hcast : (((line_steps x0 y0 x1 y1).toNat : Nat) : Int) = line_steps x0 y0 x1 y1 :=
      Int.toNat_of_nonneg (by omega)
    rw [hcast]
    have hq : Int.tdiv (line_steps x0 y0 x1 y1 * 65536) (line_steps x0 y0 x1 y1) = 65536 := by
      rw [Int.mul_comm]
      exact Int.mul_tdiv_cancel _ (by omega)
    rw [hq, Int.mul_tdiv_cancel _ (by norm_num), Int.mul_tdiv_cancel _ (by norm_num)]
    congr 1 <;> omega
  · exact hdisp

/-- C20: the line from `(40, 67)` to `(40, 70)`, inside the display, has
`steps = 3`; the code plots the rows 67, 67, 68, 70.  The first pixel is the
start and the last is the end, but pixel number 1 is still the start (not one
row further), pixels number 2 and 3 are two rows apart, and row 69 between the
endpoints is never written: its two bytes keep their old value while the rows
68 and 70 hold the colour.  A line that visits every row of the major axis
once, as a Bresenham line does, plots the rows 67, 68, 69, 70.  The sample
loop of `draw_sine_overlay` draws this segment for sample 1 of 161 when the
previous point is `(40, 67)` and the sample is `-1/16`, and leaves row 69 of
column 40 unwritten. -/
theorem draw_line_skips_row :
    InDisplay 40 67 ∧ InDisplay 40 70 ∧ line_steps 40 67 40 70 = 3 ∧
    (List.range 4).map (line_point 40 67 40 70) = [(40, 67), (40, 67), (40, 68), (40, 70)] ∧
    (line_point 40 67 40 70 1).2 ≠ 67 + 1 ∧
    (line_point 40 67 40 70 3).2 - (line_point 40 67 40 70 2).2 = 2 ∧
    draw_line_rgb565 (fun _ => 0) 40 67 40 70 COLOR_GREEN (2 * (68 * 240 + 40)) = 0x07 ∧
    draw_line_rgb565 (fun _ => 0) 40 67 40 70 COLOR_GREEN (2 * (68 * 240 + 40) + 1) = 0xE0 ∧
    draw_line_rgb565 (fun _ => 0) 40 67 40 70 COLOR_GREEN (2 * (69 * 240 + 40)) = 0 ∧
    draw_line_rgb565 (fun _ => 0) 40 67 40 70 COLOR_GREEN (2 * (69 * 240 + 40) + 1) = 0 ∧
    draw_line_rgb565 (fun _ => 0) 40 67 40 70 COLOR_GREEN (2 * (70 * 240 + 40)) = 0x07 ∧
    (overlay_step (fun _ => F32.fin true 1 (-4)) 161 ⟨fun _ => 0, 40, 67⟩ 1).prev_px = 40 ∧
    (overlay_step (fun _ => F32.fin true 1 (-4)) 161 ⟨fun _ => 0, 40, 67⟩ 1).prev_py = 70 ∧
    (overlay_step (fun _ => F32.fin true 1 (-4)) 161 ⟨fun _ => 0, 40, 67⟩ 1).dst
      (2 * (68 * 240 + 40)) = 0x07 ∧
    (overlay_step (fun _ => F32.fin true 1 (-4)) 161 ⟨fun _ => 0, 40, 67⟩ 1).dst
      (2 * (69 * 240 + 40)) = 0 ∧
    (overlay_step (fun _ => F32.fin true 1 (-4)) 161 ⟨fun _ => 0, 40, 67⟩ 1).dst
      (2 * (70 * 240 + 40)) = 0x07 := by
  have hpoints : (List.range 4).map (line_point 40 67 40 70)
      = [(40, 67), (40, 67), (40, 68), (40, 70)] := by decide
  refine ⟨by decide, by decide, by decide, hpoints, ?_⟩
  refine ⟨by decide, by decide, ?_⟩
  have hline : ∀ p ∈ [(2 * (68 * 240 + 40), 0x07), (2 * (68 * 240 + 40) + 1, 0xE0),
      (2 * (69 * 240 + 40), 0), (2 * (69 * 240 + 40) + 1, 0), (2 * (70 * 240 + 40), 0x07)],
      draw_line_rgb565 (fun _ => 0) 40 67 40 70 COLOR_GREEN p.1 = p.2 := by decide
  refine ⟨hline (_, _) (by simp), hline (_, _) (by simp), hline (_, _) (by simp),
    hline (_, _) (by simp), hline (_, _) (by simp), ?_⟩
  refine ⟨by decide, by decide, ?_⟩
  exact ⟨by decide, by decide, by decide⟩

/-! ## Claims on the text background, unsupported characters and the text buffer -/

/-- The clamped scale takes six values; the glyph cell is between 4x8 and
24x48, and 8x16 on the direct path. -/
theorem clamped_glyph_bounds (scale_num scale_den : Int) :
    4 ≤ glyph_w (clamp_scale_num scale_num) (clamp_scale_den scale_den) ∧
    glyph_w (clamp_scale_num scale_num) (clamp_scale_den scale_den) ≤ 24 ∧
    8 ≤ glyph_h (clamp_scale_num scale_num) (clamp_scale_den scale_den) ∧
    glyph_h (clamp_scale_num scale_num) (clamp_scale_den scale_den) ≤ 48 ∧
    ((clamp_scale_num scale_num = 1 ∧ clamp_scale_den scale_den = 1) →
      glyph_w (clamp_scale_num scale_num) (clamp_scale_den scale_den) = 8 ∧
      glyph_h (clamp_scale_num scale_num) (clamp_scale_den scale_den) = 16) := by
  have hn : clamp_scale_num scale_num = 1 ∨ clamp_scale_num scale_num = 2 ∨
      clamp_scale_num scale_num = 3 := by
    unfold clamp_scale_num FONT_SCALE_LARGE_NUM
    simp only
    split <;> split <;> omega
  have hd : clamp_scale_den scale_den = 1 ∨ clamp_scale_den scale_den = 2 := by
    unfold clamp_scale_den FONT_SCALE_LARGE_DEN
    simp only
    split <;> split <;> omega
  rcases hn with h | h | h <;> rcases hd with h' | h' <;> rw [h, h'] <;> decide

/-- The body of the character loop, at any cell size, is a painter; the pixels
it paints lie in the cell of its character, and there are none when the
character has no glyph. -/
theorem paints_char_any (fmt : display_pixel_format) (fg : Nat) (str : List Nat)
    (len c gw gh : Nat) (direct : Prop) [Decidable direct]
    (hdir : direct → gw = 8 ∧ gh = 16) (hlen : len ≤ 32) (hc : c < len)
    (hgw : gw ≤ 24) (hgh : gh ≤ 48) :
    Paints fmt fg
      (fun b =>
        match glyph_for_char (str.getD c 0) with
        | none => b
        | some glyph =>
            if direct then draw_glyph_direct b fmt (get_bpp fmt) (len * gw) c glyph fg
            else draw_glyph_scaled b fmt (get_bpp fmt) (len * gw) c gw gh glyph fg)
      (fun P => ∃ g, glyph_for_char (str.getD c 0) = some g ∧
        ∃ r < gh, ∃ d < gw,
          (if direct then g.getD r 0 &&& (0x80 >>> d) ≠ 0
           else g.getD (r * FONT_H / gh) 0 &&& (0x80 >>> (d * FONT_W / gw)) ≠ 0) ∧
          P = r * (len * gw) + (c * gw + d)) := by
  have hb : ∀ dy < gh, ∀ dx < gw, dy * (len * gw) + (c * gw + dx) < 2 ^ 30 := by
    intro dy hdy dx hdx
    have h1 : dy * (len * gw) ≤ 48 * (32 * 24) :=
      Nat.mul_le_mul (by omega) (Nat.mul_le_mul hlen hgw)
    have h2 : c * gw ≤ 32 * 24 := Nat.mul_le_mul (by omega) hgw
    norm_num
    omega
  cases hg : glyph_for_char (str.getD c 0) with
  | none =>
    refine paints_congr fmt fg _ _ _ (paints_none fmt fg) ?_
    intro P
    simp
  | some g =>
    by_cases hd : direct
    · obtain ⟨e1, e2⟩ := hdir hd
      subst e1 e2
      simp only [if_pos hd]
      have hb' : ∀ row < FONT_H, ∀ col < FONT_W, row * (len * 8) + c * FONT_W + col < 2 ^ 30 := by
        intro row hrow col hcol
        have := hb row hrow col hcol
        unfold FONT_W
        omega
      refine paints_congr fmt fg _ _ _ (paints_glyph_direct fmt fg (len * 8) c g hb') ?_
      intro P
      unfold FONT_H FONT_W
      constructor
      · rintro ⟨r, hr, d, hd, hB, hP⟩
        exact ⟨g, rfl, r, hr, d, hd, hB, by omega⟩
      · rintro ⟨g', hg', r, hr, d, hd, hB, hP⟩
        injection hg' with hg'
        subst hg'
        exact ⟨r, hr, d, hd, hB, by omega⟩
    · simp only [if_neg hd]
      refine paints_congr fmt fg _ _ _ (paints_glyph_scaled fmt fg (len * gw) c gw gh g hb) ?_
      intro P
      constructor
      · rintro ⟨r, hr, d, hd, hB, hP⟩
        exact ⟨g, rfl, r, hr, d, hd, hB, hP⟩
      · rintro ⟨g', hg', r, hr, d, hd, hB, hP⟩
        injection hg' with hg'
        subst hg'
        exact ⟨r, hr, d, hd, hB, hP⟩

/-- `display_text` at any scale, unfolded: the 16-bit and 32-bit reductions of
the text width and the pixel count do not apply. -/
theorem display_text_any (fmt : display_pixel_format) (str : List Nat)
    (x y fg bg : Nat) (buf : Buf) (bpp : Nat) (scale_num scale_den : Int) :
    display_text fmt str x y fg bg buf bpp scale_num scale_den =
      { x := x, y := y,
        desc := { buf_size := text_len str *
                      glyph_w (clamp_scale_num scale_num) (clamp_scale_den scale_den) *
                      glyph_h (clamp_scale_num scale_num) (clamp_scale_den scale_den) * bpp
                      % 4294967296,
                  width := text_len str *
                      glyph_w (clamp_scale_num scale_num) (clamp_scale_den scale_den),
                  height := glyph_h (clamp_scale_num scale_num) (clamp_scale_den scale_den),
                  pitch := text_len str *
                      glyph_w (clamp_scale_num scale_num) (clamp_scale_den scale_den) },
        buf := (List.range (text_len str)).foldl
          (fun b c =>
            match glyph_for_char (str.getD c 0) with
            | none => b
            | some glyph =>
                if clamp_scale_num scale_num = 1 ∧ clamp_scale_den scale_den = 1 then
                  draw_glyph_direct b fmt bpp
                    (text_len str *
                      glyph_w (clamp_scale_num scale_num) (clamp_scale_den scale_den)) c glyph fg
                else
                  draw_glyph_scaled b fmt bpp
                    (text_len str *
                      glyph_w (clamp_scale_num scale_num) (clamp_scale_den scale_den)) c
                    (glyph_w (clamp_scale_num scale_num) (clamp_scale_den scale_den))
                    (glyph_h (clamp_scale_num scale_num) (clamp_scale_den scale_den)) glyph fg)
          (fill_background buf fmt bpp
            (text_len str * glyph_w (clamp_scale_num scale_num) (clamp_scale_den scale_den) *
              glyph_h (clamp_scale_num scale_num) (clamp_scale_den scale_den)) bg) } := by
  obtain ⟨hl32, _⟩ := text_len_le str
  obtain ⟨_, hw24, _, hh48, _⟩ := clamped_glyph_bounds scale_num scale_den
  unfold display_text
  simp only
  generalize glyph_w (clamp_scale_num scale_num) (clamp_scale_den scale_den) = gw at hw24 ⊢
  generalize glyph_h (clamp_scale_num scale_num) (clamp_scale_den scale_den) = gh at hh48 ⊢
  have h1 : text_len str * gw ≤ 32 * 24 := Nat.mul_le_mul hl32 hw24
  have h2 : text_len str * gw * gh ≤ 32 * 24 * 48 := Nat.mul_le_mul h1 hh48
  have hw : text_len str * gw % 65536 = text_len str * gw := Nat.mod_eq_of_lt (by omega)
  have ht : text_len str * gw * gh % 4294967296 = text_len str * gw * gh :=
    Nat.mod_eq_of_lt (by omega)
  rw [hw, ht]

/-- A pixel of a character cell lies inside the text area. -/
theorem cell_pixel_lt (len gw gh r c d : Nat) (hr : r < gh) (hc : c < len) (hd : d < gw) :
    r * (len * gw) + (c * gw + d) < len * gw * gh := by
  have h1 : (c + 1) * gw ≤ len * gw := Nat.mul_le_mul_right _ hc
  have h2 : (r + 1) * (len * gw) ≤ gh * (len * gw) := Nat.mul_le_mul_right _ hr
  rw [Nat.add_mul] at h1 h2
  rw [Nat.mul_comm (len * gw) gh]
  omega

/-- The background fill writes no byte at or above `total_px * bpp`. -/
theorem fill_background_outside (fmt : display_pixel_format) (buf : Buf)
    (total_px bg j : Nat) (ht : total_px < 2 ^ 30) (hj : total_px * get_bpp fmt ≤ j) :
    fill_background buf fmt (get_bpp fmt) total_px bg j = buf j := by
  have h4 := get_bpp_le fmt
  have h0 := get_bpp_pos fmt
  unfold fill_background
  by_cases hbg : bg = COLOR_BLACK
  · simp only [hbg, if_true]
    unfold memset
    have hmod : total_px * get_bpp fmt % 4294967296 = total_px * get_bpp fmt := by
      apply Nat.mod_eq_of_lt
      have := Nat.mul_le_mul_left total_px h4
      norm_num at ht
      omega
    rw [hmod, if_neg (by omega)]
  · simp only [hbg, if_false]
    have hp := paints_range fmt bg total_px
      (fun b px => set_pixel_color b (px * get_bpp fmt % 4294967296) fmt bg)
      (fun px P => P = px)
      (fun c hc => paints_pixel fmt bg c (by omega))
    have hP : total_px ≤ j / get_bpp fmt := (Nat.le_div_iff_mul_le h0).mpr hj
    have hk : j % get_bpp fmt < get_bpp fmt := Nat.mod_lt _ h0
    have hsplit : j / get_bpp fmt * get_bpp fmt + j % get_bpp fmt = j := Nat.div_add_mod' _ _
    have := (hp buf (j / get_bpp fmt) (j % get_bpp fmt) hk).2
      (by rintro ⟨c, hc, e⟩; omega)
    beta_reduce at this
    rw [hsplit] at this
    exact this

/-- The buffer that `display_text` hands to `display_write` agrees with the
working buffer it was given at every byte index at or above
`len * glyph_w * glyph_h * bpp`. -/
theorem display_text_outside (fmt : display_pixel_format) (str : List Nat)
    (x y fg bg : Nat) (buf : Buf) (scale_num scale_den : Int) (j : Nat)
    (hj : text_len str * glyph_w (clamp_scale_num scale_num) (clamp_scale_den scale_den) *
      glyph_h (clamp_scale_num scale_num) (clamp_scale_den scale_den) * get_bpp fmt ≤ j) :
    (display_text fmt str x y fg bg buf (get_bpp fmt) scale_num scale_den).buf j = buf j := by
  obtain ⟨hl32, _⟩ := text_len_le str
  obtain ⟨_, hw24, _, hh48, hdir⟩ := clamped_glyph_bounds scale_num scale_den
  have h0 := get_bpp_pos fmt
  rw [display_text_any]
  simp only
  generalize glyph_w (clamp_scale_num scale_num) (clamp_scale_den scale_den) = gw at *
  generalize glyph_h (clamp_scale_num scale_num) (clamp_scale_den scale_den) = gh at *
  have h1 : text_len str * gw ≤ 32 * 24 := Nat.mul_le_mul hl32 hw24
  have h2 : text_len str * gw * gh ≤ 32 * 24 * 48 := Nat.mul_le_mul h1 hh48
  have hp := paints_range fmt fg (text_len str) _ _
    (fun c hc => paints_char_any fmt fg str (text_len str) c gw gh
      (clamp_scale_num scale_num = 1 ∧ clamp_scale_den scale_den = 1) hdir hl32 hc hw24 hh48)
  have hP : text_len str * gw * gh ≤ j / get_bpp fmt := (Nat.le_div_iff_mul_le h0).mpr hj
  have hk : j % get_bpp fmt < get_bpp fmt := Nat.mod_lt _ h0
  have hsplit : j / get_bpp fmt * get_bpp fmt + j % get_bpp fmt = j := Nat.div_add_mod' _ _
  have hnot : ¬ ∃ c < text_len str, ∃ g, glyph_for_char (str.getD c 0) = some g ∧
      ∃ r < gh, ∃ d < gw,
        (if clamp_scale_num scale_num = 1 ∧ clamp_scale_den scale_den = 1 then
            g.getD r 0 &&& (0x80 >>> d) ≠ 0
          else g.getD (r * FONT_H / gh) 0 &&& (0x80 >>> (d * FONT_W / gw)) ≠ 0) ∧
        j / get_bpp fmt = r * (text_len str * gw) + (c * gw + d) := by
    rintro ⟨c, hc, g, _, r, hr, d, hd, _, e⟩
    have := cell_pixel_lt (text_len str) gw gh r c d hr hc hd
    omega
  have := (hp (fill_background buf fmt (get_bpp fmt) (text_len str * gw * gh) bg)
    (j / get_bpp fmt) (j % get_bpp fmt) hk).2 hnot
  beta_reduce at this
  rw [hsplit] at this
  rw [this]
  exact fill_background_outside fmt buf _ bg j (by norm_num; omega) hj

/-- Every byte of the cell of a character without a glyph, at any scale, is as
the background fill left it. -/
theorem display_text_no_glyph_byte (fmt : display_pixel_format) (str : List Nat)
    (x y fg bg : Nat) (buf : Buf) (scale_num scale_den : Int) (k0 r0 d0 j : Nat)
    (hk : k0 < text_len str) (hch : glyph_for_char (str.getD k0 0) = none)
    (hr : r0 < glyph_h (clamp_scale_num scale_num) (clamp_scale_den scale_den))
    (hd : d0 < glyph_w (clamp_scale_num scale_num) (clamp_scale_den scale_den))
    (hj : j < get_bpp fmt) :
    (display_text fmt str x y fg bg buf (get_bpp fmt) scale_num scale_den).buf
        ((r0 * (text_len str *
            glyph_w (clamp_scale_num scale_num) (clamp_scale_den scale_den)) +
          (k0 * glyph_w (clamp_scale_num scale_num) (clamp_scale_den scale_den) + d0)) *
          get_bpp fmt + j)
      = background_byte fmt bg j := by
  obtain ⟨hl32, _⟩ := text_len_le str
  obtain ⟨_, hw24, _, hh48, hdir⟩ := clamped_glyph_bounds scale_num scale_den
  rw [display_text_any]
  simp only
  generalize glyph_w (clamp_scale_num scale_num) (clamp_scale_den scale_den) = gw at *
  generalize glyph_h (clamp_scale_num scale_num) (clamp_scale_den scale_den) = gh at *
  have h1 : text_len str * gw ≤ 32 * 24 := Nat.mul_le_mul hl32 hw24
  have h2 : text_len str * gw * gh ≤ 32 * 24 * 48 := Nat.mul_le_mul h1 hh48
  have hP := cell_pixel_lt (text_len str) gw gh r0 k0 d0 hr hk hd
  obtain ⟨_, p2⟩ := text_pixel fmt fg bg buf (text_len str) (text_len str * gw * gh) _ _
    (fun c hc => paints_char_any fmt fg str (text_len str) c gw gh
      (clamp_scale_num scale_num = 1 ∧ clamp_scale_den scale_den = 1) hdir hl32 hc hw24 hh48)
    (by norm_num; omega) _ hP j hj
  apply p2
  rintro ⟨c, hc, g, hg, r, _, d, hdd, _, e⟩
  obtain ⟨_, e2, _⟩ := cell_unique gw (text_len str) r0 r k0 c d0 d hk hc hd hdd e
  subst e2
  rw [hch] at hg
  exact absurd hg (by simp)

/-- C17: with the pixel format `ARGB_8888` and the background `COLOR_BLACK`,
`display_text` of the one-character string `" "` at scale 1/1 leaves the byte
at index 3, the alpha byte of pixel 0, at `0x00`: the background is filled by
`memset`.  No glyph bit covers the pixel (the glyph of the space is empty),
`set_pixel_color` writes `0xFF` at that byte for the same colour, and so does
the fill loop of `display_text` for the background `0x000001`.  The byte the
background fill leaves equals the byte `set_pixel_color` writes in every case
but this one: format `ARGB_8888`, background black, byte 3. -/
theorem display_text_black_fill_alpha (fg : Nat) (buf : Buf) :
    (∀ row col : Nat, row < 16 → col < 8 → ¬ font_bit 0x20 row col) ∧
    (display_text PIXEL_FORMAT_ARGB_8888 [0x20] 0 0 fg COLOR_BLACK buf
      (get_bpp PIXEL_FORMAT_ARGB_8888) 1 1).buf 3 = 0x00 ∧
    set_pixel_color buf 0 PIXEL_FORMAT_ARGB_8888 COLOR_BLACK 3 = 0xFF ∧
    (display_text PIXEL_FORMAT_ARGB_8888 [0x20] 0 0 fg 0x000001 buf
      (get_bpp PIXEL_FORMAT_ARGB_8888) 1 1).buf 3 = 0xFF ∧
    (∀ (fmt : display_pixel_format) (bg k : Nat), k < get_bpp fmt →
      (background_byte fmt bg k = enc fmt bg k ↔
        ¬ (fmt = PIXEL_FORMAT_ARGB_8888 ∧ bg = COLOR_BLACK ∧ k = 3))) := by
  have hidx : (0 * (text_len [0x20] * 8) + (0 * 8 + 0)) * get_bpp PIXEL_FORMAT_ARGB_8888 + 3
      = 3 := by decide
  have hbit : ∀ row col : Nat, row < 16 → col < 8 → ¬ font_bit 0x20 row col := by
    have h : ∀ row < 16, ∀ col < 8, ¬ font_bit 0x20 row col := by decide
    exact fun row col hr hc => h row hr col hc
  have hb := display_text_direct_byte PIXEL_FORMAT_ARGB_8888 [0x20] 0 0 fg COLOR_BLACK buf
    0 0 0 3 (by decide) (by decide) (by decide) (by decide) (by decide)
  have hc := display_text_direct_byte PIXEL_FORMAT_ARGB_8888 [0x20] 0 0 fg 0x000001 buf
    0 0 0 3 (by decide) (by decide) (by decide) (by decide) (by decide)
  rw [hidx, if_neg (by decide)] at hb hc
  refine ⟨hbit, ?_, ?_, ?_, ?_⟩
  · rw [hb]
    decide
  · rw [set_pixel_color_apply, if_pos (by decide)]
    decide
  · rw [hc]
    decide
  · intro fmt bg k hk
    constructor
    · rintro h ⟨e1, e2, e3⟩
      subst e1 e2 e3
      exact absurd h (by decide)
    · intro h
      by_cases hbg : bg = COLOR_BLACK
      · apply background_byte_shows fmt bg k hk
        intro hf
        have h4 : k < 4 := by rw [hf] at hk; exact hk
        have : k ≠ 3 := fun e => h ⟨hf, hbg, e⟩
        omega
      · unfold background_byte
        rw [if_neg hbg]

/-- C18: `glyph_for_char` returns a glyph exactly for the characters
`0x20 .. 0x7E`, namely entry `ch - 0x20` of the 95 entries of `font_ascii`, and
nothing for every other character.  For every string, every position `k`
below the clamped length whose character is outside that range, every pixel
format and every `scale_num`, `scale_den`: every byte of every pixel of the
cell of character `k` (rows below `glyph_h`, columns `k * glyph_w ..
k * glyph_w + glyph_w - 1`) is the byte the background fill wrote, so the
pixel shows the background colour. -/
theorem unsupported_char_leaves_background (fmt : display_pixel_format) (str : List Nat)
    (x y fg bg : Nat) (buf : Buf) (scale_num scale_den : Int) (k r d : Nat)
    (hk : k < text_len str)
    (hch : ¬ (0x20 ≤ str.getD k 0 ∧ str.getD k 0 ≤ 0x7E))
    (hr : r < glyph_h (clamp_scale_num scale_num) (clamp_scale_den scale_den))
    (hd : d < glyph_w (clamp_scale_num scale_num) (clamp_scale_den scale_den)) :
    (∀ ch : Nat, (∃ g, glyph_for_char ch = some g) ↔ (0x20 ≤ ch ∧ ch ≤ 0x7E)) ∧
    (∀ ch : Nat, ¬ (0x20 ≤ ch ∧ ch ≤ 0x7E) → glyph_for_char ch = none) ∧
    font_ascii.length = 95 ∧
    (∀ ch : Nat, 0x20 ≤ ch → ch ≤ 0x7E →
      ch - 0x20 < 95 ∧ glyph_for_char ch = font_ascii[ch - 0x20]?) ∧
    (∀ j < get_bpp fmt,
      (display_text fmt str x y fg bg buf (get_bpp fmt) scale_num scale_den).buf
          ((r * (text_len str *
              glyph_w (clamp_scale_num scale_num) (clamp_scale_den scale_den)) +
            (k * glyph_w (clamp_scale_num scale_num) (clamp_scale_den scale_den) + d)) *
            get_bpp fmt + j)
        = background_byte fmt bg j) ∧
    pixel_shows fmt
      (display_text fmt str x y fg bg buf (get_bpp fmt) scale_num scale_den).buf
      (r * (text_len str * glyph_w (clamp_scale_num scale_num) (clamp_scale_den scale_den)) +
        (k * glyph_w (clamp_scale_num scale_num) (clamp_scale_den scale_den) + d)) bg := by
  have hnone : ∀ ch : Nat, ¬ (0x20 ≤ ch ∧ ch ≤ 0x7E) → glyph_for_char ch = none := by
    intro ch h
    unfold glyph_for_char FONT_FIRST_CHAR FONT_LAST_CHAR
    rw [if_neg h]
  have hbyte := fun j hj => display_text_no_glyph_byte fmt str x y fg bg buf scale_num scale_den
    k r d j hk (hnone _ hch) hr hd hj
  refine ⟨?_, hnone, by decide, ?_, hbyte, ?_⟩
  · intro ch
    constructor
    · rintro ⟨g, hg⟩
      by_contra h
      rw [hnone ch h] at hg
      exact absurd hg (by simp)
    · intro h
      exact ⟨_, glyph_for_char_printable ch h.1 h.2⟩
  · intro ch h0 h1
    have hidx : ch - 0x20 < 95 := by omega
    refine ⟨hidx, ?_⟩
    rw [glyph_for_char_printable ch h0 h1]
    have hall : ∀ i < 95, some (font_ascii.getD i []) = font_ascii[i]? := by decide
    exact hall _ hidx
  · intro j hj ha
    rw [hbyte j hj]
    exact background_byte_shows fmt bg j hj ha

theorem unsupported_char_leaves_background_witness :
    1 < text_len [0x41, 0x07] ∧
    ¬ (0x20 ≤ ([0x41, 0x07] : List Nat).getD 1 0 ∧ ([0x41, 0x07] : List Nat).getD 1 0 ≤ 0x7E) ∧
    glyph_for_char 0x07 = none ∧
    pixel_shows PIXEL_FORMAT_RGB_565
      (display_text PIXEL_FORMAT_RGB_565 [0x41, 0x07] 0 0 0xFFA500 0x0000FF (fun _ => 9)
        (get_bpp PIXEL_FORMAT_RGB_565) 3 1).buf
      (47 * (text_len [0x41, 0x07] * glyph_w (clamp_scale_num 3) (clamp_scale_den 1)) +
        (1 * glyph_w (clamp_scale_num 3) (clamp_scale_den 1) + 23)) 0x0000FF :=
  ⟨by decide, by decide, by decide,
    (unsupported_char_leaves_background PIXEL_FORMAT_RGB_565 [0x41, 0x07] 0 0 0xFFA500 0x0000FF
      (fun _ => 9) 3 1 1 47 23 (by decide) (by decide) (by decide) (by decide)).2.2.2.2.2⟩

/-- C19: `display_text` renders `min (strlen str) 32` characters and writes
only below the bound of its working buffer.  For every string, every
`scale_num` and `scale_den` and every pixel format with `bpp = get_bpp fmt`:
every byte with an index at or above `len * glyph_w * glyph_h * bpp` keeps the
value it had in `text_buf`; the descriptor handed to `display_write` has width
and pitch `len * glyph_w`, height `glyph_h` and `buf_size` equal to that
bound, which is at most `32 * 24 * 48 * 4`. -/
theorem display_text_writes_within_bound (fmt : display_pixel_format) (str : List Nat)
    (x y fg bg : Nat) (text_buf : Buf) (scale_num scale_den : Int) :
    text_len str = min str.length 32 ∧
    (∀ j : Nat,
      text_len str * glyph_w (clamp_scale_num scale_num) (clamp_scale_den scale_den) *
          glyph_h (clamp_scale_num scale_num) (clamp_scale_den scale_den) * get_bpp fmt ≤ j →
      (display_text fmt str x y fg bg text_buf (get_bpp fmt) scale_num scale_den).buf j
        = text_buf j) ∧
    (display_text fmt str x y fg bg text_buf (get_bpp fmt) scale_num scale_den).desc.width
      = text_len str * glyph_w (clamp_scale_num scale_num) (clamp_scale_den scale_den) ∧
    (display_text fmt str x y fg bg text_buf (get_bpp fmt) scale_num scale_den).desc.pitch
      = text_len str * glyph_w (clamp_scale_num scale_num) (clamp_scale_den scale_den) ∧
    (display_text fmt str x y fg bg text_buf (get_bpp fmt) scale_num scale_den).desc.height
      = glyph_h (clamp_scale_num scale_num) (clamp_scale_den scale_den) ∧
    (display_text fmt str x y fg bg text_buf (get_bpp fmt) scale_num scale_den).desc.buf_size
      = text_len str * glyph_w (clamp_scale_num scale_num) (clamp_scale_den scale_den) *
          glyph_h (clamp_scale_num scale_num) (clamp_scale_den scale_den) * get_bpp fmt ∧
    text_len str * glyph_w (clamp_scale_num scale_num) (clamp_scale_den scale_den) *
        glyph_h (clamp_scale_num scale_num) (clamp_scale_den scale_den) * get_bpp fmt
      ≤ 32 * 24 * 48 * 4 := by
  obtain ⟨hl32, _⟩ := text_len_le str
  obtain ⟨_, hw24, _, hh48, _⟩ := clamped_glyph_bounds scale_num scale_den
  have h4 := get_bpp_le fmt
  have hbound : text_len str * glyph_w (clamp_scale_num scale_num) (clamp_scale_den scale_den) *
        glyph_h (clamp_scale_num scale_num) (clamp_scale_den scale_den) * get_bpp fmt
      ≤ 32 * 24 * 48 * 4 :=
    Nat.mul_le_mul (Nat.mul_le_mul (Nat.mul_le_mul hl32 hw24) hh48) h4
  refine ⟨?_, fun j hj => display_text_outside fmt str x y fg bg text_buf scale_num scale_den j hj,
    ?_, ?_, ?_, ?_, hbound⟩
  · unfold text_len DISPLAY_TEXT_MAX_LEN
    split <;> omega
  · rw [display_text_any]
  · rw [display_text_any]
  · rw [display_text_any]
  · rw [display_text_any]
    simp only
    exact Nat.mod_eq_of_lt (by omega)

/-! ## Claims on the pixel size and the standby text buffer -/

/-- C21: `get_bpp` and `set_pixel_color` agree on the pixel size.  For every
pixel format, every offset, every colour and every buffer: a byte whose index
is outside `[offset, offset + get_bpp fmt)` keeps its value, and each of the
`get_bpp fmt` bytes inside is written, with a value that depends on the format
and the colour only.  The size is 4 for `ARGB_8888`, 3 for `RGB_888`, 2 for
`RGB_565` and `BGR_565`, and 1 for the formats of the default branch. -/
theorem set_pixel_color_writes_bpp_bytes (buf : Buf) (offset : Nat)
    (fmt : display_pixel_format) (color : Nat) :
    (∀ j : Nat, ¬ (offset ≤ j ∧ j < offset + get_bpp fmt) →
      set_pixel_color buf offset fmt color j = buf j) ∧
    (∀ j : Nat, j < offset → set_pixel_color buf offset fmt color j = buf j) ∧
    (∀ j : Nat, offset + get_bpp fmt ≤ j → set_pixel_color buf offset fmt color j = buf j) ∧
    (∀ (other : Buf) (k : Nat), k < get_bpp fmt →
      set_pixel_color buf offset fmt color (offset + k)
        = set_pixel_color other offset fmt color (offset + k)) ∧
    get_bpp PIXEL_FORMAT_ARGB_8888 = 4 ∧ get_bpp PIXEL_FORMAT_RGB_888 = 3 ∧
    get_bpp PIXEL_FORMAT_RGB_565 = 2 ∧ get_bpp PIXEL_FORMAT_BGR_565 = 2 ∧
    get_bpp PIXEL_FORMAT_MONO01 = 1 ∧ get_bpp PIXEL_FORMAT_MONO10 = 1 ∧
    get_bpp PIXEL_FORMAT_L_8 = 1 := by
  have hout : ∀ j : Nat, ¬ (offset ≤ j ∧ j < offset + get_bpp fmt) →
      set_pixel_color buf offset fmt color j = buf j := by
    intro j hj
    rw [set_pixel_color_apply, if_neg hj]
  refine ⟨hout, fun j hj => hout j (by omega), fun j hj => hout j (by omega), ?_,
    rfl, rfl, rfl, rfl, rfl, rfl, rfl⟩
  intro other k hk
  rw [set_pixel_color_apply, set_pixel_color_apply, if_pos (by omega), if_pos (by omega)]

/-- The truncation of `display_thread` leaves at most `STANDBY_TEXT_MAX_LEN`
characters, which `display_text` renders all. -/
theorem standby_truncate_len (s : List Nat) :
    (standby_truncate s).length = min s.length 24 ∧
    text_len (standby_truncate s) = min s.length 24 := by
  have h1 : (standby_truncate s).length = min s.length 24 := by
    unfold standby_truncate STANDBY_TEXT_MAX_LEN
    split
    · rw [List.length_take]
      omega
    · omega
  refine ⟨h1, ?_⟩
  rw [text_len_of_le _ (by omega), h1]

/-- The cell sizes of the two scales `display_thread` uses, as `display_text`
computes them, and the cell size `display_thread` computes for its buffer. -/
theorem standby_cells :
    glyph_w (clamp_scale_num FONT_SCALE_LARGE_NUM) (clamp_scale_den FONT_SCALE_LARGE_DEN) = 12 ∧
    glyph_h (clamp_scale_num FONT_SCALE_LARGE_NUM) (clamp_scale_den FONT_SCALE_LARGE_DEN) = 24 ∧
    glyph_w (clamp_scale_num 1) (clamp_scale_den 1) = 8 ∧
    glyph_h (clamp_scale_num 1) (clamp_scale_den 1) = 16 ∧
    standby_glyph_w = 12 ∧ standby_glyph_h = 24 := by
  refine ⟨by decide, by decide, by decide, by decide, by decide, by decide⟩

/-- The size `display_thread` allocates, without the 32-bit reduction. -/
theorem text_buf_size_eq (fmt : display_pixel_format) :
    text_buf_size (get_bpp fmt) = 24 * 12 * 24 * get_bpp fmt := by
  have h4 := get_bpp_le fmt
  unfold text_buf_size STANDBY_TEXT_MAX_LEN
  rw [standby_cells.2.2.2.2.1, standby_cells.2.2.2.2.2]
  exact Nat.mod_eq_of_lt (by omega)

/-- One `display_text` call on a string of at most 24 characters, in a cell of
at most 12x24 pixels, stays inside the buffer `display_thread` allocates. -/
theorem standby_call_fits (fmt : display_pixel_format) (str : List Nat)
    (x y fg bg : Nat) (buf : Buf) (scale_num scale_den : Int) (gw gh : Nat)
    (hlen : text_len str ≤ 24)
    (hgw : glyph_w (clamp_scale_num scale_num) (clamp_scale_den scale_den) = gw)
    (hgh : glyph_h (clamp_scale_num scale_num) (clamp_scale_den scale_den) = gh)
    (hw12 : gw ≤ 12) (hh24 : gh ≤ 24) :
    (display_text fmt str x y fg bg buf (get_bpp fmt) scale_num scale_den).desc.buf_size
      = text_len str * gw * gh * get_bpp fmt ∧
    text_len str * gw * gh * get_bpp fmt ≤ text_buf_size (get_bpp fmt) ∧
    (∀ j : Nat, text_buf_size (get_bpp fmt) ≤ j →
      (display_text fmt str x y fg bg buf (get_bpp fmt) scale_num scale_den).buf j = buf j) := by
  have h4 := get_bpp_le fmt
  have hle : text_len str * gw * gh * get_bpp fmt ≤ 24 * 12 * 24 * get_bpp fmt :=
    Nat.mul_le_mul_right _ (Nat.mul_le_mul (Nat.mul_le_mul hlen hw12) hh24)
  refine ⟨?_, ?_, ?_⟩
  · rw [display_text_any]
    simp only [hgw, hgh]
    exact Nat.mod_eq_of_lt (by omega)
  · rw [text_buf_size_eq]
    exact hle
  · intro j hj
    rw [text_buf_size_eq] at hj
    apply display_text_outside
    rw [hgw, hgh]
    omega

/-- C22: the buffer `display_thread` allocates for its text,
`STANDBY_TEXT_MAX_LEN * 12 * 24 * bpp = 24 * 12 * 24 * bpp` bytes, is large
enough for each of its three `display_text` calls.  For every pixel format,
every screen width, every version and build string and every content of the
allocated memory: the calls render `min (len, 24)` characters of the version
string in 12x24 cells, `min (len, 24)` characters of the build string in 8x16
cells and the 15 characters of the prompt in 12x24 cells; the byte count
`len * glyph_w * glyph_h * bpp` of each call, which is the `buf_size` handed to
`display_write`, is at most the allocated size, and no call changes a byte at
or above the allocated size. -/
theorem standby_text_buffer_fits (fmt : display_pixel_format) (screen_w : Nat)
    (version_str build_str : List Nat) (text_buf : Buf) :
    text_buf_size (get_bpp fmt) = 24 * 12 * 24 * get_bpp fmt ∧
    prompt_str.length = 15 ∧
    display_thread_text fmt screen_w version_str build_str none = [] ∧
    ∃ w1 w2 w3 : TextWrite,
      display_thread_text fmt screen_w version_str build_str (some text_buf) = [w1, w2, w3] ∧
      w1.desc.buf_size = min version_str.length 24 * 12 * 24 * get_bpp fmt ∧
      w2.desc.buf_size = min build_str.length 24 * 8 * 16 * get_bpp fmt ∧
      w3.desc.buf_size = 15 * 12 * 24 * get_bpp fmt ∧
      w1.desc.buf_size ≤ text_buf_size (get_bpp fmt) ∧
      w2.desc.buf_size ≤ text_buf_size (get_bpp fmt) ∧
      w3.desc.buf_size ≤ text_buf_size (get_bpp fmt) ∧
      (∀ j : Nat, text_buf_size (get_bpp fmt) ≤ j →
        w1.buf j = text_buf j ∧ w2.buf j = text_buf j ∧ w3.buf j = text_buf j) := by
  obtain ⟨c12, c24, c8, c16, _, _⟩ := standby_cells
  obtain ⟨_, hv⟩ := standby_truncate_len version_str
  obtain ⟨_, hb⟩ := standby_truncate_len build_str
  have hp : text_len prompt_str = 15 := by decide
  refine ⟨text_buf_size_eq fmt, by decide, rfl, _, _, _, rfl, ?_⟩
  have f1 := standby_call_fits fmt (standby_truncate version_str)
    (text_center_x screen_w ((standby_truncate version_str).length * standby_glyph_w % 65536)) 0
    COLOR_ORANGE COLOR_BLACK text_buf FONT_SCALE_LARGE_NUM FONT_SCALE_LARGE_DEN 12 24
    (by omega) c12 c24 (by omega) (by omega)
  have f2 := standby_call_fits fmt (standby_truncate build_str)
    (text_center_x screen_w ((standby_truncate build_str).length * FONT_W % 65536))
    ((standby_glyph_h + 8) % 65536) COLOR_WHITE COLOR_BLACK
    (display_text fmt (standby_truncate version_str)
      (text_center_x screen_w ((standby_truncate version_str).length * standby_glyph_w % 65536)) 0
      COLOR_ORANGE COLOR_BLACK text_buf (get_bpp fmt) FONT_SCALE_LARGE_NUM
      FONT_SCALE_LARGE_DEN).buf
    1 1 8 16 (by omega) c8 c16 (by omega) (by omega)
  have f3 := standby_call_fits fmt prompt_str
    (text_center_x screen_w (prompt_str.length * standby_glyph_w % 65536))
    (((standby_glyph_h <<< 1) + 16) % 65536) COLOR_YELLOW COLOR_BLUE
    (display_text fmt (standby_truncate build_str)
      (text_center_x screen_w ((standby_truncate build_str).length * FONT_W % 65536))
      ((standby_glyph_h + 8) % 65536) COLOR_WHITE COLOR_BLACK
      (display_text fmt (standby_truncate version_str)
        (text_center_x screen_w ((standby_truncate version_str).length * standby_glyph_w % 65536))
        0 COLOR_ORANGE COLOR_BLACK text_buf (get_bpp fmt) FONT_SCALE_LARGE_NUM
        FONT_SCALE_LARGE_DEN).buf
      (get_bpp fmt) 1 1).buf
    FONT_SCALE_LARGE_NUM FONT_SCALE_LARGE_DEN 12 24 (by omega) c12 c24 (by omega) (by omega)
  rw [hv] at f1
  rw [hb] at f2
  rw [hp] at f3
  refine ⟨f1.1, f2.1, f3.1, ?_, ?_, ?_, ?_⟩
  · rw [f1.1]; exact f1.2.1
  · rw [f2.1]; exact f2.2.1
  · rw [f3.1]; exact f3.2.1
  · intro j hj
    have g1 := f1.2.2 j hj
    have g2 := f2.2.2 j hj
    have g3 := f3.2.2 j hj
    exact ⟨g1, g2.trans g1, g3.trans (g2.trans g1)⟩

end Stm32Fw
